import Mathlib

/-!
# Voxel sort of the particle list (`src/species_advance/standard/sort_p.c`)

A shallow embedding of the out-of-place counting sort `sort_p` and of its three
pipeline kernels `coarse_count_pipeline`, `coarse_sort_pipeline` and
`subsort_pipeline`, followed by theorems about them.

Modelling conventions.

* C arrays are lists; a pointer held in the argument block is modelled by the
  contents of the region it points to.  The regions are pairwise disjoint in
  the program (`RESTRICT`), so value semantics is exact.
* C `int` values are `Int`.  Every value the kernels compute is a particle
  count or an index bounded by `np` or `n_voxel`, which are themselves C
  `int`s, so no wrap-around can occur; `size_t` arithmetic is taken modulo
  `SIZE_MAX + 1`.
* An array access outside the array and a negative `memset`/`memcpy` length
  are undefined behaviour: the kernels return `none` there.  Of a kernel's
  local array only the prefix the kernel initialises is modelled, so a read
  of an uninitialised slot is an access outside the array.
* The kernels of one `EXEC_PIPELINES` stage run one after the other in rank
  order, the straggler (rank `N_PIPELINE`) last.
-/

namespace SortP

/-! ## Data model -/

/-- A particle record.  The `float` fields are carried as raw 32-bit words: the
sort only ever reads the voxel index `i` and copies records whole. -/
structure particle_t where
  dx : Nat
  dy : Nat
  dz : Nat
  i : Int
  ux : Nat
  uy : Nat
  uz : Nat
  q : Nat
  deriving DecidableEq, Repr

/-- The grid fields `sort_p` reads. -/
structure grid_t where
  nx : Int
  ny : Int
  nz : Int
  deriving DecidableEq, Repr

/-- The species fields `sort_p` reads and writes.  `p` is the particle storage
(`max_np` records, of which the first `np` are live); `partition` is `none`
while the table pointer is `NULL`. -/
structure species_t where
  p : List particle_t
  np : Int
  partition : Option (List Int)
  deriving DecidableEq, Repr

/-- The argument block shared by the pipeline kernels, with each pointer
replaced by the contents of the region it addresses. -/
structure sort_p_pipeline_args_t where
  p : List particle_t
  aux_p : List particle_t
  coarse_partition : List Int
  partition : List Int
  next : List Int
  n : Int
  n_subsort : Int
  vl : Int
  vh : Int
  n_voxel : Int
  deriving DecidableEq, Repr

/-- Declarations of `spa_private.h` and of the pipeline dispatcher that
`sort_p.c` uses and that are not part of the translated file.  They are
parameters of the model. -/
structure spa_private where
  /-- number of pipelines the dispatcher runs (`N_PIPELINE`) -/
  N_PIPELINE : Int
  /-- compile-time bound on the number of pipelines -/
  MAX_PIPELINE : Int
  /-- capacity of the per-pipeline coarse arrays (`MP`) -/
  max_subsort : Int
  /-- block granularity of the slices (`BS`) -/
  sort_block_size : Int
  /-- voxel index to subsort bucket: `V2P( v, P, V_l, V_h )` -/
  V2P : Int → Int → Int → Int → Int
  /-- subsort bucket to first voxel index: `P2V( p, P, V_l, V_h )` -/
  P2V : Int → Int → Int → Int → Int
  /-- slice of a pipeline: `DISTRIBUTE( N, b, p, P, i, n )` yields `(i, n)` -/
  DISTRIBUTE : Int → Int → Int → Int → Int × Int
  /-- linear voxel index: `VOXEL( x, y, z, nx, ny, nz )` -/
  VOXEL : Int → Int → Int → Int → Int → Int → Int
  /-- largest `size_t` value -/
  SIZE_MAX : Nat
  /-- `sizeof(particle_t)` -/
  sizeof_particle : Nat
  /-- `sizeof(int)` -/
  sizeof_int : Nat
  /-- largest `int` value (`INT_MAX` of `limits.h`); the least is `-INT_MAX - 1` -/
  INT_MAX : Int

/-- Contents of storage the program obtains without initialising it: a fresh
or stale scratch buffer, a fresh offset table, the local coarse array. -/
structure junk_t where
  scratch_p : Nat → particle_t
  scratch_next : Nat → Int
  coarse_partition : Nat → Int
  partition : Nat → Int

/-- The function-static variables of `sort_p` that outlive a call. -/
structure sort_p_static where
  max_scratch : Nat
  deriving DecidableEq, Repr

/-! ## Memory primitives -/

/-- The read `a[j]`. -/
def load {α : Type} (a : List α) (j : Int) : Option α :=
  if 0 ≤ j then a[j.toNat]? else none

/-- The write `a[j] = x`. -/
def store {α : Type} (a : List α) (j : Int) (x : α) : Option (List α) :=
  if 0 ≤ j ∧ j < a.length then some (a.set j.toNat x) else none

/-- The loop `for( ; n iterations; i++ ) body`, started at `i`. -/
def for_loop {σ : Type} (body : Int → σ → Option σ) : Nat → Int → σ → Option σ
  | 0, _, s => some s
  | n + 1, i, s => (body i s).bind (for_loop body n (i + 1))

/-- The loop `for( i=lo; i<hi; i++ ) body`; neither bound is assigned in a
body of this file. -/
def for_range {σ : Type} (body : Int → σ → Option σ) (lo hi : Int) (s : σ) : Option σ :=
  for_loop body (hi - lo).toNat lo s

/-- The first `n` slots of `a` from slot `off` on replaced by `x`. -/
def fill {α : Type} (a : List α) (x : α) : Nat → Nat → List α
  | _, 0 => a
  | off, n + 1 => fill (a.set off x) x (off + 1) n

/-- Modelled from the spec: the macro `CLEAR( &a[off], n )`, which zeroes the
`n` entries of `a` starting at `off` ("clear the shared per-voxel cursor array
entries for `[v0, v1)` only"). -/
def CLEAR (a : List Int) (off n : Int) : Option (List Int) :=
  if 0 ≤ off ∧ 0 ≤ n ∧ off + n ≤ a.length then some (fill a 0 off.toNat n.toNat) else none

/-- Modelled from the spec: the macro `COPY( &d[doff], &s[soff], n )`, which
copies `n` entries ("copy the result from scratch back into the primary
array's storage"). -/
def COPY {α : Type} (d : List α) (doff : Int) (s : List α) (soff n : Int) : Option (List α) :=
  if 0 ≤ doff ∧ 0 ≤ soff ∧ 0 ≤ n ∧ doff + n ≤ d.length ∧ soff + n ≤ s.length then
    some (d.take doff.toNat ++ (s.drop soff.toNat).take n.toNat ++ d.drop (doff + n).toNat)
  else none

/-! ## `coarse_count_pipeline` -/

/-- Body of the loop at line 36: `count[ V2P( p_src[i].i, n_subsort, vl, vh ) ]++`. -/
def coarse_count_body (h : spa_private) (p_src : List particle_t) (n_subsort vl vh : Int)
    (i : Int) (count : List Int) : Option (List Int) := do
  let x ← load p_src i
  let b := h.V2P x.i n_subsort vl vh
  let c ← load count b
  store count b (c + 1)

/-- The kernel `coarse_count_pipeline`.  Of the local array `count[ MP ]` only
the `n_subsort` entries that `CLEAR` initialises are modelled. -/
def coarse_count_pipeline (h : spa_private) (args : sort_p_pipeline_args_t)
    (pipeline_rank n_pipeline : Int) : Option sort_p_pipeline_args_t := do
  let p_src := args.p
  let d := h.DISTRIBUTE args.n h.sort_block_size pipeline_rank n_pipeline
  let i := d.1
  let i1 := d.2 + i
  let n_subsort := args.n_subsort
  let vl := args.vl
  let vh := args.vh
  let count ← if 0 ≤ n_subsort ∧ n_subsort ≤ h.max_subsort then
      some (List.replicate n_subsort.toNat (0 : Int)) else none
  let count ← for_range (coarse_count_body h p_src n_subsort vl vh) i i1 count
  let cp ← COPY args.coarse_partition (h.max_subsort * pipeline_rank) count 0 n_subsort
  pure { args with coarse_partition := cp }

/-! ## `coarse_sort_pipeline` -/

/-- Body of the loop at lines 67-75:
`j = next[ V2P( p_src[i].i, n_subsort, vl, vh ) ]++; p_dst[j] = p_src[i]`. -/
def coarse_sort_body (h : spa_private) (p_src : List particle_t) (n_subsort vl vh : Int)
    (i : Int) (s : List Int × List particle_t) : Option (List Int × List particle_t) := do
  let x ← load p_src i
  let b := h.V2P x.i n_subsort vl vh
  let j ← load s.1 b
  let next ← store s.1 b (j + 1)
  let p_dst ← store s.2 j x
  pure (next, p_dst)

/-- The kernel `coarse_sort_pipeline`.  Of the local array `next[ MP ]` only the
`n_subsort` entries that `COPY` initialises are modelled. -/
def coarse_sort_pipeline (h : spa_private) (args : sort_p_pipeline_args_t)
    (pipeline_rank n_pipeline : Int) : Option sort_p_pipeline_args_t := do
  let p_src := args.p
  let p_dst := args.aux_p
  let d := h.DISTRIBUTE args.n h.sort_block_size pipeline_rank n_pipeline
  let i := d.1
  let i1 := d.2 + i
  let n_subsort := args.n_subsort
  let vl := args.vl
  let vh := args.vh
  let next ← if 0 ≤ n_subsort ∧ n_subsort ≤ h.max_subsort then
      COPY (List.replicate n_subsort.toNat (0 : Int)) 0 args.coarse_partition
        (h.max_subsort * pipeline_rank) n_subsort
    else none
  let s ← for_range (coarse_sort_body h p_src n_subsort vl vh) i i1 (next, p_dst)
  pure { args with aux_p := s.2 }

/-! ## `subsort_pipeline` -/

/-- Body of the loop at line 106: `next[ p_src[i].i ]++`. -/
def subsort_count_body (p_src : List particle_t) (i : Int) (next : List Int) :
    Option (List Int) := do
  let x ← load p_src i
  let c ← load next x.i
  store next x.i (c + 1)

/-- Body of the loop at lines 110-115; the state is `(next, partition, sum)`. -/
def subsort_prefix_body (v : Int) (s : List Int × List Int × Int) :
    Option (List Int × List Int × Int) := do
  let count ← load s.1 v
  let next ← store s.1 v s.2.2
  let partition ← store s.2.1 v s.2.2
  pure (next, partition, s.2.2 + count)

/-- Body of the loop at lines 119-128: `v = p_src[i].i; j = next[v]++;
p_dst[j] = p_src[i]`; the state is `(next, p_dst)`. -/
def subsort_scatter_body (p_src : List particle_t) (i : Int)
    (s : List Int × List particle_t) : Option (List Int × List particle_t) := do
  let x ← load p_src i
  let v := x.i
  let j ← load s.1 v
  let next ← store s.1 v (j + 1)
  let p_dst ← store s.2 j x
  pure (next, p_dst)

/-- The kernel `subsort_pipeline`. -/
def subsort_pipeline (h : spa_private) (args : sort_p_pipeline_args_t)
    (pipeline_rank n_pipeline : Int) : Option sort_p_pipeline_args_t :=
  if pipeline_rank = n_pipeline then some args else do
    let p_src := args.aux_p
    let p_dst := args.p
    let i0 ← load args.coarse_partition pipeline_rank
    let i1 ← load args.coarse_partition (pipeline_rank + 1)
    let v0 := h.P2V pipeline_rank n_pipeline args.vl args.vh
    let v1 := h.P2V (pipeline_rank + 1) n_pipeline args.vl args.vh
    let v0 := if pipeline_rank = 0 then 0 else v0
    let v1 := if pipeline_rank = n_pipeline - 1 then args.n_voxel else v1
    let next ← CLEAR args.next v0 (v1 - v0)
    let next ← for_range (subsort_count_body p_src) i0 i1 next
    let s ← for_range subsort_prefix_body v0 v1 (next, args.partition, i0)
    let partition ← store s.2.1 v1 s.2.2
    let t ← for_range (subsort_scatter_body p_src) i0 i1 (s.1, p_dst)
    pure { args with p := t.2, partition := partition, next := t.1 }

/-! ## `sort_p` -/

/-- Modelled from the spec: the dispatcher macros `EXEC_PIPELINES( name, args, 0 )`
followed by `WAIT_PIPELINES()`: the kernel is invoked once for every rank
`0 .. N_PIPELINE`, each time with `n_pipeline = N_PIPELINE` (rank `N_PIPELINE`
is the straggler), and all invocations have completed on return. -/
def EXEC_PIPELINES (h : spa_private)
    (kernel : sort_p_pipeline_args_t → Int → Int → Option sort_p_pipeline_args_t)
    (args : sort_p_pipeline_args_t) : Option sort_p_pipeline_args_t :=
  for_loop (fun r a => kernel a r h.N_PIPELINE) (h.N_PIPELINE + 1).toNat 0 args

/-- Body of the nested loop at lines 183-188; the state is
`(coarse_partition, sum)`. -/
def coarse_partition_body (h : spa_private) (q p : Int) (s : List Int × Int) :
    Option (List Int × Int) := do
  let count ← load s.1 (q + h.max_subsort * p)
  let cp ← store s.1 (q + h.max_subsort * p) s.2
  pure (cp, s.2 + count)

/-- The loops at lines 182-188, which turn the coarse counts into a coarse
partitioning. -/
def coarse_partition_loop (h : spa_private) (n_subsort n_coarse_pipeline : Int)
    (coarse_partition : List Int) : Option (List Int × Int) :=
  for_range (fun q s => for_range (fun p s => coarse_partition_body h q p s)
    0 n_coarse_pipeline s) 0 n_subsort (coarse_partition, 0)

/-- Conversion of an `int` to `size_t`. -/
def to_size_t (h : spa_private) (x : Int) : Nat :=
  (x % ((h.SIZE_MAX : Int) + 1)).toNat

/-- The value of `sz_scratch` computed at lines 155-156. -/
def sz_scratch (h : spa_private) (np n_voxel : Int) : Nat :=
  (h.sizeof_particle * to_size_t h np + (128 + h.sizeof_int * to_size_t h n_voxel))
    % (h.SIZE_MAX + 1)

/-- The value of `n_voxel` computed at line 143 when the `int` arithmetic does not
overflow (see `int_defined`); on overflow the program has undefined behaviour and `sort_p`
returns nothing. -/
def n_voxel (g : grid_t) : Int :=
  (g.nx + 2) * (g.ny + 2) * (g.nz + 2)

/-- The values that an `int` holds: `-INT_MAX - 1 <= x <= INT_MAX`. -/
def int_range (h : spa_private) (x : Int) : Prop :=
  -h.INT_MAX - 1 ≤ x ∧ x ≤ h.INT_MAX

instance (h : spa_private) (x : Int) : Decidable (int_range h x) := by
  unfold int_range
  infer_instance

/-- The `int` arithmetic of lines 143 and 151 has defined behaviour: `sp->np`, `g->nx`,
`g->ny` and `g->nz` are `int` values, the sums `g->nx+2`, `g->ny+2`, `g->nz+2`, the product
`(g->nx+2)*(g->ny+2)` and its product with `g->nz+2` do not overflow, and neither does
`n_voxel+1` when the offset table is allocated.  Only then is `n_voxel g` the value that
line 143 computes. -/
def int_defined (h : spa_private) (sp : species_t) (g : grid_t) : Prop :=
  int_range h sp.np ∧ int_range h g.nx ∧ int_range h g.ny ∧ int_range h g.nz ∧
    int_range h (g.nx + 2) ∧ int_range h (g.ny + 2) ∧ int_range h (g.nz + 2) ∧
    int_range h ((g.nx + 2) * (g.ny + 2)) ∧ int_range h (n_voxel g) ∧
    (sp.partition = none → int_range h (n_voxel g + 1))

instance (h : spa_private) (sp : species_t) (g : grid_t) : Decidable (int_defined h sp g) := by
  unfold int_defined
  infer_instance

/-- Lines 153-161 of `sort_p`: the cached scratch buffer is replaced by a larger
one when the required size exceeds the cached size. -/
def ensure_scratch (h : spa_private) (st : sort_p_static) (np n_voxel : Int) : sort_p_static :=
  let sz := sz_scratch h np n_voxel
  if sz > st.max_scratch then { max_scratch := sz } else st

/-- Line 151 of `sort_p`: the offset table, allocated with `n_voxel + 1`
entries when the pointer is `NULL`. -/
def partition_table (junk : junk_t) (sp : species_t) (g : grid_t) : List Int :=
  match sp.partition with
  | some t => t
  | none => (List.range (n_voxel g + 1).toNat).map junk.partition

/-- Lines 163-173 of `sort_p`: the argument block is set up.  `scratch` is the
view of the scratch buffer as particle records; the cursors follow it. -/
def setup_args (h : spa_private) (junk : junk_t) (sp : species_t) (g : grid_t)
    (scratch : List particle_t) : sort_p_pipeline_args_t :=
  { p := sp.p
    aux_p := scratch
    coarse_partition :=
      (List.range (h.max_subsort * (h.MAX_PIPELINE + 1)).toNat).map junk.coarse_partition
    partition := partition_table junk sp g
    next := (List.range (n_voxel g).toNat).map junk.scratch_next
    n := sp.np
    n_subsort := h.N_PIPELINE
    vl := h.VOXEL 1 1 1 g.nx g.ny g.nz
    vh := h.VOXEL g.nx g.ny g.nz g.nx g.ny g.nz
    n_voxel := n_voxel g }

/-- Lines 177-200 of `sort_p`: the branch `n_subsort>1`. -/
def sort_p_parallel (h : spa_private) (args : sort_p_pipeline_args_t) (sp : species_t) :
    Option species_t := do
  let n_coarse_pipeline := h.N_PIPELINE + 1
  let n_subsort := h.N_PIPELINE
  let args ← EXEC_PIPELINES h (coarse_count_pipeline h) args
  let s ← coarse_partition_loop h n_subsort n_coarse_pipeline args.coarse_partition
  let args := { args with coarse_partition := s.1 }
  let args ← EXEC_PIPELINES h (coarse_sort_pipeline h) args
  let cp ← store args.coarse_partition n_subsort sp.np
  let args := { args with coarse_partition := cp }
  let args ← EXEC_PIPELINES h (subsort_pipeline h) args
  pure { sp with p := args.p, partition := some args.partition }

/-- Lines 177-188 of `sort_p`: the coarse counts of the pipelines and the coarse
partitioning made of them. -/
def coarse_offsets (h : spa_private) (args : sort_p_pipeline_args_t) :
    Option sort_p_pipeline_args_t := do
  let n_coarse_pipeline := h.N_PIPELINE + 1
  let n_subsort := h.N_PIPELINE
  let args ← EXEC_PIPELINES h (coarse_count_pipeline h) args
  let s ← coarse_partition_loop h n_subsort n_coarse_pipeline args.coarse_partition
  pure { args with coarse_partition := s.1 }

/-- Lines 177-196 of `sort_p`: the coarse stage of the branch `n_subsort>1`, up to the
store `coarse_partition[n_subsort] = sp->np`. -/
def coarse_stage (h : spa_private) (args : sort_p_pipeline_args_t) (sp : species_t) :
    Option sort_p_pipeline_args_t := do
  let n_subsort := h.N_PIPELINE
  let args ← coarse_offsets h args
  let args ← EXEC_PIPELINES h (coarse_sort_pipeline h) args
  let cp ← store args.coarse_partition n_subsort sp.np
  pure { args with coarse_partition := cp }

/-- The body of the loop at lines 67-75 with a log of its stores: next to the cursors and
the destination array the state holds the indices `j` of the stores `p_dst[j] = p_src[i]`
made so far, in the order of the stores. -/
def coarse_sort_body_logged (h : spa_private) (p_src : List particle_t) (n_subsort vl vh : Int)
    (i : Int) (s : List Int × List particle_t × List Int) :
    Option (List Int × List particle_t × List Int) := do
  let x ← load p_src i
  let b := h.V2P x.i n_subsort vl vh
  let j ← load s.1 b
  let next ← store s.1 b (j + 1)
  let p_dst ← store s.2.1 j x
  pure (next, p_dst, s.2.2 ++ [j])

/-- The kernel `coarse_sort_pipeline` with the log of its stores to `p_dst`. -/
def coarse_sort_pipeline_logged (h : spa_private) (args : sort_p_pipeline_args_t)
    (pipeline_rank n_pipeline : Int) : Option (sort_p_pipeline_args_t × List Int) := do
  let p_src := args.p
  let p_dst := args.aux_p
  let d := h.DISTRIBUTE args.n h.sort_block_size pipeline_rank n_pipeline
  let i := d.1
  let i1 := d.2 + i
  let n_subsort := args.n_subsort
  let vl := args.vl
  let vh := args.vh
  let next ← if 0 ≤ n_subsort ∧ n_subsort ≤ h.max_subsort then
      COPY (List.replicate n_subsort.toNat (0 : Int)) 0 args.coarse_partition
        (h.max_subsort * pipeline_rank) n_subsort
    else none
  let s ← for_range (coarse_sort_body_logged h p_src n_subsort vl vh) i i1 (next, p_dst, [])
  pure ({ args with aux_p := s.2.1 }, s.2.2)

/-- The dispatch of `coarse_sort_pipeline` at line 191 with the logs of the pipelines: the
state holds the argument block and the logs of the pipelines run so far, one after the
other. -/
def EXEC_coarse_sort_logged (h : spa_private) (args : sort_p_pipeline_args_t) :
    Option (sort_p_pipeline_args_t × List Int) :=
  for_loop (fun r s => (coarse_sort_pipeline_logged h s.1 r h.N_PIPELINE).map
    fun t => (t.1, s.2 ++ t.2)) (h.N_PIPELINE + 1).toNat 0 (args, [])

/-- Lines 204-218 of `sort_p`: the single-threaded branch. -/
def sort_p_serial (h : spa_private) (args : sort_p_pipeline_args_t)
    (scratch : List particle_t) (sp : species_t) : Option species_t := do
  let n_subsort := h.N_PIPELINE
  let cp ← store args.coarse_partition 0 0
  let cp ← store cp n_subsort sp.np
  let args := { args with coarse_partition := cp, p := scratch, aux_p := sp.p }
  let args ← subsort_pipeline h args 0 1
  let p ← COPY sp.p 0 args.p 0 sp.np
  pure { sp with p := p, partition := some args.partition }

/-- The function `sort_p`.  The voxel count of line 143 is computed in `int`, where
overflow is undefined.  The scratch buffer is viewed as `np` particle
records followed by `n_voxel` cursors; when the buffer is too small to hold
them the accesses through these views are undefined. -/
def sort_p (h : spa_private) (junk : junk_t) (st : sort_p_static) (sp : species_t)
    (g : grid_t) : Option (sort_p_static × species_t) :=
  if int_defined h sp g then
    let n_subsort := h.N_PIPELINE
    let n_voxel := n_voxel g
    let st' := ensure_scratch h st sp.np n_voxel
    if h.sizeof_particle * sp.np.toNat + h.sizeof_int * n_voxel.toNat ≤ st'.max_scratch then
      let scratch := (List.range sp.np.toNat).map junk.scratch_p
      let args := setup_args h junk sp g scratch
      (if n_subsort > 1 then sort_p_parallel h args sp
        else sort_p_serial h args scratch sp).map (fun sp' => (st', sp'))
    else none
  else none

/-- The conditions under which a call of `sort_p` has defined behaviour: the
particle storage holds the `np` live records, the grid has a voxel count, a
table that is already allocated has `n_voxel + 1` entries, the scratch size
is representable in `size_t`, and the pipeline count respects the
compile-time capacities of the coarse arrays. -/
structure sort_p_pre (h : spa_private) (sp : species_t) (g : grid_t) : Prop where
  np_nonneg : 0 ≤ sp.np
  np_le : sp.np ≤ sp.p.length
  n_voxel_nonneg : 0 ≤ n_voxel g
  partition_length : ∀ t, sp.partition = some t → (t.length : Int) = n_voxel g + 1
  scratch_fits :
    h.sizeof_particle * sp.np.toNat + 128 + h.sizeof_int * (n_voxel g).toNat ≤ h.SIZE_MAX
  pipelines : 1 ≤ h.N_PIPELINE ∧ h.N_PIPELINE ≤ h.MAX_PIPELINE ∧ h.N_PIPELINE ≤ h.max_subsort

/-- The live records of a species: the first `np` entries of its storage. -/
def live (sp : species_t) : List particle_t :=
  sp.p.take sp.np.toNat

/-! ## Specification vocabulary -/

/-- The `n` entries of `l` from index `lo` on. -/
def seg {α : Type} (l : List α) (lo n : Nat) : List α :=
  (l.drop lo).take n

/-- Number of records of `l` whose key is `v`. -/
def cnt (key : particle_t → Int) (l : List particle_t) (v : Int) : Nat :=
  l.countP (fun x => decide (key x = v))

/-- Number of records of `l` whose key is below `v`. -/
def below (key : particle_t → Int) (l : List particle_t) (v : Int) : Nat :=
  l.countP (fun x => decide (key x < v))

/-- The records of `l` with key `v`, in the order they have in `l`. -/
def at_key (key : particle_t → Int) (l : List particle_t) (v : Int) : List particle_t :=
  l.filter (fun x => decide (key x = v))

/-- The records of `l` with key in `[v0, v0 + n)`, key by key, in the order
they have in `l` within a key. -/
def by_key (key : particle_t → Int) (l : List particle_t) (v0 : Int) (n : Nat) :
    List particle_t :=
  (List.range n).flatMap (fun k => at_key key l (v0 + k))

/-- The key of the fine sort: the voxel index of a record. -/
def voxel (x : particle_t) : Int := x.i

/-- The key of the coarse sort: the subsort bucket of a record. -/
def bucket (h : spa_private) (n_subsort vl vh : Int) (x : particle_t) : Int :=
  h.V2P x.i n_subsort vl vh

/-- One histogram step `next[ key( p_src[i] ) ]++`. -/
def count_step (key : particle_t → Int) (p_src : List particle_t) (i : Int)
    (next : List Int) : Option (List Int) := do
  let x ← load p_src i
  let c ← load next (key x)
  store next (key x) (c + 1)

/-- One scatter step `j = next[ key( p_src[i] ) ]++; p_dst[j] = p_src[i]`. -/
def scatter_step (key : particle_t → Int) (p_src : List particle_t) (i : Int)
    (s : List Int × List particle_t) : Option (List Int × List particle_t) := do
  let x ← load p_src i
  let j ← load s.1 (key x)
  let next ← store s.1 (key x) (j + 1)
  let p_dst ← store s.2 j x
  pure (next, p_dst)

/-! ## Vocabulary of the parallel branch -/

/-- First index `i` of the slice of the particle array that `DISTRIBUTE` hands
to a pipeline (lines 27 and 58). -/
def slice_lo (h : spa_private) (np : Int) (rank : Int) : Int :=
  (h.DISTRIBUTE np h.sort_block_size rank h.N_PIPELINE).1

/-- End index `i1` of that slice, after `i1 += i`. -/
def slice_hi (h : spa_private) (np : Int) (rank : Int) : Int :=
  (h.DISTRIBUTE np h.sort_block_size rank h.N_PIPELINE).2
    + (h.DISTRIBUTE np h.sort_block_size rank h.N_PIPELINE).1

/-- The records of the slice of a pipeline. -/
def slice (h : spa_private) (sp : species_t) (rank : Nat) : List particle_t :=
  seg sp.p (slice_lo h sp.np rank).toNat (slice_hi h sp.np rank - slice_lo h sp.np rank).toNat

/-- The slices of the pipelines of rank below `m`, one after the other. -/
def slices_cat (h : spa_private) (sp : species_t) (m : Nat) : List particle_t :=
  ((List.range m).map (slice h sp)).flatten

/-- First voxel `v0` of the range of a subsort pipeline (lines 97 and 99). -/
def range_lo (h : spa_private) (g : grid_t) (rank : Int) : Int :=
  if rank = 0 then 0
  else h.P2V rank h.N_PIPELINE (h.VOXEL 1 1 1 g.nx g.ny g.nz)
    (h.VOXEL g.nx g.ny g.nz g.nx g.ny g.nz)

/-- End voxel `v1` of the range of a subsort pipeline (lines 98 and 100). -/
def range_hi (h : spa_private) (g : grid_t) (rank : Int) : Int :=
  if rank = h.N_PIPELINE - 1 then n_voxel g
  else h.P2V (rank + 1) h.N_PIPELINE (h.VOXEL 1 1 1 g.nx g.ny g.nz)
    (h.VOXEL g.nx g.ny g.nz g.nx g.ny g.nz)

/-- The subsort bucket that the coarse kernels compute for a record of `sp`. -/
def bucket_of (h : spa_private) (g : grid_t) : particle_t → Int :=
  bucket h h.N_PIPELINE (h.VOXEL 1 1 1 g.nx g.ny g.nz)
    (h.VOXEL g.nx g.ny g.nz g.nx g.ny g.nz)

/-- What the parallel branch needs of the macros of `spa_private.h` on a given
input: the bucket mapper sends every live record to a subsort pipeline whose
voxel range contains the record's voxel index, no voxel range has its end
before its start, and the slices of the `N_PIPELINE + 1` coarse pipelines
(straggler included) tile `[0, np)`: a slice that is not empty lies inside,
two slices do not overlap, and every index lies in a slice. -/
structure parallel_pre (h : spa_private) (sp : species_t) (g : grid_t) : Prop where
  buckets : ∀ x ∈ live sp, 0 ≤ bucket_of h g x ∧ bucket_of h g x < h.N_PIPELINE ∧
    range_lo h g (bucket_of h g x) ≤ x.i ∧ x.i < range_hi h g (bucket_of h g x)
  ranges : ∀ r : Nat, r < h.N_PIPELINE.toNat → range_lo h g r ≤ range_hi h g r
  slices_inside : ∀ r : Nat, r < h.N_PIPELINE.toNat + 1 →
    slice_hi h sp.np r ≤ slice_lo h sp.np r ∨
      (0 ≤ slice_lo h sp.np r ∧ slice_hi h sp.np r ≤ sp.np)
  slices_disjoint : ∀ r : Nat, r < h.N_PIPELINE.toNat + 1 → ∀ r' : Nat, r' < r →
    slice_hi h sp.np r ≤ slice_lo h sp.np r ∨ slice_hi h sp.np r' ≤ slice_lo h sp.np r' ∨
      slice_hi h sp.np r ≤ slice_lo h sp.np r' ∨ slice_hi h sp.np r' ≤ slice_lo h sp.np r
  slices_cover : ∀ j : Nat, j < sp.np.toNat → ∃ r : Nat, r < h.N_PIPELINE.toNat + 1 ∧
    slice_lo h sp.np r ≤ j ∧ (j : Int) < slice_hi h sp.np r

/-- The voxel at which the range of subsort pipeline `r` starts; for
`r = N_PIPELINE` the end of the last range. -/
def range_start (h : spa_private) (g : grid_t) (r : Nat) : Int :=
  if r < h.N_PIPELINE.toNat then range_lo h g r else n_voxel g

/-- The records the coarse sort leaves in bucket `r` of the auxiliary array,
sorted by voxel as subsort pipeline `r` writes them back. -/
def fine_sorted (h : spa_private) (sp : species_t) (g : grid_t) (r : Nat) : List particle_t :=
  by_key voxel (at_key (bucket_of h g) (slices_cat h sp (h.N_PIPELINE.toNat + 1)) r)
    (range_start h g r) (range_start h g (r + 1) - range_start h g r).toNat

/-- The live records as the parallel branch leaves them: bucket by bucket, and
voxel by voxel within a bucket. -/
def parallel_sorted (h : spa_private) (sp : species_t) (g : grid_t) : List particle_t :=
  ((List.range h.N_PIPELINE.toNat).map (fine_sorted h sp g)).flatten

/-- The build `h` run with a single pipeline. -/
def serial (h : spa_private) : spa_private :=
  { h with N_PIPELINE := 1 }

/-- The entries of `p` that the offset table `T` assigns to voxel `v`:
`p[T[v]], ..., p[T[v+1] - 1]`. -/
def voxel_run (p : List particle_t) (T : List Int) (v : Nat) : List particle_t :=
  seg p (T.getD v 0).toNat (T.getD (v + 1) 0 - T.getD v 0).toNat

/-- The outcome of a voxel sort of the records `L`: the array `P` holds the
same records, the table `T` has `nv + 1` entries, entry `k` counts the records
of a voxel below `k`, and the entries of `P` from `T[v]` up to `T[v+1]` have
voxel index `v`. -/
structure sorted_by_voxel (L P : List particle_t) (T : List Int) (nv : Nat) : Prop where
  perm : P.Perm L
  table_length : T.length = nv + 1
  table : ∀ k : Nat, k ≤ nv → T[k]? = some ((below voxel L k : Nat) : Int)
  grouped : ∀ v : Nat, v < nv → ∀ i : Nat, below voxel L v ≤ i →
    i < below voxel L ((v : Int) + 1) → ∃ x, P[i]? = some x ∧ x.i = v


/-- The value of `v0` after lines 97 and 99 of `subsort_pipeline`. -/
def subsort_v0 (h : spa_private) (args : sort_p_pipeline_args_t)
    (pipeline_rank n_pipeline : Int) : Int :=
  if pipeline_rank = 0 then 0 else h.P2V pipeline_rank n_pipeline args.vl args.vh

/-- The value of `v1` after lines 98 and 100 of `subsort_pipeline`. -/
def subsort_v1 (h : spa_private) (args : sort_p_pipeline_args_t)
    (pipeline_rank n_pipeline : Int) : Int :=
  if pipeline_rank = n_pipeline - 1 then args.n_voxel
  else h.P2V (pipeline_rank + 1) n_pipeline args.vl args.vh

/-- The sum of the counts `count q' p'` over the cells `(q', p')` of the histogram matrix,
`q' < n_subsort` and `p' < n_coarse_pipeline`, that come before the cell `(q, p)` in
bucket-major, worker-minor order: `q' < q`, or `q' = q` and `p' < p`. -/
def lex_sum (count : Nat → Nat → Int) (n_subsort n_coarse_pipeline q p : Nat) : Int :=
  ∑ x ∈ (Finset.range n_subsort ×ˢ Finset.range n_coarse_pipeline).filter
    (fun x => x.1 < q ∨ (x.1 = q ∧ x.2 < p)), count x.1 x.2

/-- The sum of all the counts of the histogram matrix. -/
def total_count (count : Nat → Nat → Int) (n_subsort n_coarse_pipeline : Nat) : Int :=
  ∑ x ∈ Finset.range n_subsort ×ˢ Finset.range n_coarse_pipeline, count x.1 x.2

/-- The slices of the coarse pipelines are consecutive ranges of `[0, np)` in rank order,
the slice of the straggler last. -/
structure slices_in_order (h : spa_private) (sp : species_t) : Prop where
  first : slice_lo h sp.np 0 = 0
  next : ∀ r : Nat, r < h.N_PIPELINE.toNat → slice_hi h sp.np r = slice_lo h sp.np (r + 1 : Nat)
  last : slice_hi h sp.np (h.N_PIPELINE.toNat : Nat) = sp.np
  ordered : ∀ r : Nat, r < h.N_PIPELINE.toNat + 1 → slice_lo h sp.np r ≤ slice_hi h sp.np r

/-- What the coarse stage of the parallel branch needs of the macros of `spa_private.h` on
a given input: the bucket mapper sends every live record to one of the `N_PIPELINE`
buckets, and the slices of the `N_PIPELINE + 1` coarse pipelines (straggler included) tile
`[0, np)`: a slice that is not empty lies inside, two slices do not overlap, and every
index lies in a slice. -/
structure coarse_pre (h : spa_private) (sp : species_t) (g : grid_t) : Prop where
  buckets : ∀ x ∈ live sp, 0 ≤ bucket_of h g x ∧ bucket_of h g x < h.N_PIPELINE
  slices_inside : ∀ r : Nat, r < h.N_PIPELINE.toNat + 1 →
    slice_hi h sp.np r ≤ slice_lo h sp.np r ∨
      (0 ≤ slice_lo h sp.np r ∧ slice_hi h sp.np r ≤ sp.np)
  slices_disjoint : ∀ r : Nat, r < h.N_PIPELINE.toNat + 1 → ∀ r' : Nat, r' < r →
    slice_hi h sp.np r ≤ slice_lo h sp.np r ∨ slice_hi h sp.np r' ≤ slice_lo h sp.np r' ∨
      slice_hi h sp.np r ≤ slice_lo h sp.np r' ∨ slice_hi h sp.np r' ≤ slice_lo h sp.np r
  slices_cover : ∀ j : Nat, j < sp.np.toNat → ∃ r : Nat, r < h.N_PIPELINE.toNat + 1 ∧
    slice_lo h sp.np r ≤ j ∧ (j : Int) < slice_hi h sp.np r

/-- One scatter step with a log of the store indices. -/
def scatter_step_logged (key : particle_t → Int) (p_src : List particle_t) (i : Int)
    (s : List Int × List particle_t × List Int) :
    Option (List Int × List particle_t × List Int) := do
  let x ← load p_src i
  let j ← load s.1 (key x)
  let next ← store s.1 (key x) (j + 1)
  let p_dst ← store s.2.1 j x
  pure (next, p_dst, s.2.2 ++ [j])

/-- The index at which a stable scatter whose cursors start at `start` puts entry `k` of
`S`: the start of its key plus the number of earlier entries with the same key. -/
def slot (key : particle_t → Int) (start : Nat → Nat) (S : List particle_t) (k : Nat) : Nat :=
  match S[k]? with
  | some x => start (key x).toNat + cnt key (S.take k) (key x)
  | none => 0

/-- The argument block `b` differs from `a` at most in the contents of the arrays that the
subsort pipelines write, `p`, `partition` and `next`, which keep their lengths. -/
def same_inputs (a b : sort_p_pipeline_args_t) : Prop :=
  b.aux_p = a.aux_p ∧ b.coarse_partition = a.coarse_partition ∧ b.n = a.n ∧
    b.n_subsort = a.n_subsort ∧ b.vl = a.vl ∧ b.vh = a.vh ∧ b.n_voxel = a.n_voxel ∧
    b.p.length = a.p.length ∧ b.partition.length = a.partition.length ∧
    b.next.length = a.next.length

/-- Modelled from the spec: the first voxel of `bucket_range(bucket_index, n_subsort, vl,
vh)`, the macro `P2V` of `spa_private.h`, for "`n_subsort` contiguous, equal-width (or
near-equal, remainder-distributed) buckets spanning `[vl, vh)`": bucket `p` starts at `vl`
plus `p * (vh - vl) / n_subsort` rounded up. -/
def P2V_spec (p n_subsort vl vh : Int) : Int :=
  vl + (p * (vh - vl) + n_subsort - 1) / n_subsort
/-! ## Calls in sequence -/

/-- The scratch size a call of `sort_p` asks for, without wrap-around:
`sizeof(particle_t)*np + 128 + sizeof(int)*n_voxel`. -/
def required_scratch (h : spa_private) (sp : species_t) (g : grid_t) : Nat :=
  h.sizeof_particle * sp.np.toNat + 128 + h.sizeof_int * (n_voxel g).toNat

/-- A sequence of calls of `sort_p`, each with its own species, grid and
storage contents; the function-static state is threaded through.  The result
lists the static state after each call. -/
def sort_p_calls (h : spa_private) :
    List (junk_t × species_t × grid_t) → sort_p_static → Option (List sort_p_static)
  | [], _ => some []
  | c :: cs, st =>
    (sort_p h c.1 st c.2.1 c.2.2).bind fun r =>
      (sort_p_calls h cs r.1).map fun l => r.1 :: l

/-! ## Concrete inputs -/

/-- A record with voxel index `v`, tagged in its first payload word. -/
def mk_particle (v : Int) (tag : Nat) : particle_t :=
  { dx := tag, dy := 0, dz := 0, i := v, ux := 0, uy := 0, uz := 0, q := 0 }

/-- A build with one pipeline. -/
def env_one : spa_private where
  N_PIPELINE := 1
  MAX_PIPELINE := 16
  max_subsort := 16
  sort_block_size := 1
  V2P := fun _ _ _ _ => 0
  P2V := fun _ _ _ _ => 0
  DISTRIBUTE := fun N _ p P => if p = P then (0, N) else (0, 0)
  VOXEL := fun x y z nx ny _ => x + (nx + 2) * (y + (ny + 2) * z)
  SIZE_MAX := 2 ^ 64 - 1
  sizeof_particle := 32
  sizeof_int := 4
  INT_MAX := 2 ^ 31 - 1

/-- A build with two pipelines whose buckets are the voxel ranges `[0, 2)` and
`[2, n_voxel)`; every pipeline takes whole blocks and the straggler the rest. -/
def env_two : spa_private where
  N_PIPELINE := 2
  MAX_PIPELINE := 16
  max_subsort := 16
  sort_block_size := 1
  V2P := fun v _ _ _ => if v < 2 then 0 else 1
  P2V := fun p _ _ _ => if p = 0 then 0 else 2
  DISTRIBUTE := fun N b p P =>
    if p = P then (P * (N / b / P) * b, N - P * (N / b / P) * b)
    else (p * (N / b / P) * b, N / b / P * b)
  VOXEL := fun x y z nx ny _ => x + (nx + 2) * (y + (ny + 2) * z)
  SIZE_MAX := 2 ^ 64 - 1
  sizeof_particle := 32
  sizeof_int := 4
  INT_MAX := 2 ^ 31 - 1

/-- Storage contents that differ from anything a sort writes. -/
def junk_demo : junk_t where
  scratch_p := fun n => mk_particle 77 (1000 + n)
  scratch_next := fun n => 2000 + n
  coarse_partition := fun n => 3000 + n
  partition := fun n => 4000 + n

/-- Four live records with voxel indices `3, 1, 3, 0`, in storage for five, and
no offset table yet. -/
def species_demo : species_t where
  p := [mk_particle 3 0, mk_particle 1 1, mk_particle 3 2, mk_particle 0 3, mk_particle 9 4]
  np := 4
  partition := none

/-- A species without live records. -/
def species_empty : species_t where
  p := []
  np := 0
  partition := none

/-- A grid with `n_voxel = 5`. -/
def grid_five : grid_t where
  nx := 3
  ny := -1
  nz := -1

/-- A grid with `n_voxel = 10`. -/
def grid_ten : grid_t where
  nx := 8
  ny := -1
  nz := -1

/-- The argument block of Scenario B: one worker over the voxels `[0, 5)`. -/
def args_demo : sort_p_pipeline_args_t where
  p := [mk_particle 77 10, mk_particle 77 11, mk_particle 77 12, mk_particle 77 13]
  aux_p := [mk_particle 3 0, mk_particle 1 1, mk_particle 3 2, mk_particle 0 3]
  coarse_partition := [0, 4]
  partition := [9, 9, 9, 9, 9, 9]
  next := [7, 7, 7, 7, 7]
  n := 4
  n_subsort := 1
  vl := 0
  vh := 4
  n_voxel := 5

/-- A call of `sort_p` with defined behaviour: the `int` arithmetic of lines 143 and 151
does not overflow, the preconditions of `sort_p` hold, the voxel indices of the live
records lie in `[0, n_voxel)`, and with more than one pipeline the macros meet the needs
of the parallel branch. -/
def call_ok (h : spa_private) (c : junk_t × species_t × grid_t) : Prop :=
  int_defined h c.2.1 c.2.2 ∧ sort_p_pre h c.2.1 c.2.2 ∧
    (∀ x ∈ live c.2.1, 0 ≤ x.i ∧ x.i < n_voxel c.2.2) ∧
    (1 < h.N_PIPELINE → parallel_pre h c.2.1 c.2.2)


/-- Four live records already in voxel order, with voxel indices `0, 1, 3, 3`, in
storage for five. -/
def species_sorted : species_t where
  p := [mk_particle 0 0, mk_particle 1 1, mk_particle 3 2, mk_particle 3 3, mk_particle 9 4]
  np := 4
  partition := none

/-- A histogram matrix: bucket `q` of worker `p` holds `q + 2 * p + 1` particles. -/
def count_demo (q p : Nat) : Int :=
  (q : Int) + 2 * (p : Int) + 1

/-- The coarse array of a build with `max_subsort = 16` holding `count_demo` for two
buckets and three workers; the cells between the rows hold `-7`. -/
def coarse_demo : List Int :=
  (List.range 48).map fun j => if j % 16 < 2 then count_demo (j % 16) (j / 16) else -7

/-- A build with two pipelines whose bucket ranges are the ones modelled from the
specification. -/
def env_spec : spa_private :=
  { env_two with P2V := P2V_spec }

/-- An argument block for a grid of `2 x 2 x 2` cells: `64` voxels, with `vl = 21` the
first and `vh = 42` the last interior voxel.  The first record sits in the ghost voxel
`0`. -/
def args_ghost : sort_p_pipeline_args_t where
  p := [mk_particle 0 0, mk_particle 21 1]
  aux_p := [mk_particle 77 10, mk_particle 77 11]
  coarse_partition := List.replicate 48 0
  partition := List.replicate 65 0
  next := List.replicate 64 0
  n := 2
  n_subsort := 2
  vl := 21
  vh := 42
  n_voxel := 64

/-- A grid of `2000 x 2000 x 2000` cells, whose `8024024009` voxels are more than an `int`
of 32 bits counts. -/
def grid_huge : grid_t where
  nx := 2000
  ny := 2000
  nz := 2000
/-! ## Memory primitives: basic facts -/

theorem load_natCast {α : Type} (a : List α) (k : Nat) : load a (k : Int) = a[k]? := by
  simp [load]

theorem load_eq_some {α : Type} {a : List α} {j : Int} {x : α} (hx : load a j = some x) :
    0 ≤ j ∧ j.toNat < a.length ∧ a[j.toNat]? = some x := by
  unfold load at hx
  split at hx
  · refine ⟨by assumption, ?_, hx⟩
    by_contra hlt
    rw [List.getElem?_eq_none (by omega)] at hx
    cases hx
  · cases hx

theorem store_natCast {α : Type} (a : List α) (k : Nat) (x : α) (hk : k < a.length) :
    store a (k : Int) x = some (a.set k x) := by
  simp [store, hk]

theorem for_loop_inv {σ : Type} (body : Int → σ → Option σ) :
    ∀ (n : Nat) (Inv : Nat → σ → Prop) (lo : Int) (s : σ), Inv 0 s →
      (∀ k t, k < n → Inv k t → ∃ t', body (lo + k) t = some t' ∧ Inv (k + 1) t') →
      ∃ s', for_loop body n lo s = some s' ∧ Inv n s' := by
  intro n
  induction n with
  | zero =>
    intro Inv lo s h0 _
    exact ⟨s, rfl, h0⟩
  | succ n ih =>
    intro Inv lo s h0 hstep
    obtain ⟨s1, hs1, hI1⟩ := hstep 0 s (Nat.succ_pos n) h0
    have hb : body lo s = some s1 := by simpa using hs1
    obtain ⟨s2, hs2, hI2⟩ := ih (fun k t => Inv (k + 1) t) (lo + 1) s1 hI1 (by
      intro k t hk hI
      obtain ⟨t', ht', hI'⟩ := hstep (k + 1) t (Nat.succ_lt_succ hk) hI
      refine ⟨t', ?_, hI'⟩
      have he : lo + 1 + (k : Int) = lo + ((k + 1 : Nat) : Int) := by push_cast; ring
      rw [he]
      exact ht')
    exact ⟨s2, by simp [for_loop, hb, hs2], hI2⟩

theorem fill_length {α : Type} (x : α) : ∀ (n : Nat) (a : List α) (off : Nat),
    (fill a x off n).length = a.length := by
  intro n
  induction n with
  | zero => intro a off; rfl
  | succ n ih => intro a off; simp [fill, ih]

theorem fill_getElem? {α : Type} (x : α) : ∀ (n : Nat) (a : List α) (off k : Nat),
    off + n ≤ a.length →
    (fill a x off n)[k]? = if off ≤ k ∧ k < off + n then some x else a[k]? := by
  intro n
  induction n with
  | zero =>
    intro a off k _
    have hno : ¬ (off ≤ k ∧ k < off + 0) := by omega
    rw [if_neg hno]
    rfl
  | succ n ih =>
    intro a off k hlen
    have h1 := ih (a.set off x) (off + 1) k (by simp; omega)
    simp only [fill]
    rw [h1, List.getElem?_set]
    by_cases hk : off = k
    · subst hk
      have h2 : ¬ (off + 1 ≤ off ∧ off < off + 1 + n) := by omega
      have h3 : off ≤ off ∧ off < off + (n + 1) := by omega
      have h4 : off < a.length := by omega
      simp [h2, h3, h4]
    · by_cases hr : off + 1 ≤ k ∧ k < off + 1 + n
      · have h3 : off ≤ k ∧ k < off + (n + 1) := by omega
        simp [hr, h3]
      · have h3 : ¬ (off ≤ k ∧ k < off + (n + 1)) := by omega
        simp [hr, h3, hk]

theorem subsort_count_body_eq (p_src : List particle_t) :
    subsort_count_body p_src = count_step voxel p_src := rfl

theorem coarse_count_body_eq (h : spa_private) (p_src : List particle_t) (ns vl vh : Int) :
    coarse_count_body h p_src ns vl vh = count_step (bucket h ns vl vh) p_src := rfl

theorem subsort_scatter_body_eq (p_src : List particle_t) :
    subsort_scatter_body p_src = scatter_step voxel p_src := rfl

theorem coarse_sort_body_eq (h : spa_private) (p_src : List particle_t) (ns vl vh : Int) :
    coarse_sort_body h p_src ns vl vh = scatter_step (bucket h ns vl vh) p_src := rfl

/-! ## Segments and counts -/

theorem seg_getElem? {α : Type} (l : List α) (lo n k : Nat) :
    (seg l lo n)[k]? = if k < n then l[lo + k]? else none := by
  simp [seg, List.getElem?_take, List.getElem?_drop]

theorem seg_length {α : Type} (l : List α) (lo n : Nat) (hl : lo + n ≤ l.length) :
    (seg l lo n).length = n := by
  simp [seg]; omega

theorem take_succ_of_getElem? {α : Type} {l : List α} {k : Nat} {x : α}
    (hx : l[k]? = some x) : l.take (k + 1) = l.take k ++ [x] := by
  rw [List.take_succ, hx]; rfl

theorem cnt_append_singleton (key : particle_t → Int) (l : List particle_t) (x : particle_t)
    (v : Int) : cnt key (l ++ [x]) v = cnt key l v + (if key x = v then 1 else 0) := by
  simp [cnt, List.countP_append, List.countP_cons]

theorem below_succ (key : particle_t → Int) (l : List particle_t) (v : Int) :
    below key l (v + 1) = below key l v + cnt key l v := by
  induction l with
  | nil => rfl
  | cons x xs ih =>
    simp only [below, cnt, List.countP_cons] at ih ⊢
    rw [ih]
    by_cases h1 : key x < v
    · have h2 : key x < v + 1 := by omega
      have h3 : ¬ key x = v := by omega
      simp [h1, h2, h3]; omega
    · by_cases h3 : key x = v
      · have h2 : key x < v + 1 := by omega
        simp [h1, h2, h3]; omega
      · have h2 : ¬ key x < v + 1 := by omega
        simp [h1, h2, h3]

theorem below_eq_zero (key : particle_t → Int) (l : List particle_t) (v : Int)
    (h : ∀ x ∈ l, v ≤ key x) : below key l v = 0 := by
  simp only [below, List.countP_eq_zero]
  intro x hx
  have := h x hx
  simp; omega

theorem below_eq_length (key : particle_t → Int) (l : List particle_t) (v : Int)
    (h : ∀ x ∈ l, key x < v) : below key l v = l.length := by
  simp only [below, List.countP_eq_length]
  intro x hx
  simpa using h x hx

theorem below_mono (key : particle_t → Int) (l : List particle_t) {v w : Int} (h : v ≤ w) :
    below key l v ≤ below key l w := by
  apply List.countP_mono_left
  intro x _ hx
  simp at hx ⊢
  omega

/-! ## The histogram loop -/

theorem count_loop_spec (key : particle_t → Int) (src : List particle_t) (i0 n : Nat)
    (next : List Int) (hsrc : i0 + n ≤ src.length)
    (hkey : ∀ x ∈ seg src i0 n, 0 ≤ key x ∧ key x < next.length) :
    ∃ next', for_loop (count_step key src) n i0 next = some next' ∧
      next'.length = next.length ∧
      ∀ j : Nat, next'[j]? =
        (next[j]?).map (fun c : Int => c + (cnt key (seg src i0 n) j : Nat)) := by
  obtain ⟨next', hrun, hlen, hval⟩ := for_loop_inv (count_step key src) n
    (fun k t => t.length = next.length ∧
      ∀ j : Nat, t[j]? =
        (next[j]?).map (fun c : Int => c + (cnt key ((seg src i0 n).take k) j : Nat)))
    i0 next ⟨rfl, by intro j; simp [cnt]⟩ (by
      intro k t hk ⟨hlen, hval⟩
      have hlt : i0 + k < src.length := by omega
      have hsk : (seg src i0 n)[k]? = some src[i0 + k] := by
        rw [seg_getElem?, if_pos hk, List.getElem?_eq_getElem hlt]
      obtain ⟨h0, h1⟩ := hkey _ (List.getElem?_mem hsk)
      obtain ⟨v, hv⟩ := Int.eq_ofNat_of_zero_le h0
      have hvl : v < next.length := by omega
      have hload : load src ((i0 : Int) + k) = some src[i0 + k] := by
        have : ((i0 : Int) + k) = ((i0 + k : Nat) : Int) := by push_cast; rfl
        rw [this, load_natCast, List.getElem?_eq_getElem hlt]
      have hc := hval v
      rw [List.getElem?_eq_getElem hvl] at hc
      refine ⟨t.set v (next[v] + cnt key ((seg src i0 n).take k) v + 1), ?_,
        by simpa using hlen, ?_⟩
      · simp only [count_step, hload, hv, load_natCast, hc, Option.map_some',
          Option.bind_eq_bind, Option.some_bind]
        rw [store_natCast _ _ _ (by omega)]
      · intro j
        rw [take_succ_of_getElem? hsk, cnt_append_singleton, List.getElem?_set, hv]
        by_cases hj : v = j
        · subst hj
          simp [hlen, hvl]
          omega
        · have : ¬ ((v : Int) = (j : Int)) := by omega
          simp [hj, this, hval j])
  refine ⟨next', hrun, hlen, ?_⟩
  intro j
  rw [hval j]
  have : (seg src i0 n).take n = seg src i0 n := by
    apply List.take_of_length_le
    rw [seg_length _ _ _ hsrc]
  rw [this]

/-! ## The prefix-sum loop of `subsort_pipeline` -/

theorem subsort_prefix_spec (key : particle_t → Int) (S : List particle_t)
    (next part : List Int) (v0 n : Nat) (i0 : Int)
    (hn : v0 + n ≤ next.length) (hp : v0 + n ≤ part.length)
    (hc : ∀ k : Nat, v0 ≤ k → k < v0 + n → next[k]? = some ((cnt key S k : Nat) : Int))
    (hlo : ∀ x ∈ S, (v0 : Int) ≤ key x) :
    ∃ next' part', for_loop subsort_prefix_body n v0 (next, part, i0)
        = some (next', part', i0 + (below key S ((v0 : Int) + n) : Nat)) ∧
      next'.length = next.length ∧ part'.length = part.length ∧
      (∀ k : Nat, next'[k]? =
        if v0 ≤ k ∧ k < v0 + n then some (i0 + (below key S k : Nat)) else next[k]?) ∧
      (∀ k : Nat, part'[k]? =
        if v0 ≤ k ∧ k < v0 + n then some (i0 + (below key S k : Nat)) else part[k]?) := by
  obtain ⟨⟨nx, pt, sum⟩, hrun, hsum, hl1, hl2, hv1, hv2⟩ := for_loop_inv subsort_prefix_body n
    (fun k t => t.2.2 = i0 + (below key S ((v0 : Int) + k) : Nat) ∧
      t.1.length = next.length ∧ t.2.1.length = part.length ∧
      (∀ j : Nat, t.1[j]? =
        if v0 ≤ j ∧ j < v0 + k then some (i0 + (below key S j : Nat)) else next[j]?) ∧
      (∀ j : Nat, t.2.1[j]? =
        if v0 ≤ j ∧ j < v0 + k then some (i0 + (below key S j : Nat)) else part[j]?))
    v0 (next, part, i0)
    ⟨by simp [below_eq_zero key S v0 hlo], rfl, rfl,
      by intro j; rw [if_neg (by omega)], by intro j; rw [if_neg (by omega)]⟩ (by
      rintro k ⟨nx, pt, sum⟩ hk ⟨hsum, hl1, hl2, hv1, hv2⟩
      simp only at hsum hl1 hl2 hv1 hv2
      have hcast : ((v0 : Int) + k) = ((v0 + k : Nat) : Int) := by push_cast; rfl
      have hld : load nx ((v0 : Int) + k)
          = some ((cnt key S ((v0 + k : Nat) : Int) : Nat) : Int) := by
        rw [hcast, load_natCast, hv1, if_neg (by omega)]
        exact hc _ (by omega) (by omega)
      refine ⟨(nx.set (v0 + k) sum, pt.set (v0 + k) sum,
        sum + ((cnt key S ((v0 + k : Nat) : Int) : Nat) : Int)), ?_, ?_, by simpa using hl1,
        by simpa using hl2, ?_, ?_⟩
      · simp only [subsort_prefix_body, hld, Option.bind_eq_bind, Option.some_bind]
        rw [hcast, store_natCast _ _ _ (by omega), store_natCast _ _ _ (by omega)]
        rfl
      · simp only
        have hb := below_succ key S ((v0 : Int) + k)
        rw [hsum]
        have he : (v0 : Int) + ((k + 1 : Nat) : Int) = (v0 : Int) + k + 1 := by push_cast; ring
        rw [he, hb, ← hcast]
        push_cast; ring
      · intro j
        simp only
        rw [List.getElem?_set]
        by_cases hj : v0 + k = j
        · subst hj
          have h1 : v0 ≤ v0 + k ∧ v0 + k < v0 + (k + 1) := by omega
          have h2 : v0 + k < nx.length := by omega
          rw [if_pos rfl, if_pos h2, if_pos h1, hsum, hcast]
        · rw [if_neg hj, hv1]
          by_cases hr : v0 ≤ j ∧ j < v0 + k
          · rw [if_pos hr, if_pos (by omega)]
          · rw [if_neg hr, if_neg (by omega)]
      · intro j
        simp only
        rw [List.getElem?_set]
        by_cases hj : v0 + k = j
        · subst hj
          have h1 : v0 ≤ v0 + k ∧ v0 + k < v0 + (k + 1) := by omega
          have h2 : v0 + k < pt.length := by omega
          rw [if_pos rfl, if_pos h2, if_pos h1, hsum, hcast]
        · rw [if_neg hj, hv2]
          by_cases hr : v0 ≤ j ∧ j < v0 + k
          · rw [if_pos hr, if_pos (by omega)]
          · rw [if_neg hr, if_neg (by omega)])
  simp only at hsum hl1 hl2 hv1 hv2
  subst hsum
  exact ⟨nx, pt, hrun, hl1, hl2, hv1, hv2⟩

/-! ## The scatter loop -/

theorem cnt_take_le (key : particle_t → Int) (l : List particle_t) (k : Nat) (v : Int) :
    cnt key (l.take k) v ≤ cnt key l v :=
  List.Sublist.countP_le _ (List.take_sublist k l)

theorem at_key_length (key : particle_t → Int) (l : List particle_t) (v : Int) :
    (at_key key l v).length = cnt key l v := by
  simp [at_key, cnt, List.countP_eq_length_filter]

theorem at_key_append_singleton (key : particle_t → Int) (l : List particle_t) (x : particle_t)
    (v : Int) : at_key key (l ++ [x]) v = at_key key l v ++ (if key x = v then [x] else []) := by
  simp only [at_key, List.filter_append, List.filter_cons, List.filter_nil]
  by_cases h : key x = v <;> simp [h]

theorem scatter_loop_spec (key : particle_t → Int) (src : List particle_t) (i0 n : Nat)
    (next : List Int) (dst : List particle_t) (v0 m : Nat) (start : Nat → Nat)
    (hsrc : i0 + n ≤ src.length) (hm : v0 + m ≤ next.length)
    (hkey : ∀ x ∈ seg src i0 n, (v0 : Int) ≤ key x ∧ key x < ((v0 + m : Nat) : Int))
    (hnext : ∀ v : Nat, v0 ≤ v → v < v0 + m → next[v]? = some ((start v : Nat) : Int))
    (hmono : ∀ v w : Nat, v0 ≤ v → v < w → w < v0 + m →
      start v + cnt key (seg src i0 n) v ≤ start w)
    (hbound : ∀ v : Nat, v0 ≤ v → v < v0 + m →
      start v + cnt key (seg src i0 n) v ≤ dst.length) :
    ∃ next' dst', for_loop (scatter_step key src) n i0 (next, dst) = some (next', dst') ∧
      next'.length = next.length ∧ dst'.length = dst.length ∧
      (∀ v : Nat, next'[v]? = if v0 ≤ v ∧ v < v0 + m
        then some (((start v + cnt key (seg src i0 n) v : Nat)) : Int) else next[v]?) ∧
      (∀ v : Nat, v0 ≤ v → v < v0 + m → ∀ t : Nat, t < cnt key (seg src i0 n) v →
        dst'[start v + t]? = (at_key key (seg src i0 n) v)[t]?) ∧
      (∀ j : Nat, (∀ v : Nat, v0 ≤ v → v < v0 + m →
        ¬ (start v ≤ j ∧ j < start v + cnt key (seg src i0 n) v)) → dst'[j]? = dst[j]?) := by
  obtain ⟨⟨nx, d⟩, hrun, hl1, hl2, hv1, hv2, hv3⟩ := for_loop_inv (scatter_step key src) n
    (fun k s => s.1.length = next.length ∧ s.2.length = dst.length ∧
      (∀ v : Nat, s.1[v]? = if v0 ≤ v ∧ v < v0 + m
        then some (((start v + cnt key ((seg src i0 n).take k) v : Nat)) : Int) else next[v]?) ∧
      (∀ v : Nat, v0 ≤ v → v < v0 + m → ∀ t : Nat, t < cnt key ((seg src i0 n).take k) v →
        s.2[start v + t]? = (at_key key ((seg src i0 n).take k) v)[t]?) ∧
      (∀ j : Nat, (∀ v : Nat, v0 ≤ v → v < v0 + m →
        ¬ (start v ≤ j ∧ j < start v + cnt key ((seg src i0 n).take k) v)) → s.2[j]? = dst[j]?))
    i0 (next, dst)
    ⟨rfl, rfl, by
        intro v
        by_cases hr : v0 ≤ v ∧ v < v0 + m
        · rw [if_pos hr, hnext v hr.1 hr.2]; simp [cnt]
        · rw [if_neg hr],
      by intro v _ _ t ht; simp [cnt] at ht,
      by intro j _; rfl⟩ (by
      rintro k ⟨nx, d⟩ hk ⟨hl1, hl2, hv1, hv2, hv3⟩
      simp only at hl1 hl2 hv1 hv2 hv3
      have hlt : i0 + k < src.length := by omega
      have hsk : (seg src i0 n)[k]? = some src[i0 + k] := by
        rw [seg_getElem?, if_pos hk, List.getElem?_eq_getElem hlt]
      obtain ⟨h0, h1⟩ := hkey _ (List.getElem?_mem hsk)
      obtain ⟨v, hv⟩ := Int.eq_ofNat_of_zero_le (le_trans (Int.ofNat_nonneg v0) h0)
      have hvr : v0 ≤ v ∧ v < v0 + m := by omega
      have hload : load src ((i0 : Int) + k) = some src[i0 + k] := by
        have : ((i0 : Int) + k) = ((i0 + k : Nat) : Int) := by push_cast; rfl
        rw [this, load_natCast, List.getElem?_eq_getElem hlt]
      have htk := take_succ_of_getElem? hsk
      have hcs : ∀ w : Int, cnt key ((seg src i0 n).take (k + 1)) w
          = cnt key ((seg src i0 n).take k) w + (if (v : Int) = w then 1 else 0) := by
        intro w; rw [htk, cnt_append_singleton, hv]
      have hle : ∀ w : Int, cnt key ((seg src i0 n).take (k + 1)) w ≤ cnt key (seg src i0 n) w :=
        fun w => cnt_take_le key _ _ w
      have hlev := hle v
      rw [hcs v, if_pos rfl] at hlev
      have hbv := hbound v hvr.1 hvr.2
      have hnv := hv1 v
      rw [if_pos hvr] at hnv
      refine ⟨(nx.set v (((start v + cnt key ((seg src i0 n).take k) v : Nat) : Int) + 1),
        d.set (start v + cnt key ((seg src i0 n).take k) v) src[i0 + k]), ?_,
        by simpa using hl1, by simpa using hl2, ?_, ?_, ?_⟩
      · simp only [scatter_step, hload, hv, load_natCast, hnv, Option.bind_eq_bind,
          Option.some_bind]
        rw [store_natCast _ _ _ (by omega), store_natCast _ _ _ (by omega)]
        rfl
      · intro w
        simp only
        rw [List.getElem?_set, hcs]
        by_cases hw : v = w
        · subst hw
          rw [if_pos rfl, if_pos (by omega), if_pos hvr, if_pos rfl]
          push_cast; ring_nf
        · have hw' : ¬ ((v : Int) = (w : Int)) := by omega
          rw [if_neg hw, if_neg hw', hv1 w]; simp
      · intro w hw0 hw1 t ht
        simp only
        rw [hcs] at ht
        rw [htk, at_key_append_singleton, hv, List.getElem?_set]
        by_cases hw : v = w
        · subst hw
          rw [if_pos rfl] at ht
          rw [if_pos rfl]
          by_cases ht' : t = cnt key ((seg src i0 n).take k) v
          · subst ht'
            rw [if_pos rfl, if_pos (by omega),
              List.getElem?_append_right (by rw [at_key_length]), at_key_length]
            simp
          · rw [if_neg (by omega), hv2 v hw0 hw1 t (by omega),
              List.getElem?_append_left (by rw [at_key_length]; omega)]
        · have hw' : ¬ ((v : Int) = (w : Int)) := by omega
          rw [if_neg hw'] at ht ⊢
          have hne : start v + cnt key ((seg src i0 n).take k) v ≠ start w + t := by
            have hlw := cnt_take_le key (seg src i0 n) k w
            rcases Nat.lt_or_gt_of_ne hw with hlt' | hgt'
            · have := hmono v w hvr.1 hlt' hw1; omega
            · have := hmono w v hw0 hgt' hvr.2; omega
          rw [if_neg hne, hv2 w hw0 hw1 t (by omega)]
          simp
      · intro j hj
        simp only
        rw [List.getElem?_set]
        have hjv := hj v hvr.1 hvr.2
        rw [hcs, if_pos rfl] at hjv
        by_cases hjj : start v + cnt key ((seg src i0 n).take k) v = j
        · omega
        · rw [if_neg hjj]
          apply hv3
          intro w hw0 hw1 hcon
          apply hj w hw0 hw1
          rw [hcs]
          omega)
  simp only at hl1 hl2 hv1 hv2 hv3
  have htake : (seg src i0 n).take n = seg src i0 n := by
    apply List.take_of_length_le
    rw [seg_length _ _ _ hsrc]
  rw [htake] at hv1 hv2 hv3
  exact ⟨nx, d, hrun, hl1, hl2, hv1, hv2, hv3⟩

/-! ## Keyed rearrangement of a list -/

theorem by_key_succ (key : particle_t → Int) (l : List particle_t) (v0 : Int) (m : Nat) :
    by_key key l v0 (m + 1) = by_key key l v0 m ++ at_key key l (v0 + m) := by
  simp [by_key, List.range_succ, List.flatMap_append]

theorem by_key_length (key : particle_t → Int) (l : List particle_t) (v0 : Int)
    (hlo : ∀ x ∈ l, v0 ≤ key x) :
    ∀ m : Nat, (by_key key l v0 m).length = below key l (v0 + m) := by
  intro m
  induction m with
  | zero => simp [by_key, below_eq_zero key l v0 hlo]
  | succ m ih =>
    rw [by_key_succ, List.length_append, ih, at_key_length]
    have := below_succ key l (v0 + m)
    have he : v0 + ((m + 1 : Nat) : Int) = v0 + m + 1 := by push_cast; ring
    rw [he, this]

theorem by_key_getElem? (key : particle_t → Int) (l : List particle_t) (v0 : Int)
    (hlo : ∀ x ∈ l, v0 ≤ key x) :
    ∀ m k t : Nat, k < m → t < cnt key l (v0 + k) →
      (by_key key l v0 m)[below key l (v0 + k) + t]? = (at_key key l (v0 + k))[t]? := by
  intro m
  induction m with
  | zero => intro k t hk; omega
  | succ m ih =>
    intro k t hk ht
    rw [by_key_succ]
    have hs := below_succ key l (v0 + k)
    by_cases hkm : k = m
    · subst hkm
      rw [List.getElem?_append_right (by rw [by_key_length key l v0 hlo]; omega),
        by_key_length key l v0 hlo]
      simp
    · have hmono : below key l (v0 + k + 1) ≤ below key l (v0 + m) :=
        below_mono key l (by omega)
      rw [List.getElem?_append_left (by rw [by_key_length key l v0 hlo]; omega)]
      exact ih k t (by omega) ht

theorem below_locate (key : particle_t → Int) (l : List particle_t) (v0 : Int)
    (hlo : ∀ x ∈ l, v0 ≤ key x) :
    ∀ m j : Nat, j < below key l (v0 + m) →
      ∃ k t : Nat, k < m ∧ t < cnt key l (v0 + k) ∧ j = below key l (v0 + k) + t := by
  intro m
  induction m with
  | zero =>
    intro j hj
    simp [below_eq_zero key l v0 hlo] at hj
  | succ m ih =>
    intro j hj
    have hs := below_succ key l (v0 + m)
    have he : v0 + ((m + 1 : Nat) : Int) = v0 + m + 1 := by push_cast; ring
    rw [he, hs] at hj
    by_cases hjm : j < below key l (v0 + m)
    · obtain ⟨k, t, hk, ht, hjk⟩ := ih j hjm
      exact ⟨k, t, by omega, ht, hjk⟩
    · exact ⟨m, j - below key l (v0 + m), by omega, by omega, by omega⟩

theorem by_key_perm (key : particle_t → Int) (l : List particle_t) (v0 : Int) :
    ∀ m : Nat, (by_key key l v0 m).Perm
      (l.filter (fun x => decide (v0 ≤ key x ∧ key x < v0 + m))) := by
  intro m
  induction m with
  | zero =>
    have : l.filter (fun x => decide (v0 ≤ key x ∧ key x < v0 + ((0 : Nat) : Int))) = [] := by
      rw [List.filter_eq_nil_iff]
      intro x _
      simp
    rw [this]
    simp [by_key]
  | succ m ih =>
    rw [by_key_succ]
    have h1 := List.filter_append_perm (fun x => decide (key x < v0 + m))
      (l.filter (fun x => decide (v0 ≤ key x ∧ key x < v0 + ((m + 1 : Nat) : Int))))
    rw [List.filter_filter, List.filter_filter] at h1
    have e1 : l.filter (fun a => decide (key a < v0 + m) &&
        decide (v0 ≤ key a ∧ key a < v0 + ((m + 1 : Nat) : Int)))
        = l.filter (fun x => decide (v0 ≤ key x ∧ key x < v0 + m)) := by
      apply List.filter_congr
      intro x _
      rw [Bool.eq_iff_iff]
      simp
      omega
    have e2 : l.filter (fun a => (!decide (key a < v0 + m)) &&
        decide (v0 ≤ key a ∧ key a < v0 + ((m + 1 : Nat) : Int)))
        = at_key key l (v0 + m) := by
      unfold at_key
      apply List.filter_congr
      intro x _
      rw [Bool.eq_iff_iff]
      simp
      omega
    rw [e1, e2] at h1
    exact (List.Perm.append_right _ ih).trans h1

theorem by_key_perm_self (key : particle_t → Int) (l : List particle_t) (v0 : Int) (m : Nat)
    (hkey : ∀ x ∈ l, v0 ≤ key x ∧ key x < v0 + m) : (by_key key l v0 m).Perm l := by
  have h := by_key_perm key l v0 m
  have : l.filter (fun x => decide (v0 ≤ key x ∧ key x < v0 + m)) = l := by
    rw [List.filter_eq_self]
    intro x hx
    simpa using hkey x hx
  rwa [this] at h

theorem scatter_sorted (key : particle_t → Int) (S dst dst' : List particle_t)
    (i0 v0 m : Nat) (hfit : i0 + S.length ≤ dst.length)
    (hkey : ∀ x ∈ S, (v0 : Int) ≤ key x ∧ key x < ((v0 + m : Nat) : Int))
    (hin : ∀ v : Nat, v0 ≤ v → v < v0 + m → ∀ t : Nat, t < cnt key S v →
      dst'[i0 + below key S v + t]? = (at_key key S v)[t]?)
    (hout : ∀ j : Nat, (∀ v : Nat, v0 ≤ v → v < v0 + m →
      ¬ (i0 + below key S v ≤ j ∧ j < i0 + below key S v + cnt key S v)) → dst'[j]? = dst[j]?) :
    dst' = dst.take i0 ++ by_key key S v0 m ++ dst.drop (i0 + S.length) := by
  have hlo : ∀ x ∈ S, (v0 : Int) ≤ key x := fun x hx => (hkey x hx).1
  have htot : below key S ((v0 : Int) + m) = S.length :=
    below_eq_length key S _ (fun x hx => by have := (hkey x hx).2; push_cast at this; exact this)
  have hbl : (by_key key S v0 m).length = S.length := by
    rw [by_key_length key S v0 hlo, htot]
  have hup : ∀ v : Nat, v < v0 + m → below key S v + cnt key S v ≤ S.length := by
    intro v hv
    have h1 := below_succ key S (v : Int)
    have h2 : below key S ((v : Int) + 1) ≤ below key S ((v0 : Int) + m) :=
      below_mono key S (by omega)
    omega
  apply List.ext_getElem?
  intro j
  by_cases hj0 : j < i0
  · rw [List.append_assoc, List.getElem?_append_left (by simp; omega), List.getElem?_take,
      if_pos hj0]
    apply hout
    intro v _ _
    omega
  · by_cases hj1 : j < i0 + S.length
    · obtain ⟨k, t, hk, ht, hjk⟩ :=
        below_locate key S v0 hlo m (j - i0) (by rw [htot]; omega)
      have hcast : (v0 : Int) + k = ((v0 + k : Nat) : Int) := by push_cast; rfl
      rw [List.getElem?_append_left (by simp; omega),
        List.getElem?_append_right (by simp; omega)]
      have hidx : j - (List.take i0 dst).length = below key S ((v0 : Int) + k) + t := by
        simp; omega
      rw [hidx, by_key_getElem? key S v0 hlo m k t hk ht]
      rw [hcast] at hjk ht ⊢
      have := hin (v0 + k) (by omega) (by omega) t ht
      rw [← this]
      congr 1
      omega
    · rw [List.getElem?_append_right (by simp; omega), List.getElem?_drop]
      have hidx : i0 + S.length + (j - (List.take i0 dst ++ by_key key S v0 m).length) = j := by
        simp; omega
      rw [hidx]
      apply hout
      intro v _ hv
      have := hup v hv
      omega

/-! ## The kernel `subsort_pipeline` -/

theorem CLEAR_spec (a : List Int) (v0 n : Nat) (h : v0 + n ≤ a.length) :
    ∃ a', CLEAR a v0 n = some a' ∧ a'.length = a.length ∧
      ∀ k : Nat, a'[k]? = if v0 ≤ k ∧ k < v0 + n then some 0 else a[k]? := by
  refine ⟨fill a 0 v0 n, ?_, fill_length _ _ _ _, fun k => fill_getElem? _ _ _ _ _ h⟩
  have : (0 : Int) ≤ v0 ∧ (0 : Int) ≤ n ∧ (v0 : Int) + n ≤ a.length := by omega
  simp [CLEAR, this]

theorem subsort_pipeline_spec (h : spa_private) (args : sort_p_pipeline_args_t)
    (rank K : Int) (i0 i1 v0 v1 : Nat) (hrank : rank ≠ K)
    (hi0 : load args.coarse_partition rank = some (i0 : Int))
    (hi1 : load args.coarse_partition (rank + 1) = some (i1 : Int))
    (hv0 : (if rank = 0 then 0 else h.P2V rank K args.vl args.vh) = (v0 : Int))
    (hv1 : (if rank = K - 1 then args.n_voxel else h.P2V (rank + 1) K args.vl args.vh)
      = (v1 : Int))
    (hi : i0 ≤ i1) (hsrc : i1 ≤ args.aux_p.length) (hdst : i1 ≤ args.p.length)
    (hv : v0 ≤ v1) (hnext : v1 ≤ args.next.length) (hpart : v1 < args.partition.length)
    (hkey : ∀ x ∈ seg args.aux_p i0 (i1 - i0), (v0 : Int) ≤ x.i ∧ x.i < (v1 : Int)) :
    ∃ part' next', subsort_pipeline h args rank K = some { args with
        p := args.p.take i0 ++ by_key voxel (seg args.aux_p i0 (i1 - i0)) v0 (v1 - v0)
          ++ args.p.drop i1
        partition := part'
        next := next' } ∧
      part'.length = args.partition.length ∧ next'.length = args.next.length ∧
      (∀ k : Nat, part'[k]? = if v0 ≤ k ∧ k ≤ v1
        then some ((i0 : Int) + (below voxel (seg args.aux_p i0 (i1 - i0)) k : Nat))
        else args.partition[k]?) ∧
      (∀ k : Nat, ¬ (v0 ≤ k ∧ k < v1) → next'[k]? = args.next[k]?) := by
  have hSlen : (seg args.aux_p i0 (i1 - i0)).length = i1 - i0 := seg_length _ _ _ (by omega)
  have hkey' : ∀ x ∈ (seg args.aux_p i0 (i1 - i0)), (v0 : Int) ≤ voxel x ∧ voxel x < ((v0 + (v1 - v0) : Nat) : Int) := by
    intro x hx
    have := hkey x hx
    simp only [voxel]
    omega
  -- clear
  obtain ⟨n1, hc1, hl1, hg1⟩ := CLEAR_spec args.next v0 (v1 - v0) (by omega)
  -- histogram
  obtain ⟨n2, hc2, hl2, hg2⟩ := count_loop_spec voxel args.aux_p i0 (i1 - i0) n1 (by omega)
    (by intro x hx; have := hkey' x hx; omega)
  -- prefix sum
  obtain ⟨n3, p3, hc3, hl3, hlp3, hg3, hgp3⟩ := subsort_prefix_spec voxel (seg args.aux_p i0 (i1 - i0)) n2 args.partition
    v0 (v1 - v0) i0 (by omega) (by omega) (by
      intro k hk0 hk1
      rw [hg2 k, hg1 k, if_pos ⟨hk0, hk1⟩]
      simp) (fun x hx => (hkey' x hx).1)
  -- scatter
  obtain ⟨n4, d4, hc4, hl4, hld4, hg4, hin4, hout4⟩ := scatter_loop_spec voxel args.aux_p i0
    (i1 - i0) n3 args.p v0 (v1 - v0) (fun v => i0 + below voxel (seg args.aux_p i0 (i1 - i0)) v) (by omega) (by omega)
    hkey' (by
      intro v hv0' hv1'
      rw [hg3 v, if_pos ⟨hv0', hv1'⟩]
      push_cast; rfl) (by
      intro v w _ hvw _
      beta_reduce
      have h1 := below_succ voxel (seg args.aux_p i0 (i1 - i0)) (v : Int)
      have h2 : below voxel (seg args.aux_p i0 (i1 - i0)) ((v : Int) + 1) ≤ below voxel (seg args.aux_p i0 (i1 - i0)) (w : Int) :=
        below_mono voxel (seg args.aux_p i0 (i1 - i0)) (by omega)
      omega) (by
      intro v _ hv1'
      beta_reduce
      have h1 := below_succ voxel (seg args.aux_p i0 (i1 - i0)) (v : Int)
      have h2 : below voxel (seg args.aux_p i0 (i1 - i0)) ((v : Int) + 1) ≤ (seg args.aux_p i0 (i1 - i0)).length := List.countP_le_length _
      omega)
  have hd4 := scatter_sorted voxel (seg args.aux_p i0 (i1 - i0)) args.p d4 i0 v0 (v1 - v0) (by omega) hkey'
    (by
      intro v hv0' hv1' t ht
      have := hin4 v hv0' hv1' t ht
      simpa [Nat.add_assoc] using this)
    (by
      intro j hj
      apply hout4
      intro v hv0' hv1'
      have := hj v hv0' hv1'
      omega)
  have htot : below voxel (seg args.aux_p i0 (i1 - i0)) (((v0 : Int) + ((v1 - v0 : Nat) : Int))) = (seg args.aux_p i0 (i1 - i0)).length :=
    below_eq_length voxel (seg args.aux_p i0 (i1 - i0)) _ (fun x hx => by have := (hkey' x hx).2; push_cast at this ⊢; omega)
  have hi1' : i0 + (seg args.aux_p i0 (i1 - i0)).length = i1 := by omega
  rw [hi1'] at hd4
  refine ⟨p3.set v1 i1, n4, ?_, by simp [hlp3], by omega, ?_, ?_⟩
  · have e1 : ((v1 : Int) - v0) = ((v1 - v0 : Nat) : Int) := by omega
    have e2 : ((i1 : Int) - i0).toNat = i1 - i0 := by omega
    have e3 : ((v1 : Int) - v0).toNat = v1 - v0 := by omega
    have e4 : (i0 : Int) + ((below voxel (seg args.aux_p i0 (i1 - i0)) ((v0 : Int) + ((v1 - v0 : Nat) : Int)) : Nat) : Int)
        = (i1 : Int) := by rw [htot]; omega
    simp only [subsort_pipeline, if_neg hrank, hi0, hi1, hv0, hv1, Option.bind_eq_bind,
      Option.some_bind, for_range, e2, e3, subsort_count_body_eq, subsort_scatter_body_eq]
    rw [e1, hc1]
    simp only [Option.some_bind, hc2, hc3, e4]
    rw [store_natCast _ _ _ (by omega)]
    simp only [Option.some_bind, hc4, hd4]
    rfl
  · intro k
    rw [List.getElem?_set, hgp3 k]
    by_cases hk : v1 = k
    · subst hk
      rw [if_pos rfl, if_pos (by omega), if_pos (by omega)]
      have : below voxel (seg args.aux_p i0 (i1 - i0)) (v1 : Int) = (seg args.aux_p i0 (i1 - i0)).length :=
        below_eq_length voxel (seg args.aux_p i0 (i1 - i0)) _ (fun x hx => by have := (hkey' x hx).2; push_cast at this ⊢; omega)
      rw [this]
      congr 1
      omega
    · rw [if_neg hk]
      by_cases hr : v0 ≤ k ∧ k < v0 + (v1 - v0)
      · rw [if_pos hr, if_pos (by omega)]
      · rw [if_neg hr, if_neg (by omega)]
  · intro k hk
    rw [hg4 k, if_neg (by omega), hg3 k, if_neg (by omega), hg2 k, hg1 k, if_neg (by omega)]
    have : cnt voxel (seg args.aux_p i0 (i1 - i0)) (k : Int) = 0 := by
      simp only [cnt, List.countP_eq_zero]
      intro x hx
      have := hkey' x hx
      simp
      omega
    rw [this]
    cases args.next[k]? <;> simp

/-! ## The single-threaded branch of `sort_p` -/

theorem to_size_t_of_le (h : spa_private) (x : Int) (h0 : 0 ≤ x) (h1 : x.toNat ≤ h.SIZE_MAX) :
    to_size_t h x = x.toNat := by
  unfold to_size_t
  rw [Int.emod_eq_of_lt h0 (by omega)]

theorem sort_p_serial_spec (h : spa_private) (junk : junk_t) (sp : species_t) (g : grid_t)
    (hN : h.N_PIPELINE = 1) (hpre : sort_p_pre h sp g)
    (hvox : ∀ x ∈ live sp, 0 ≤ x.i ∧ x.i < n_voxel g) :
    ∃ T : List Int,
      sort_p_serial h (setup_args h junk sp g ((List.range sp.np.toNat).map junk.scratch_p))
        ((List.range sp.np.toNat).map junk.scratch_p) sp = some { sp with
          p := by_key voxel (live sp) 0 (n_voxel g).toNat ++ sp.p.drop sp.np.toNat
          partition := some T } ∧
      (T.length : Int) = n_voxel g + 1 ∧
      ∀ k : Nat, (k : Int) ≤ n_voxel g →
        T[k]? = some ((below voxel (live sp) k : Nat) : Int) := by
  obtain ⟨hnp0, hnpl, hnv0, hpl, hfit, hK1, hK2, hK3⟩ := hpre
  obtain ⟨np, hnp⟩ := Int.eq_ofNat_of_zero_le hnp0
  obtain ⟨nv, hnv⟩ := Int.eq_ofNat_of_zero_le hnv0
  have hnpl' : np ≤ sp.p.length := by omega
  have hlive : live sp = seg sp.p 0 np := by
    simp [live, seg, hnp]
  have hcpl : 2 ≤ (h.max_subsort * (h.MAX_PIPELINE + 1)).toNat := by
    have : 1 * (1 + 1) ≤ h.max_subsort * (h.MAX_PIPELINE + 1) :=
      Int.mul_le_mul (by omega) (by omega) (by omega) (by omega)
    omega
  generalize hcp : (List.range (h.max_subsort * (h.MAX_PIPELINE + 1)).toNat).map
    junk.coarse_partition = cp
  have hcplen : 2 ≤ cp.length := by rw [← hcp]; simpa using hcpl
  -- the offset table the kernel receives
  obtain ⟨T0, hT0, hT0len⟩ : ∃ T0 : List Int, partition_table junk sp g = T0 ∧
      T0.length = nv + 1 := by
    refine ⟨_, rfl, ?_⟩
    unfold partition_table
    cases hsp : sp.partition with
    | none => simp [hnv]
    | some t => have := hpl t hsp; simp only; omega
  -- the kernel
  obtain ⟨part', next', hk, hlp, _, hgp, _⟩ := subsort_pipeline_spec h
    { p := (List.range np).map junk.scratch_p
      aux_p := sp.p
      coarse_partition := (cp.set 0 0).set 1 (np : Int)
      partition := T0
      next := (List.range nv).map junk.scratch_next
      n := sp.np
      n_subsort := h.N_PIPELINE
      vl := h.VOXEL 1 1 1 g.nx g.ny g.nz
      vh := h.VOXEL g.nx g.ny g.nz g.nx g.ny g.nz
      n_voxel := n_voxel g } 0 1 0 np 0 nv (by omega)
    (by
      have : (0 : Int) = ((0 : Nat) : Int) := rfl
      rw [this, load_natCast, List.getElem?_set_ne (by decide),
        List.getElem?_set_self (by omega)])
    (by
      have : (0 : Int) + 1 = ((1 : Nat) : Int) := rfl
      rw [this, load_natCast, List.getElem?_set_self (by simp; omega)])
    (by simp) (by simp [hnv]) (by omega) (by simpa using hnpl') (by simp) (by omega)
    (by simp) (by simp only; omega)
    (by
      intro x hx
      simp only [Nat.sub_zero] at hx
      rw [← hlive] at hx
      have := hvox x hx
      simp only [Nat.cast_zero]
      omega)
  simp only [Nat.sub_zero, List.take_zero, List.nil_append, Nat.cast_zero] at hk hgp
  rw [← hlive] at hk hgp
  have hdrop : List.drop np (List.map junk.scratch_p (List.range np)) = [] := by
    apply List.drop_of_length_le; simp
  rw [hdrop, List.append_nil] at hk
  have hkey0 : ∀ x ∈ live sp, (0 : Int) ≤ voxel x ∧ voxel x < (0 : Int) + nv := by
    intro x hx
    have := hvox x hx
    simp only [voxel]; omega
  have hlen : (by_key voxel (live sp) 0 nv).length = np := by
    rw [(by_key_perm_self voxel (live sp) 0 nv hkey0).length_eq]
    simp [live, hnp]; omega
  refine ⟨part', ?_, by rw [hlp, hT0len, hnv]; push_cast; rfl, ?_⟩
  · simp only [sort_p_serial, setup_args, hcp, hT0, hnp, hnv, hN, Int.toNat_ofNat,
      Option.bind_eq_bind]
    rw [show (0 : Int) = ((0 : Nat) : Int) from rfl, store_natCast _ _ _ (by omega)]
    simp only [Option.some_bind]
    rw [show (1 : Int) = ((1 : Nat) : Int) from rfl, store_natCast _ _ _ (by simp; omega)]
    simp only [Option.some_bind, Nat.cast_zero, Nat.cast_one]
    rw [hnp, hnv, hN] at hk
    rw [hk]
    have hc : (0 : Int) ≤ 0 ∧ (0 : Int) ≤ 0 ∧ (0 : Int) ≤ np ∧
        (0 : Int) + np ≤ sp.p.length ∧
        (0 : Int) + np ≤ (by_key voxel (live sp) 0 nv).length := by
      rw [hlen]; omega
    simp only [COPY, Option.some_bind, if_pos hc]
    simp [hlen]
  · intro k hk'
    rw [hgp k, if_pos (by omega)]
    simp

theorem sz_scratch_eq (h : spa_private) (np nv : Int) (h0 : 0 ≤ np) (h1 : 0 ≤ nv)
    (hfit : h.sizeof_particle * np.toNat + 128 + h.sizeof_int * nv.toNat ≤ h.SIZE_MAX) :
    sz_scratch h np nv = h.sizeof_particle * np.toNat + 128 + h.sizeof_int * nv.toNat := by
  unfold sz_scratch
  by_cases hp : h.sizeof_particle = 0
  · by_cases hi : h.sizeof_int = 0
    · rw [hp, hi]
      simp only [Nat.zero_mul, Nat.add_zero, Nat.zero_add] at hfit ⊢
      exact Nat.mod_eq_of_lt (by omega)
    · have hnv : nv.toNat ≤ h.SIZE_MAX := by
        have : 1 * nv.toNat ≤ h.sizeof_int * nv.toNat := Nat.mul_le_mul_right _ (by omega)
        omega
      rw [to_size_t_of_le h nv h1 hnv, hp]
      simp only [Nat.zero_mul, Nat.zero_add] at hfit ⊢
      exact Nat.mod_eq_of_lt (by omega)
  · have hnp : np.toNat ≤ h.SIZE_MAX := by
      have : 1 * np.toNat ≤ h.sizeof_particle * np.toNat := Nat.mul_le_mul_right _ (by omega)
      omega
    by_cases hi : h.sizeof_int = 0
    · rw [to_size_t_of_le h np h0 hnp, hi]
      simp only [Nat.zero_mul, Nat.add_zero] at hfit ⊢
      exact Nat.mod_eq_of_lt (by omega)
    · have hnv : nv.toNat ≤ h.SIZE_MAX := by
        have : 1 * nv.toNat ≤ h.sizeof_int * nv.toNat := Nat.mul_le_mul_right _ (by omega)
        omega
      rw [to_size_t_of_le h np h0 hnp, to_size_t_of_le h nv h1 hnv]
      rw [Nat.mod_eq_of_lt (by omega)]
      omega

theorem ensure_scratch_max (h : spa_private) (st : sort_p_static) (np nv : Int) :
    (ensure_scratch h st np nv).max_scratch = max st.max_scratch (sz_scratch h np nv) := by
  unfold ensure_scratch
  simp only
  split
  · simp only; omega
  · omega

theorem sort_p_single_spec (h : spa_private) (junk : junk_t) (st : sort_p_static)
    (sp : species_t) (g : grid_t) (hN : h.N_PIPELINE = 1) (hint : int_defined h sp g)
    (hpre : sort_p_pre h sp g)
    (hvox : ∀ x ∈ live sp, 0 ≤ x.i ∧ x.i < n_voxel g) :
    ∃ T : List Int, sort_p h junk st sp g = some
        (ensure_scratch h st sp.np (n_voxel g),
         { sp with
           p := by_key voxel (live sp) 0 (n_voxel g).toNat ++ sp.p.drop sp.np.toNat
           partition := some T }) ∧
      (T.length : Int) = n_voxel g + 1 ∧
      ∀ k : Nat, (k : Int) ≤ n_voxel g →
        T[k]? = some ((below voxel (live sp) k : Nat) : Int) := by
  obtain ⟨T, hT, hlen, hval⟩ := sort_p_serial_spec h junk sp g hN hpre hvox
  refine ⟨T, ?_, hlen, hval⟩
  have hsz := sz_scratch_eq h sp.np (n_voxel g) hpre.np_nonneg hpre.n_voxel_nonneg
    hpre.scratch_fits
  have hmx := ensure_scratch_max h st sp.np (n_voxel g)
  have hfit : h.sizeof_particle * sp.np.toNat + h.sizeof_int * (n_voxel g).toNat
      ≤ (ensure_scratch h st sp.np (n_voxel g)).max_scratch := by
    rw [hmx, hsz]; omega
  have hK : ¬ (h.N_PIPELINE > 1) := by omega
  simp only [sort_p, if_pos hint, if_pos hfit, if_neg hK, hT, Option.map_some']

/-! ## Auxiliary facts -/

theorem mem_at_key {key : particle_t → Int} {l : List particle_t} {v : Int} {x : particle_t}
    (hx : x ∈ at_key key l v) : x ∈ l ∧ key x = v := by
  simpa [at_key] using hx

theorem below_le_length (key : particle_t → Int) (l : List particle_t) (v : Int) :
    below key l v ≤ l.length := List.countP_le_length _

theorem live_length (sp : species_t) (h0 : 0 ≤ sp.np) (h1 : sp.np ≤ sp.p.length) :
    ((live sp).length : Int) = sp.np := by
  simp [live]; omega

/-! ## Slices that tile the array -/

theorem seg_append_singleton {α : Type} (A : List α) (x : α) (lo n : Nat) :
    seg (A ++ [x]) lo n
      = seg A lo n ++ (if lo ≤ A.length ∧ A.length < lo + n then [x] else []) := by
  unfold seg
  by_cases h1 : lo ≤ A.length
  · rw [List.drop_append_of_le_length h1]
    by_cases h2 : A.length < lo + n
    · rw [if_pos ⟨h1, h2⟩, List.take_of_length_le (by simp; omega),
        List.take_of_length_le (by simp; omega)]
    · rw [if_neg (by omega), List.take_append_of_le_length (by simp; omega), List.append_nil]
  · rw [if_neg (by omega), List.drop_of_length_le (by simp; omega),
      List.drop_of_length_le (by omega)]
    simp

theorem sum_map_indicator (m r0 c : Nat) (hr : r0 < m) :
    ((List.range m).map (fun r => if r = r0 then c else 0)).sum = c := by
  induction m with
  | zero => omega
  | succ m ih =>
    rw [List.range_succ, List.map_append, List.sum_append]
    by_cases h : r0 = m
    · subst h
      have : ((List.range r0).map (fun r => if r = r0 then c else 0)).sum = 0 := by
        apply List.sum_eq_zero
        intro y hy
        simp only [List.mem_map, List.mem_range] at hy
        obtain ⟨r, hr', rfl⟩ := hy
        rw [if_neg (by omega)]
      simp [this]
    · rw [ih (by omega)]
      have : ¬ m = r0 := fun e => h e.symm
      simp [this]

theorem slices_perm {α : Type} [DecidableEq α] (l : List α) (lo n : Nat → Nat) (m : Nat)
    (hdisj : ∀ r r' : Nat, r < r' → r' < m →
      n r = 0 ∨ n r' = 0 ∨ lo r + n r ≤ lo r' ∨ lo r' + n r' ≤ lo r)
    (hcov : ∀ j : Nat, j < l.length → ∃ r : Nat, r < m ∧ lo r ≤ j ∧ j < lo r + n r) :
    ∀ N : Nat, N ≤ l.length →
      (((List.range m).map (fun r => seg (l.take N) (lo r) (n r))).flatten).Perm (l.take N) := by
  intro N
  induction N with
  | zero =>
    intro _
    have : ((List.range m).map (fun r => seg (l.take 0) (lo r) (n r))).flatten = [] := by
      rw [List.flatten_eq_nil_iff]
      intro y hy
      simp only [List.mem_map, List.mem_range] at hy
      obtain ⟨r, _, rfl⟩ := hy
      simp [seg]
    rw [this]
    simp
  | succ N ih =>
    intro hN
    have hlt : N < l.length := by omega
    have ih' := ih (by omega)
    obtain ⟨r0, hr0, hlo, hhi⟩ := hcov N hlt
    have htk : l.take (N + 1) = l.take N ++ [l[N]] :=
      take_succ_of_getElem? (List.getElem?_eq_getElem hlt)
    have hlenN : (l.take N).length = N := by simp; omega
    rw [List.perm_iff_count]
    intro a
    rw [List.count_flatten, List.map_map, htk, List.count_append]
    have hmap : (List.range m).map (List.count a ∘ fun r => seg (l.take N ++ [l[N]]) (lo r) (n r))
        = (List.range m).map (fun r => List.count a (seg (l.take N) (lo r) (n r))
            + (if r = r0 then List.count a [l[N]] else 0)) := by
      apply List.map_congr_left
      intro r hr'
      rw [List.mem_range] at hr'
      simp only [Function.comp]
      rw [seg_append_singleton, List.count_append, hlenN]
      by_cases hr : r = r0
      · subst hr
        rw [if_pos ⟨hlo, hhi⟩, if_pos rfl]
      · rw [if_neg hr, if_neg, List.count_nil]
        intro ⟨h1, h2⟩
        rcases Nat.lt_or_gt_of_ne hr with hlt' | hgt'
        · rcases hdisj r r0 hlt' hr0 with h | h | h | h <;> omega
        · rcases hdisj r0 r hgt' hr' with h | h | h | h <;> omega
    rw [hmap, List.sum_map_add, sum_map_indicator m r0 _ hr0]
    have hc := (List.perm_iff_count.mp ih') a
    rw [List.count_flatten, List.map_map] at hc
    rw [← hc]
    rfl

/-! ## Block copies and loops over a slice -/

theorem COPY_spec {α : Type} (d s : List α) (doff soff n : Nat)
    (hd : doff + n ≤ d.length) (hs : soff + n ≤ s.length) :
    ∃ d', COPY d doff s soff n = some d' ∧ d'.length = d.length ∧
      ∀ k : Nat, d'[k]? = if doff ≤ k ∧ k < doff + n then s[soff + (k - doff)]? else d[k]? := by
  have hc : (0 : Int) ≤ doff ∧ (0 : Int) ≤ soff ∧ (0 : Int) ≤ n ∧ (doff : Int) + n ≤ d.length ∧
      (soff : Int) + n ≤ s.length := by omega
  have e : ((doff : Int) + n).toNat = doff + n := by omega
  refine ⟨d.take doff ++ (s.drop soff).take n ++ d.drop (doff + n),
    by simp only [COPY, if_pos hc, Int.toNat_ofNat, e], ?_, ?_⟩
  · simp; omega
  · intro k
    by_cases h1 : k < doff
    · rw [List.append_assoc, List.getElem?_append_left (by simp; omega), if_neg (by omega),
        List.getElem?_take, if_pos h1]
    · by_cases h2 : k < doff + n
      · rw [List.getElem?_append_left (by simp; omega),
          List.getElem?_append_right (by simp; omega), if_pos (by omega),
          List.getElem?_take, List.getElem?_drop]
        have : k - (List.take doff d).length = k - doff := by simp; omega
        rw [this, if_pos (by omega)]
      · rw [List.getElem?_append_right (by simp; omega), if_neg (by omega),
          List.getElem?_drop]
        congr 1
        simp; omega

/-- The slice view of a loop `for( i=lo; i<hi; i++ )` over an array. -/
theorem for_range_eq {σ : Type} (body : Int → σ → Option σ) (lo hi : Int) (s : σ)
    (hin : hi ≤ lo ∨ 0 ≤ lo) :
    for_range body lo hi s = for_loop body (hi - lo).toNat (lo.toNat : Int) s := by
  unfold for_range
  rcases hin with h | h
  · have : (hi - lo).toNat = 0 := by omega
    rw [this]; rfl
  · have : ((lo.toNat : Nat) : Int) = lo := by omega
    rw [this]

theorem count_range_spec (key : particle_t → Int) (src : List particle_t) (lo hi : Int)
    (next : List Int) (hin : hi ≤ lo ∨ (0 ≤ lo ∧ hi ≤ src.length))
    (hkey : ∀ x ∈ seg src lo.toNat (hi - lo).toNat, 0 ≤ key x ∧ key x < next.length) :
    ∃ next', for_range (count_step key src) lo hi next = some next' ∧
      next'.length = next.length ∧
      ∀ j : Nat, next'[j]? = (next[j]?).map
        (fun c : Int => c + (cnt key (seg src lo.toNat (hi - lo).toNat) j : Nat)) := by
  rw [for_range_eq _ _ _ _ (by omega)]
  by_cases h : hi ≤ lo
  · have h0 : (hi - lo).toNat = 0 := by omega
    rw [h0]
    refine ⟨next, rfl, rfl, ?_⟩
    intro j
    simp [seg, cnt]
  · exact count_loop_spec key src lo.toNat (hi - lo).toNat next (by omega) hkey

theorem scatter_range_spec (key : particle_t → Int) (src : List particle_t) (lo hi : Int)
    (next : List Int) (dst : List particle_t) (v0 m : Nat) (start : Nat → Nat)
    (hin : hi ≤ lo ∨ (0 ≤ lo ∧ hi ≤ src.length)) (hm : v0 + m ≤ next.length)
    (hkey : ∀ x ∈ seg src lo.toNat (hi - lo).toNat,
      (v0 : Int) ≤ key x ∧ key x < ((v0 + m : Nat) : Int))
    (hnext : ∀ v : Nat, v0 ≤ v → v < v0 + m → next[v]? = some ((start v : Nat) : Int))
    (hmono : ∀ v w : Nat, v0 ≤ v → v < w → w < v0 + m →
      start v + cnt key (seg src lo.toNat (hi - lo).toNat) v ≤ start w)
    (hbound : ∀ v : Nat, v0 ≤ v → v < v0 + m →
      start v + cnt key (seg src lo.toNat (hi - lo).toNat) v ≤ dst.length) :
    ∃ next' dst', for_range (scatter_step key src) lo hi (next, dst) = some (next', dst') ∧
      next'.length = next.length ∧ dst'.length = dst.length ∧
      (∀ v : Nat, v0 ≤ v → v < v0 + m → ∀ t : Nat,
        t < cnt key (seg src lo.toNat (hi - lo).toNat) v →
        dst'[start v + t]? = (at_key key (seg src lo.toNat (hi - lo).toNat) v)[t]?) ∧
      (∀ j : Nat, (∀ v : Nat, v0 ≤ v → v < v0 + m →
        ¬ (start v ≤ j ∧ j < start v + cnt key (seg src lo.toNat (hi - lo).toNat) v)) →
        dst'[j]? = dst[j]?) := by
  rw [for_range_eq _ _ _ _ (by omega)]
  by_cases h : hi ≤ lo
  · have h0 : (hi - lo).toNat = 0 := by omega
    rw [h0]
    refine ⟨next, dst, rfl, rfl, rfl, ?_, fun _ _ => rfl⟩
    intro v _ _ t ht
    simp [seg, cnt] at ht
  · obtain ⟨n', d', h1, h2, h3, _, h5, h6⟩ := scatter_loop_spec key src lo.toNat (hi - lo).toNat
      next dst v0 m start (by omega) hm hkey hnext hmono hbound
    exact ⟨n', d', h1, h2, h3, h5, h6⟩

/-! ## The kernel `coarse_count_pipeline` -/

theorem coarse_count_pipeline_spec (h : spa_private) (args : sort_p_pipeline_args_t)
    (r : Nat) (P : Int) (Kn MPn : Nat) (lo hi : Int)
    (hK : args.n_subsort = Kn) (hMP : h.max_subsort = MPn) (hKM : Kn ≤ MPn)
    (hlo : (h.DISTRIBUTE args.n h.sort_block_size r P).1 = lo)
    (hhi : (h.DISTRIBUTE args.n h.sort_block_size r P).2
      + (h.DISTRIBUTE args.n h.sort_block_size r P).1 = hi)
    (hin : hi ≤ lo ∨ (0 ≤ lo ∧ hi ≤ args.p.length))
    (hkey : ∀ x ∈ seg args.p lo.toNat (hi - lo).toNat,
      0 ≤ bucket h args.n_subsort args.vl args.vh x ∧
        bucket h args.n_subsort args.vl args.vh x < Kn)
    (hcp : MPn * r + Kn ≤ args.coarse_partition.length) :
    ∃ cp', coarse_count_pipeline h args r P = some { args with coarse_partition := cp' } ∧
      cp'.length = args.coarse_partition.length ∧
      ∀ k : Nat, cp'[k]? = if MPn * r ≤ k ∧ k < MPn * r + Kn
        then some ((cnt (bucket h args.n_subsort args.vl args.vh)
          (seg args.p lo.toNat (hi - lo).toNat) ((k - MPn * r : Nat) : Int) : Nat) : Int)
        else args.coarse_partition[k]? := by
  obtain ⟨c1, hc1, hl1, hv1⟩ := count_range_spec (bucket h args.n_subsort args.vl args.vh)
    args.p lo hi (List.replicate Kn (0 : Int)) hin (by simpa using hkey)
  rw [List.length_replicate] at hl1
  obtain ⟨cp', hc2, hl2, hv2⟩ := COPY_spec args.coarse_partition c1 (MPn * r) 0 Kn hcp
    (by omega)
  refine ⟨cp', ?_, hl2, ?_⟩
  · have hg : (0 : Int) ≤ args.n_subsort ∧ args.n_subsort ≤ h.max_subsort := by
      rw [hK, hMP]; omega
    have e1 : h.max_subsort * (r : Int) = ((MPn * r : Nat) : Int) := by rw [hMP]; push_cast; rfl
    have hhi' : (h.DISTRIBUTE args.n h.sort_block_size r P).2 + lo = hi := by
      rw [← hlo]; exact hhi
    simp only [coarse_count_pipeline, hlo, hhi', if_pos hg, Option.bind_eq_bind, Option.some_bind,
      coarse_count_body_eq, e1]
    rw [hK] at hc1 ⊢
    simp only [Int.toNat_ofNat, hc1, Option.some_bind]
    have := hc2
    simp only [Nat.cast_zero] at this
    rw [this]
    rfl
  · intro k
    rw [hv2 k]
    by_cases hk : MPn * r ≤ k ∧ k < MPn * r + Kn
    · rw [if_pos hk, if_pos hk, Nat.zero_add, hv1, List.getElem?_replicate, if_pos (by omega)]
      simp
    · rw [if_neg hk, if_neg hk]

theorem mem_seg_take {α : Type} (l : List α) (lo n N : Nat) (x : α) (hN : n = 0 ∨ lo + n ≤ N)
    (hx : x ∈ seg l lo n) : x ∈ l.take N := by
  obtain ⟨k, hk⟩ := List.mem_iff_getElem?.mp hx
  rw [seg_getElem?] at hk
  split at hk
  · apply List.mem_iff_getElem?.mpr
    refine ⟨lo + k, ?_⟩
    rw [List.getElem?_take, if_pos (by omega)]
    exact hk
  · cases hk

theorem mem_slice_live (h : spa_private) (sp : species_t) (r : Nat)
    (hin : slice_hi h sp.np r ≤ slice_lo h sp.np r ∨
      (0 ≤ slice_lo h sp.np r ∧ slice_hi h sp.np r ≤ sp.np))
    (x : particle_t) (hx : x ∈ slice h sp r) : x ∈ live sp :=
  mem_seg_take sp.p _ _ _ x (by omega) hx

theorem coarse_of_parallel {h : spa_private} {sp : species_t} {g : grid_t}
    (hpar : parallel_pre h sp g) : coarse_pre h sp g :=
  ⟨fun x hx => ⟨(hpar.buckets x hx).1, (hpar.buckets x hx).2.1⟩, hpar.slices_inside,
    hpar.slices_disjoint, hpar.slices_cover⟩

theorem EXEC_coarse_count_core (h : spa_private) (sp : species_t) (g : grid_t)
    (args : sort_p_pipeline_args_t) (Kn MPn : Nat)
    (hN : h.N_PIPELINE = Kn) (hMP : h.max_subsort = MPn) (hKM : Kn ≤ MPn)
    (hp : args.p = sp.p) (hn : args.n = sp.np) (hns : args.n_subsort = Kn)
    (hvl : args.vl = h.VOXEL 1 1 1 g.nx g.ny g.nz)
    (hvh : args.vh = h.VOXEL g.nx g.ny g.nz g.nx g.ny g.nz)
    (hnpl : sp.np ≤ sp.p.length) (hpar : coarse_pre h sp g)
    (hcp : MPn * (Kn + 1) ≤ args.coarse_partition.length) :
    ∃ cp', EXEC_PIPELINES h (coarse_count_pipeline h) args
        = some { args with coarse_partition := cp' } ∧
      cp'.length = args.coarse_partition.length ∧
      ∀ r : Nat, r < Kn + 1 → ∀ q : Nat, q < Kn →
        cp'[MPn * r + q]? = some ((cnt (bucket_of h g) (slice h sp r) q : Nat) : Int) := by
  have hKt : (h.N_PIPELINE + 1).toNat = Kn + 1 := by omega
  have hKt' : h.N_PIPELINE.toNat = Kn := by omega
  obtain ⟨a', hrun, cp', ha', hl', hv'⟩ := for_loop_inv
    (fun r a => coarse_count_pipeline h a r h.N_PIPELINE) (Kn + 1)
    (fun m a => ∃ cp', a = { args with coarse_partition := cp' } ∧
      cp'.length = args.coarse_partition.length ∧
      ∀ r : Nat, r < m → ∀ q : Nat, q < Kn →
        cp'[MPn * r + q]? = some ((cnt (bucket_of h g) (slice h sp r) q : Nat) : Int))
    0 args ⟨args.coarse_partition, rfl, rfl, by intro r hr; omega⟩ (by
      rintro m a hm ⟨cp1, rfl, hl1, hv1⟩
      have hin := hpar.slices_inside m (by omega)
      have hmle : MPn * m + MPn ≤ MPn * (Kn + 1) := by
        have : MPn * (m + 1) ≤ MPn * (Kn + 1) := Nat.mul_le_mul_left _ (by omega)
        rw [Nat.mul_succ] at this
        exact this
      obtain ⟨cp2, hc2, hl2, hv2⟩ := coarse_count_pipeline_spec h
        { args with coarse_partition := cp1 } m h.N_PIPELINE Kn MPn
        (slice_lo h sp.np m) (slice_hi h sp.np m) hns hMP hKM
        (by simp only [hn]; rfl) (by simp only [hn]; rfl)
        (by simp only [hp]; omega)
        (by
          intro x hx
          simp only [hp, hns, hvl, hvh] at hx ⊢
          have hb := hpar.buckets x (mem_slice_live h sp m hin x hx)
          simp only [bucket_of, hN] at hb
          exact hb)
        (by simp only [hl1]; omega)
      refine ⟨_, by simpa using hc2, cp2, rfl, by rw [hl2]; exact hl1, ?_⟩
      intro r hr q hq
      rw [hv2]
      by_cases hrm : r = m
      · subst hrm
        rw [if_pos (by omega)]
        simp only [hp, hns, hvl, hvh]
        have : MPn * r + q - MPn * r = q := by omega
        rw [this]
        simp only [bucket_of, hN, slice]
      · have hrlt : r < m := by omega
        have : MPn * r + MPn ≤ MPn * m := by
          have : MPn * (r + 1) ≤ MPn * m := Nat.mul_le_mul_left _ (by omega)
          rw [Nat.mul_succ] at this
          exact this
        rw [if_neg (by omega)]
        exact hv1 r hrlt q hq)
  refine ⟨cp', ?_, hl', hv'⟩
  rw [← ha']
  simp only [EXEC_PIPELINES, hKt]
  exact hrun

theorem EXEC_coarse_count_spec (h : spa_private) (sp : species_t) (g : grid_t)
    (args : sort_p_pipeline_args_t) (Kn MPn : Nat)
    (hN : h.N_PIPELINE = Kn) (hMP : h.max_subsort = MPn) (hKM : Kn ≤ MPn)
    (hp : args.p = sp.p) (hn : args.n = sp.np) (hns : args.n_subsort = Kn)
    (hvl : args.vl = h.VOXEL 1 1 1 g.nx g.ny g.nz)
    (hvh : args.vh = h.VOXEL g.nx g.ny g.nz g.nx g.ny g.nz)
    (hnpl : sp.np ≤ sp.p.length) (hpar : parallel_pre h sp g)
    (hcp : MPn * (Kn + 1) ≤ args.coarse_partition.length) :
    ∃ cp', EXEC_PIPELINES h (coarse_count_pipeline h) args
        = some { args with coarse_partition := cp' } ∧
      cp'.length = args.coarse_partition.length ∧
      ∀ r : Nat, r < Kn + 1 → ∀ q : Nat, q < Kn →
        cp'[MPn * r + q]? = some ((cnt (bucket_of h g) (slice h sp r) q : Nat) : Int) :=
  EXEC_coarse_count_core h sp g args Kn MPn hN hMP hKM hp hn hns hvl hvh hnpl
    (coarse_of_parallel hpar) hcp

/-! ## The coarse partitioning loop of `sort_p` -/

/-- The lists `sl 0, ..., sl (m - 1)` one after the other. -/
theorem cat_succ {α : Type} (sl : Nat → List α) (m : Nat) :
    ((List.range (m + 1)).map sl).flatten = ((List.range m).map sl).flatten ++ sl m := by
  simp [List.range_succ]

theorem cnt_append (key : particle_t → Int) (l₁ l₂ : List particle_t) (v : Int) :
    cnt key (l₁ ++ l₂) v = cnt key l₁ v + cnt key l₂ v := by
  simp [cnt, List.countP_append]

theorem at_key_append (key : particle_t → Int) (l₁ l₂ : List particle_t) (v : Int) :
    at_key key (l₁ ++ l₂) v = at_key key l₁ v ++ at_key key l₂ v := by
  simp [at_key, List.filter_append]

theorem cnt_cat_le (key : particle_t → Int) (sl : Nat → List particle_t) (v : Int) :
    ∀ r m : Nat, r ≤ m →
      cnt key ((List.range r).map sl).flatten v ≤ cnt key ((List.range m).map sl).flatten v := by
  intro r m hrm
  induction m with
  | zero =>
    have : r = 0 := by omega
    subst this; exact le_refl _
  | succ m ih =>
    by_cases h : r = m + 1
    · subst h; exact le_refl _
    · have := ih (by omega)
      rw [cat_succ, cnt_append]
      omega

theorem idx_inj (M r r' q q' : Nat) (hq : q < M) (hq' : q' < M)
    (h : M * r + q = M * r' + q') : r = r' ∧ q = q' := by
  have h1 : (M * r + q) / M = r := by
    rw [Nat.mul_add_div (by omega), Nat.div_eq_of_lt hq, Nat.add_zero]
  have h2 : (M * r' + q') / M = r' := by
    rw [Nat.mul_add_div (by omega), Nat.div_eq_of_lt hq', Nat.add_zero]
  have hr : r = r' := by rw [← h1, ← h2, h]
  subst hr
  exact ⟨rfl, by omega⟩

theorem idx_lt (M r m q : Nat) (hq : q < M) (hr : r < m) : M * r + q < M * m := by
  have : M * (r + 1) ≤ M * m := Nat.mul_le_mul_left _ (by omega)
  rw [Nat.mul_succ] at this
  omega

theorem coarse_partition_inner_spec (h : spa_private) (key : particle_t → Int)
    (sl : Nat → List particle_t) (Kn MPn m : Nat) (q : Nat) (cp : List Int)
    (hMP : h.max_subsort = MPn) (hKM : Kn ≤ MPn) (hq : q < Kn) (hlen : MPn * m ≤ cp.length)
    (hin : ∀ r : Nat, r < m → ∀ q' : Nat, q' < Kn → cp[MPn * r + q']? =
      if q' < q then some (((below key ((List.range m).map sl).flatten q'
          + cnt key ((List.range r).map sl).flatten q' : Nat)) : Int)
        else some ((cnt key (sl r) q' : Nat) : Int)) :
    ∃ cp', for_loop (fun p s => coarse_partition_body h q p s) m 0
        (cp, ((below key ((List.range m).map sl).flatten q : Nat) : Int))
        = some (cp', ((below key ((List.range m).map sl).flatten ((q : Int) + 1) : Nat) : Int)) ∧
      cp'.length = cp.length ∧
      ∀ r : Nat, r < m → ∀ q' : Nat, q' < Kn → cp'[MPn * r + q']? =
        if q' < q + 1 then some (((below key ((List.range m).map sl).flatten q'
            + cnt key ((List.range r).map sl).flatten q' : Nat)) : Int)
          else some ((cnt key (sl r) q' : Nat) : Int) := by
  obtain ⟨⟨c, sum⟩, hrun, hsum, hl, hv⟩ := for_loop_inv
    (fun p s => coarse_partition_body h q p s) m
    (fun k s => s.2 = ((below key ((List.range m).map sl).flatten q
        + cnt key ((List.range k).map sl).flatten q : Nat) : Int) ∧
      s.1.length = cp.length ∧
      ∀ r : Nat, r < m → ∀ q' : Nat, q' < Kn → s.1[MPn * r + q']? =
        if q' < q ∨ (q' = q ∧ r < k) then some (((below key ((List.range m).map sl).flatten q'
            + cnt key ((List.range r).map sl).flatten q' : Nat)) : Int)
          else some ((cnt key (sl r) q' : Nat) : Int))
    0 (cp, ((below key ((List.range m).map sl).flatten q : Nat) : Int))
    ⟨by simp [cnt], rfl, by
      intro r hr q' hq'
      simp only
      rw [hin r hr q' hq']
      by_cases hlt : q' < q
      · rw [if_pos hlt, if_pos (Or.inl hlt)]
      · rw [if_neg hlt, if_neg (by omega)]⟩ (by
      rintro k ⟨c, sum⟩ hk ⟨hsum, hl, hv⟩
      simp only at hsum hl hv
      have hidx : MPn * k + q < cp.length := by
        have := idx_lt MPn k m q (by omega) hk
        omega
      have hcast : (q : Int) + h.max_subsort * ((0 : Int) + (k : Int))
          = ((MPn * k + q : Nat) : Int) := by rw [hMP]; push_cast; ring
      have hld : load c ((q : Int) + h.max_subsort * ((0 : Int) + (k : Int)))
          = some ((cnt key (sl k) q : Nat) : Int) := by
        rw [hcast, load_natCast, hv k hk q hq, if_neg (by omega)]
      refine ⟨(c.set (MPn * k + q) sum, sum + ((cnt key (sl k) q : Nat) : Int)), ?_, ?_,
        by simpa using hl, ?_⟩
      · simp only [coarse_partition_body, hld, Option.bind_eq_bind, Option.some_bind]
        rw [hcast, store_natCast _ _ _ (by omega)]
        rfl
      · simp only
        rw [hsum, cat_succ, cnt_append]
        push_cast; ring
      · intro r hr q' hq'
        simp only
        rw [List.getElem?_set]
        by_cases he : MPn * k + q = MPn * r + q'
        · obtain ⟨hkr, hqq⟩ := idx_inj MPn k r q q' (by omega) (by omega) he
          subst hkr; subst hqq
          rw [if_pos he, if_pos (by omega), if_pos (Or.inr ⟨rfl, by omega⟩), hsum]
        · rw [if_neg he, hv r hr q' hq']
          by_cases hc : q' < q ∨ (q' = q ∧ r < k)
          · rw [if_pos hc, if_pos (by omega)]
          · have hc' : ¬ (q' < q ∨ (q' = q ∧ r < k + 1)) := by
              intro hcon
              rcases hcon with h1 | ⟨h1, h2⟩
              · exact hc (Or.inl h1)
              · by_cases hrk : r = k
                · subst hrk; subst h1; exact he rfl
                · exact hc (Or.inr ⟨h1, by omega⟩)
            rw [if_neg hc, if_neg hc'])
  simp only at hsum hl hv
  refine ⟨c, ?_, hl, ?_⟩
  · rw [hrun, hsum, below_succ]
  · intro r hr q' hq'
    rw [hv r hr q' hq']
    by_cases hc : q' < q + 1
    · rw [if_pos hc, if_pos (by omega)]
    · rw [if_neg hc, if_neg (by omega)]

theorem coarse_partition_loop_spec (h : spa_private) (key : particle_t → Int)
    (sl : Nat → List particle_t) (Kn MPn m : Nat) (cp : List Int)
    (hMP : h.max_subsort = MPn) (hKM : Kn ≤ MPn) (hlen : MPn * m ≤ cp.length)
    (hlo : ∀ x ∈ ((List.range m).map sl).flatten, 0 ≤ key x)
    (hin : ∀ r : Nat, r < m → ∀ q : Nat, q < Kn →
      cp[MPn * r + q]? = some ((cnt key (sl r) q : Nat) : Int)) :
    ∃ cp', coarse_partition_loop h Kn m cp
        = some (cp', ((below key ((List.range m).map sl).flatten Kn : Nat) : Int)) ∧
      cp'.length = cp.length ∧
      ∀ r : Nat, r < m → ∀ q : Nat, q < Kn → cp'[MPn * r + q]? =
        some (((below key ((List.range m).map sl).flatten q
          + cnt key ((List.range r).map sl).flatten q : Nat)) : Int) := by
  obtain ⟨⟨c, sum⟩, hrun, hsum, hl, hv⟩ := for_loop_inv
    (fun q s => for_range (fun p s => coarse_partition_body h q p s) 0 (m : Int) s) Kn
    (fun k s => s.2 = ((below key ((List.range m).map sl).flatten k : Nat) : Int) ∧
      s.1.length = cp.length ∧
      ∀ r : Nat, r < m → ∀ q' : Nat, q' < Kn → s.1[MPn * r + q']? =
        if q' < k then some (((below key ((List.range m).map sl).flatten q'
            + cnt key ((List.range r).map sl).flatten q' : Nat)) : Int)
          else some ((cnt key (sl r) q' : Nat) : Int))
    0 (cp, 0)
    ⟨by simp [below_eq_zero key _ 0 hlo], rfl, by
      intro r hr q' hq'
      simp only
      rw [hin r hr q' hq', if_neg (by omega)]⟩ (by
      rintro k ⟨c, sum⟩ hk ⟨hsum, hl, hv⟩
      simp only at hsum hl hv
      obtain ⟨c', hc', hl', hv'⟩ := coarse_partition_inner_spec h key sl Kn MPn m k c hMP hKM hk
        (by omega) hv
      refine ⟨(c', ((below key ((List.range m).map sl).flatten ((k : Int) + 1) : Nat) : Int)),
        ?_, ?_, by show c'.length = cp.length; omega, hv'⟩
      · simp only [for_range, zero_add, Int.sub_zero, Int.toNat_ofNat, hsum]
        exact hc'
      · simp only
        push_cast; rfl)
  simp only at hsum hl hv
  refine ⟨c, ?_, hl, ?_⟩
  · simp only [for_range, Int.sub_zero, Int.toNat_ofNat] at hrun
    simp only [coarse_partition_loop, for_range, Int.sub_zero, Int.toNat_ofNat]
    rw [hrun, hsum]
  · intro r hr q hq
    rw [hv r hr q hq, if_pos hq]

/-! ## The kernel `coarse_sort_pipeline` -/

theorem coarse_sort_pipeline_spec (h : spa_private) (args : sort_p_pipeline_args_t)
    (r : Nat) (P : Int) (Kn MPn : Nat) (lo hi : Int) (start : Nat → Nat)
    (hK : args.n_subsort = Kn) (hMP : h.max_subsort = MPn) (hKM : Kn ≤ MPn)
    (hlo : (h.DISTRIBUTE args.n h.sort_block_size r P).1 = lo)
    (hhi : (h.DISTRIBUTE args.n h.sort_block_size r P).2
      + (h.DISTRIBUTE args.n h.sort_block_size r P).1 = hi)
    (hin : hi ≤ lo ∨ (0 ≤ lo ∧ hi ≤ args.p.length))
    (hkey : ∀ x ∈ seg args.p lo.toNat (hi - lo).toNat,
      0 ≤ bucket h args.n_subsort args.vl args.vh x ∧
        bucket h args.n_subsort args.vl args.vh x < Kn)
    (hcp : MPn * r + Kn ≤ args.coarse_partition.length)
    (hstart : ∀ q : Nat, q < Kn →
      args.coarse_partition[MPn * r + q]? = some ((start q : Nat) : Int))
    (hmono : ∀ v w : Nat, v < w → w < Kn →
      start v + cnt (bucket h args.n_subsort args.vl args.vh)
        (seg args.p lo.toNat (hi - lo).toNat) v ≤ start w)
    (hbound : ∀ v : Nat, v < Kn →
      start v + cnt (bucket h args.n_subsort args.vl args.vh)
        (seg args.p lo.toNat (hi - lo).toNat) v ≤ args.aux_p.length) :
    ∃ d', coarse_sort_pipeline h args r P = some { args with aux_p := d' } ∧
      d'.length = args.aux_p.length ∧
      (∀ v : Nat, v < Kn → ∀ t : Nat,
        t < cnt (bucket h args.n_subsort args.vl args.vh)
          (seg args.p lo.toNat (hi - lo).toNat) v →
        d'[start v + t]? = (at_key (bucket h args.n_subsort args.vl args.vh)
          (seg args.p lo.toNat (hi - lo).toNat) v)[t]?) ∧
      (∀ j : Nat, (∀ v : Nat, v < Kn →
        ¬ (start v ≤ j ∧ j < start v + cnt (bucket h args.n_subsort args.vl args.vh)
          (seg args.p lo.toNat (hi - lo).toNat) v)) → d'[j]? = args.aux_p[j]?) := by
  obtain ⟨n1, hc1, hl1, hv1⟩ := COPY_spec (List.replicate Kn (0 : Int)) args.coarse_partition
    0 (MPn * r) Kn (by simp) hcp
  rw [List.length_replicate] at hl1
  obtain ⟨n2, d2, hc2, _, hl2, hin2, hout2⟩ := scatter_range_spec
    (bucket h args.n_subsort args.vl args.vh) args.p lo hi n1 args.aux_p 0 Kn start hin
    (by omega) (by simpa using hkey)
    (by
      intro v _ hv
      rw [hv1 v, if_pos (by omega)]
      have : MPn * r + (v - 0) = MPn * r + v := by omega
      rw [this]
      exact hstart v (by omega))
    (by intro v w _ hvw hw; exact hmono v w hvw (by omega))
    (by intro v _ hv; exact hbound v (by omega))
  refine ⟨d2, ?_, hl2, ?_, ?_⟩
  · have hg : (0 : Int) ≤ args.n_subsort ∧ args.n_subsort ≤ h.max_subsort := by
      rw [hK, hMP]; omega
    have e1 : h.max_subsort * (r : Int) = ((MPn * r : Nat) : Int) := by rw [hMP]; push_cast; rfl
    have hhi' : (h.DISTRIBUTE args.n h.sort_block_size r P).2 + lo = hi := by
      rw [← hlo]; exact hhi
    simp only [coarse_sort_pipeline, hlo, hhi', if_pos hg, Option.bind_eq_bind,
      coarse_sort_body_eq, e1]
    rw [hK] at hc2 ⊢
    have := hc1
    simp only [Nat.cast_zero] at this
    simp only [Int.toNat_ofNat, this, Option.some_bind, hc2]
    rfl
  · intro v hv t ht
    exact hin2 v (by omega) (by omega) t ht
  · intro j hj
    apply hout2
    intro v _ hv
    exact hj v (by omega)

theorem slices_cat_succ (h : spa_private) (sp : species_t) (m : Nat) :
    slices_cat h sp (m + 1) = slices_cat h sp m ++ slice h sp m :=
  cat_succ (slice h sp) m

theorem EXEC_coarse_sort_core (h : spa_private) (sp : species_t) (g : grid_t)
    (args : sort_p_pipeline_args_t) (Kn MPn : Nat)
    (hN : h.N_PIPELINE = Kn) (hMP : h.max_subsort = MPn) (hKM : Kn ≤ MPn)
    (hp : args.p = sp.p) (hn : args.n = sp.np) (hns : args.n_subsort = Kn)
    (hvl : args.vl = h.VOXEL 1 1 1 g.nx g.ny g.nz)
    (hvh : args.vh = h.VOXEL g.nx g.ny g.nz g.nx g.ny g.nz)
    (hnpl : sp.np ≤ sp.p.length) (hpar : coarse_pre h sp g)
    (hcp : MPn * (Kn + 1) ≤ args.coarse_partition.length)
    (haux : (slices_cat h sp (Kn + 1)).length ≤ args.aux_p.length)
    (hstart : ∀ r : Nat, r < Kn + 1 → ∀ q : Nat, q < Kn →
      args.coarse_partition[MPn * r + q]? =
        some (((below (bucket_of h g) (slices_cat h sp (Kn + 1)) q
          + cnt (bucket_of h g) (slices_cat h sp r) q : Nat)) : Int)) :
    ∃ aux', EXEC_PIPELINES h (coarse_sort_pipeline h) args = some { args with aux_p := aux' } ∧
      aux'.length = args.aux_p.length ∧
      ∀ q : Nat, q < Kn → ∀ t : Nat, t < cnt (bucket_of h g) (slices_cat h sp (Kn + 1)) q →
        aux'[below (bucket_of h g) (slices_cat h sp (Kn + 1)) q + t]?
          = (at_key (bucket_of h g) (slices_cat h sp (Kn + 1)) q)[t]? := by
  have hKt : (h.N_PIPELINE + 1).toNat = Kn + 1 := by omega
  -- layout facts
  have hsucc : ∀ q : Nat, below (bucket_of h g) (slices_cat h sp (Kn + 1)) ((q : Int) + 1)
      = below (bucket_of h g) (slices_cat h sp (Kn + 1)) q
        + cnt (bucket_of h g) (slices_cat h sp (Kn + 1)) q :=
    fun q => below_succ _ _ _
  have hmonoB : ∀ q q' : Nat, q < q' → below (bucket_of h g) (slices_cat h sp (Kn + 1))
      ((q : Int) + 1) ≤ below (bucket_of h g) (slices_cat h sp (Kn + 1)) q' :=
    fun q q' hqq => below_mono _ _ (by omega)
  have hleB : ∀ v : Int, below (bucket_of h g) (slices_cat h sp (Kn + 1)) v
      ≤ (slices_cat h sp (Kn + 1)).length := fun v => below_le_length _ _ _
  have hcle : ∀ (m : Nat) (q : Int), m ≤ Kn + 1 → cnt (bucket_of h g) (slices_cat h sp m) q
      ≤ cnt (bucket_of h g) (slices_cat h sp (Kn + 1)) q :=
    fun m q hm => cnt_cat_le _ (slice h sp) q m (Kn + 1) hm
  obtain ⟨a', hrun, aux', ha', hl', hv'⟩ := for_loop_inv
    (fun r a => coarse_sort_pipeline h a r h.N_PIPELINE) (Kn + 1)
    (fun m a => ∃ aux', a = { args with aux_p := aux' } ∧
      aux'.length = args.aux_p.length ∧
      ∀ q : Nat, q < Kn → ∀ t : Nat, t < cnt (bucket_of h g) (slices_cat h sp m) q →
        aux'[below (bucket_of h g) (slices_cat h sp (Kn + 1)) q + t]?
          = (at_key (bucket_of h g) (slices_cat h sp m) q)[t]?)
    0 args ⟨args.aux_p, rfl, rfl, by
      intro q _ t ht
      simp [slices_cat, cnt] at ht⟩ (by
      rintro m a hm ⟨aux1, rfl, hl1, hv1⟩
      have hin := hpar.slices_inside m (by omega)
      have hmle : MPn * m + MPn ≤ MPn * (Kn + 1) := by
        have : MPn * (m + 1) ≤ MPn * (Kn + 1) := Nat.mul_le_mul_left _ (by omega)
        rw [Nat.mul_succ] at this
        exact this
      have hcs : ∀ q : Int, cnt (bucket_of h g) (slices_cat h sp (m + 1)) q
          = cnt (bucket_of h g) (slices_cat h sp m) q + cnt (bucket_of h g) (slice h sp m) q :=
        fun q => by rw [slices_cat_succ h sp m, cnt_append]
      have hbk : bucket h (Kn : Int) (h.VOXEL 1 1 1 g.nx g.ny g.nz)
          (h.VOXEL g.nx g.ny g.nz g.nx g.ny g.nz) = bucket_of h g := by
        simp only [bucket_of, hN]
      obtain ⟨aux2, hc2, hl2, hin2, hout2⟩ := coarse_sort_pipeline_spec h
        { args with aux_p := aux1 } m h.N_PIPELINE Kn MPn
        (slice_lo h sp.np m) (slice_hi h sp.np m)
        (fun q => below (bucket_of h g) (slices_cat h sp (Kn + 1)) q
          + cnt (bucket_of h g) (slices_cat h sp m) q)
        hns hMP hKM
        (by simp only [hn]; rfl) (by simp only [hn]; rfl)
        (by simp only [hp]; omega)
        (by
          intro x hx
          simp only [hp, hns, hvl, hvh] at hx ⊢
          have hb := hpar.buckets x (mem_slice_live h sp m hin x hx)
          simp only [bucket_of, hN] at hb
          exact hb)
        (by simp only; omega)
        (by intro q hq; exact hstart m hm q hq)
        (by
          intro v w hvw hw
          simp only [hp, hns, hvl, hvh, hbk]
          have h1 := hcs v
          have h2 := hcle (m + 1) v (by omega)
          have h3 := hsucc v
          have h4 := hmonoB v w hvw
          change _ + cnt (bucket_of h g) (slice h sp m) v ≤ _
          omega)
        (by
          intro v _
          simp only [hp, hns, hvl, hvh, hbk, hl1]
          have h1 := hcs v
          have h2 := hcle (m + 1) v (by omega)
          have h3 := hsucc v
          have h4 := hleB ((v : Int) + 1)
          change _ + cnt (bucket_of h g) (slice h sp m) v ≤ _
          omega)
      simp only [hp, hns, hvl, hvh, hbk] at hin2 hout2
      change (∀ v : Nat, v < Kn → ∀ t : Nat, t < cnt (bucket_of h g) (slice h sp m) v →
        aux2[below (bucket_of h g) (slices_cat h sp (Kn + 1)) v
          + cnt (bucket_of h g) (slices_cat h sp m) v + t]?
          = (at_key (bucket_of h g) (slice h sp m) v)[t]?) at hin2
      change (∀ j : Nat, (∀ v : Nat, v < Kn →
        ¬ (below (bucket_of h g) (slices_cat h sp (Kn + 1)) v
            + cnt (bucket_of h g) (slices_cat h sp m) v ≤ j ∧
          j < below (bucket_of h g) (slices_cat h sp (Kn + 1)) v
            + cnt (bucket_of h g) (slices_cat h sp m) v
            + cnt (bucket_of h g) (slice h sp m) v)) → aux2[j]? = aux1[j]?) at hout2
      refine ⟨_, by simpa using hc2, aux2, rfl, by rw [hl2]; exact hl1, ?_⟩
      intro q hq t ht
      rw [hcs] at ht
      rw [slices_cat_succ h sp m, at_key_append]
      by_cases htl : t < cnt (bucket_of h g) (slices_cat h sp m) q
      · rw [List.getElem?_append_left (by rw [at_key_length]; exact htl), ← hv1 q hq t htl]
        apply hout2
        intro v hv
        have h2 := hcle (m + 1) v (by omega)
        have h1 := hcs v
        have h3 := hsucc v
        have h3q := hsucc q
        have h2q := hcle m q (by omega)
        rcases Nat.lt_trichotomy v q with hvq | hvq | hvq
        · have h4 := hmonoB v q hvq
          omega
        · subst hvq; omega
        · have h4 := hmonoB q v hvq
          omega
      · rw [List.getElem?_append_right (by rw [at_key_length]; omega), at_key_length,
          ← hin2 q hq (t - cnt (bucket_of h g) (slices_cat h sp m) q) (by omega)]
        congr 1
        omega)
  refine ⟨aux', ?_, hl', hv'⟩
  rw [← ha']
  simp only [EXEC_PIPELINES, hKt]
  exact hrun

theorem EXEC_coarse_sort_spec (h : spa_private) (sp : species_t) (g : grid_t)
    (args : sort_p_pipeline_args_t) (Kn MPn : Nat)
    (hN : h.N_PIPELINE = Kn) (hMP : h.max_subsort = MPn) (hKM : Kn ≤ MPn)
    (hp : args.p = sp.p) (hn : args.n = sp.np) (hns : args.n_subsort = Kn)
    (hvl : args.vl = h.VOXEL 1 1 1 g.nx g.ny g.nz)
    (hvh : args.vh = h.VOXEL g.nx g.ny g.nz g.nx g.ny g.nz)
    (hnpl : sp.np ≤ sp.p.length) (hpar : parallel_pre h sp g)
    (hcp : MPn * (Kn + 1) ≤ args.coarse_partition.length)
    (haux : (slices_cat h sp (Kn + 1)).length ≤ args.aux_p.length)
    (hstart : ∀ r : Nat, r < Kn + 1 → ∀ q : Nat, q < Kn →
      args.coarse_partition[MPn * r + q]? =
        some (((below (bucket_of h g) (slices_cat h sp (Kn + 1)) q
          + cnt (bucket_of h g) (slices_cat h sp r) q : Nat)) : Int)) :
    ∃ aux', EXEC_PIPELINES h (coarse_sort_pipeline h) args = some { args with aux_p := aux' } ∧
      aux'.length = args.aux_p.length ∧
      ∀ q : Nat, q < Kn → ∀ t : Nat, t < cnt (bucket_of h g) (slices_cat h sp (Kn + 1)) q →
        aux'[below (bucket_of h g) (slices_cat h sp (Kn + 1)) q + t]?
          = (at_key (bucket_of h g) (slices_cat h sp (Kn + 1)) q)[t]? :=
  EXEC_coarse_sort_core h sp g args Kn MPn hN hMP hKM hp hn hns hvl hvh hnpl
    (coarse_of_parallel hpar) hcp haux hstart

/-! ## Voxel ranges of the subsort pipelines -/

theorem range_start_zero (h : spa_private) (g : grid_t) (hK : 1 ≤ h.N_PIPELINE) :
    range_start h g 0 = 0 := by
  have : 0 < h.N_PIPELINE.toNat := by omega
  simp [range_start, range_lo, this]

theorem range_start_last (h : spa_private) (g : grid_t) :
    range_start h g h.N_PIPELINE.toNat = n_voxel g := by
  simp [range_start]

theorem range_lo_eq (h : spa_private) (g : grid_t) (r : Nat) (hr : r < h.N_PIPELINE.toNat) :
    range_lo h g r = range_start h g r := by
  simp [range_start, hr]

theorem range_hi_eq (h : spa_private) (g : grid_t) (r : Nat) (hr : r < h.N_PIPELINE.toNat) :
    range_hi h g r = range_start h g (r + 1) := by
  unfold range_hi range_start
  by_cases hl : r + 1 < h.N_PIPELINE.toNat
  · have h1 : ¬ ((r : Int) = h.N_PIPELINE - 1) := by omega
    have h2 : ¬ (((r + 1 : Nat) : Int) = 0) := by omega
    rw [if_neg h1, if_pos hl, range_lo, if_neg h2]
    push_cast; rfl
  · have h1 : (r : Int) = h.N_PIPELINE - 1 := by omega
    rw [if_pos h1, if_neg hl]

theorem range_start_step (h : spa_private) (sp : species_t) (g : grid_t)
    (hpar : parallel_pre h sp g) (r : Nat) (hr : r < h.N_PIPELINE.toNat) :
    range_start h g r ≤ range_start h g (r + 1) := by
  rw [← range_lo_eq h g r hr, ← range_hi_eq h g r hr]
  exact hpar.ranges r hr

theorem range_start_mono (h : spa_private) (sp : species_t) (g : grid_t)
    (hpar : parallel_pre h sp g) :
    ∀ r' r : Nat, r ≤ r' → r' ≤ h.N_PIPELINE.toNat →
      range_start h g r ≤ range_start h g r' := by
  intro r'
  induction r' with
  | zero =>
    intro r hr _
    have : r = 0 := by omega
    subst this; exact le_refl _
  | succ r' ih =>
    intro r hr hr'
    by_cases he : r = r' + 1
    · subst he; exact le_refl _
    · exact le_trans (ih r (by omega) (by omega)) (range_start_step h sp g hpar r' (by omega))

theorem countP_split {α : Type} (p q r : α → Bool) (l : List α)
    (hpq : ∀ x ∈ l, p x = true ↔ (q x = true ∨ r x = true))
    (hqr : ∀ x ∈ l, ¬ (q x = true ∧ r x = true)) :
    l.countP p = l.countP q + l.countP r := by
  induction l with
  | nil => rfl
  | cons x xs ih =>
    have ih' := ih (fun y hy => hpq y (List.mem_cons_of_mem _ hy))
      (fun y hy => hqr y (List.mem_cons_of_mem _ hy))
    have h1 := hpq x (List.mem_cons_self _ _)
    have h2 := hqr x (List.mem_cons_self _ _)
    rw [List.countP_cons, List.countP_cons, List.countP_cons, ih']
    cases hp : p x <;> cases hq : q x <;> cases hr : r x <;> simp_all <;> omega

/-- The records of a bucket precede, in voxel order, those of the next bucket:
the number of records below voxel `k` splits at the bucket whose range holds
`k`. -/
theorem below_split (key bkt : particle_t → Int) (l : List particle_t) (m k : Int)
    (hlt : ∀ x ∈ l, bkt x < m → key x < k) (hgt : ∀ x ∈ l, m < bkt x → k ≤ key x) :
    below key l k = below bkt l m + below key (at_key bkt l m) k := by
  unfold below at_key
  rw [List.countP_filter]
  apply countP_split
  · intro x hx
    have h1 := hlt x hx
    have h2 := hgt x hx
    simp only [decide_eq_true_eq, Bool.and_eq_true]
    constructor
    · intro hk
      by_cases hb : bkt x < m
      · exact Or.inl hb
      · exact Or.inr ⟨hk, by omega⟩
    · rintro (hb | ⟨hk, _⟩)
      · exact h1 hb
      · exact hk
  · intro x _
    simp only [decide_eq_true_eq, Bool.and_eq_true]
    omega

/-! ## Concatenations -/

theorem seg_eq_of_getElem? {α : Type} (a l : List α) (lo : Nat)
    (hv : ∀ t : Nat, t < l.length → a[lo + t]? = l[t]?) : seg a lo l.length = l := by
  apply List.ext_getElem?
  intro k
  rw [seg_getElem?]
  by_cases hk : k < l.length
  · rw [if_pos hk, hv k hk]
  · rw [if_neg hk, List.getElem?_eq_none (by omega)]

theorem by_key_eq_cat (key : particle_t → Int) (l : List particle_t) (m : Nat) :
    by_key key l 0 m = ((List.range m).map (fun k : Nat => at_key key l k)).flatten := by
  simp [by_key, List.flatMap]

theorem cat_length_eq (key : particle_t → Int) (S : List particle_t)
    (X : Nat → List particle_t) (hlo : ∀ x ∈ S, 0 ≤ key x) :
    ∀ m : Nat, (∀ r : Nat, r < m → (X r).length = cnt key S r) →
      (((List.range m).map X).flatten).length = below key S m := by
  intro m
  induction m with
  | zero => intro _; simp [below_eq_zero key S 0 hlo]
  | succ m ih =>
    intro hX
    rw [cat_succ, List.length_append, ih (fun r hr => hX r (by omega)), hX m (by omega)]
    have := below_succ key S (m : Int)
    push_cast
    omega

theorem cat_getElem? {α : Type} (f : Nat → List α) :
    ∀ m r t : Nat, r < m → t < (f r).length →
      (((List.range m).map f).flatten)[(((List.range r).map f).flatten).length + t]?
        = (f r)[t]? := by
  intro m
  induction m with
  | zero => intro r t hr; omega
  | succ m ih =>
    intro r t hr ht
    rw [cat_succ]
    by_cases hrm : r = m
    · subst hrm
      rw [List.getElem?_append_right (by omega)]
      congr 1
      omega
    · have hle : (((List.range (r + 1)).map f).flatten).length
          ≤ (((List.range m).map f).flatten).length := by
        have : ∀ a b : Nat, a ≤ b → (((List.range a).map f).flatten).length
            ≤ (((List.range b).map f).flatten).length := by
          intro a b hab
          induction b with
          | zero =>
            have : a = 0 := by omega
            subst this; exact le_refl _
          | succ b ihb =>
            by_cases hb : a = b + 1
            · subst hb; exact le_refl _
            · have := ihb (by omega)
              rw [cat_succ, List.length_append]
              omega
        exact this (r + 1) m (by omega)
      rw [cat_succ, List.length_append] at hle
      rw [List.getElem?_append_left (by omega)]
      exact ih r t (by omega) ht

theorem cat_perm {α : Type} (f g : Nat → List α) :
    ∀ m : Nat, (∀ r : Nat, r < m → (f r).Perm (g r)) →
      (((List.range m).map f).flatten).Perm (((List.range m).map g).flatten) := by
  intro m
  induction m with
  | zero => intro _; simp
  | succ m ih =>
    intro hfg
    rw [cat_succ, cat_succ]
    exact (ih (fun r hr => hfg r (by omega))).append (hfg m (by omega))

/-! ## The subsort pipelines of the parallel branch -/

/-- The voxel range of the bucket of a live record, in terms of `range_start`. -/
theorem bucket_range (h : spa_private) (sp : species_t) (g : grid_t)
    (hpar : parallel_pre h sp g) (x : particle_t) (hx : x ∈ live sp) :
    ∃ b : Nat, bucket_of h g x = b ∧ b < h.N_PIPELINE.toNat ∧
      range_start h g b ≤ x.i ∧ x.i < range_start h g (b + 1) := by
  obtain ⟨h0, h1, h2, h3⟩ := hpar.buckets x hx
  obtain ⟨b, hb⟩ := Int.eq_ofNat_of_zero_le h0
  have hbl : b < h.N_PIPELINE.toNat := by omega
  rw [hb] at h2 h3
  rw [range_lo_eq h g b hbl] at h2
  rw [range_hi_eq h g b hbl] at h3
  exact ⟨b, hb, hbl, h2, h3⟩

theorem subsort_step_spec (h : spa_private) (sp : species_t) (g : grid_t)
    (args : sort_p_pipeline_args_t) (Kn m : Nat) (SL : List particle_t)
    (hN : h.N_PIPELINE = Kn) (hm : m < Kn)
    (hvl : args.vl = h.VOXEL 1 1 1 g.nx g.ny g.nz)
    (hvh : args.vh = h.VOXEL g.nx g.ny g.nz g.nx g.ny g.nz)
    (hnv : args.n_voxel = n_voxel g)
    (hpar : parallel_pre h sp g) (hSL : ∀ x ∈ SL, x ∈ live sp)
    (hcp : ∀ r : Nat, r ≤ Kn →
      args.coarse_partition[r]? = some ((below (bucket_of h g) SL r : Nat) : Int))
    (haux : ∀ t : Nat, t < cnt (bucket_of h g) SL m →
      args.aux_p[below (bucket_of h g) SL m + t]? = (at_key (bucket_of h g) SL m)[t]?)
    (hauxl : SL.length ≤ args.aux_p.length) (hpl : SL.length ≤ args.p.length)
    (hnext : n_voxel g ≤ args.next.length) (hpart : n_voxel g < args.partition.length) :
    ∃ T' nx', subsort_pipeline h args m h.N_PIPELINE = some { args with
        p := args.p.take (below (bucket_of h g) SL m)
          ++ by_key voxel (at_key (bucket_of h g) SL m) (range_start h g m)
              (range_start h g (m + 1) - range_start h g m).toNat
          ++ args.p.drop (below (bucket_of h g) SL ((m : Int) + 1))
        partition := T'
        next := nx' } ∧
      T'.length = args.partition.length ∧ nx'.length = args.next.length ∧
      (∀ k : Nat, T'[k]? =
        if range_start h g m ≤ k ∧ (k : Int) ≤ range_start h g (m + 1)
        then some ((below voxel SL k : Nat) : Int) else args.partition[k]?) := by
  have hKt : h.N_PIPELINE.toNat = Kn := by omega
  have hK1 : (1 : Int) ≤ h.N_PIPELINE := by omega
  -- voxel boundaries
  have hV0 : (0 : Int) ≤ range_start h g m := by
    have := range_start_mono h sp g hpar m 0 (by omega) (by omega)
    rw [range_start_zero h g hK1] at this
    exact this
  have hV1 : range_start h g m ≤ range_start h g (m + 1) :=
    range_start_step h sp g hpar m (by omega)
  have hV2 : range_start h g (m + 1) ≤ n_voxel g := by
    have := range_start_mono h sp g hpar h.N_PIPELINE.toNat (m + 1) (by omega) (le_refl _)
    rw [range_start_last] at this
    exact this
  -- bucket offsets
  have hs := below_succ (bucket_of h g) SL (m : Int)
  have hBle : below (bucket_of h g) SL ((m : Int) + 1) ≤ SL.length := below_le_length _ _ _
  have hAlen : (at_key (bucket_of h g) SL m).length = cnt (bucket_of h g) SL m :=
    at_key_length _ _ _
  have hseg : seg args.aux_p (below (bucket_of h g) SL m)
      (below (bucket_of h g) SL ((m : Int) + 1) - below (bucket_of h g) SL m)
      = at_key (bucket_of h g) SL m := by
    have e : below (bucket_of h g) SL ((m : Int) + 1) - below (bucket_of h g) SL m
        = (at_key (bucket_of h g) SL m).length := by rw [hAlen]; omega
    rw [e]
    apply seg_eq_of_getElem?
    intro t ht
    exact haux t (by rw [← hAlen]; exact ht)
  have hkeyA : ∀ x ∈ at_key (bucket_of h g) SL m,
      range_start h g m ≤ x.i ∧ x.i < range_start h g (m + 1) := by
    intro x hx
    obtain ⟨hxS, hxb⟩ := mem_at_key hx
    obtain ⟨b, hb, _, hb1, hb2⟩ := bucket_range h sp g hpar x (hSL x hxS)
    have : b = m := by omega
    subst this
    exact ⟨hb1, hb2⟩
  obtain ⟨T', nx', hrun, hlT, hln, hvT, _⟩ := subsort_pipeline_spec h args m h.N_PIPELINE
    (below (bucket_of h g) SL m) (below (bucket_of h g) SL ((m : Int) + 1))
    (range_start h g m).toNat (range_start h g (m + 1)).toNat (by omega)
    (by rw [load_natCast]; exact hcp m (by omega))
    (by
      have : (m : Int) + 1 = ((m + 1 : Nat) : Int) := by push_cast; rfl
      rw [this, load_natCast, hcp (m + 1) (by omega)])
    (by
      have := range_lo_eq h g m (by omega)
      simp only [range_lo] at this
      rw [hvl, hvh, this]
      omega)
    (by
      have := range_hi_eq h g m (by omega)
      simp only [range_hi] at this
      rw [hvl, hvh, hnv, this]
      omega)
    (by omega) (by omega) (by omega) (by omega) (by omega) (by omega)
    (by
      rw [hseg]
      intro x hx
      have := hkeyA x hx
      omega)
  rw [hseg] at hrun hvT
  have e1 : ((range_start h g m).toNat : Int) = range_start h g m := by omega
  have e2 : (range_start h g (m + 1)).toNat - (range_start h g m).toNat
      = (range_start h g (m + 1) - range_start h g m).toNat := by omega
  rw [e1, e2] at hrun
  refine ⟨T', nx', hrun, hlT, hln, ?_⟩
  intro k
  rw [hvT k]
  by_cases hk : range_start h g m ≤ k ∧ (k : Int) ≤ range_start h g (m + 1)
  · rw [if_pos hk, if_pos (by omega)]
    have := below_split voxel (bucket_of h g) SL (m : Int) (k : Int)
      (by
        intro x hx hlt
        obtain ⟨b, hb, hbl, _, hb2⟩ := bucket_range h sp g hpar x (hSL x hx)
        have hmono := range_start_mono h sp g hpar m (b + 1) (by omega) (by omega)
        simp only [voxel]
        omega)
      (by
        intro x hx hgt
        obtain ⟨b, hb, hbl, hb1, _⟩ := bucket_range h sp g hpar x (hSL x hx)
        have hmono := range_start_mono h sp g hpar b (m + 1) (by omega) (by omega)
        simp only [voxel]
        omega)
    rw [this]
    push_cast; rfl
  · rw [if_neg hk, if_neg (by omega)]

theorem EXEC_subsort_spec (h : spa_private) (sp : species_t) (g : grid_t)
    (args : sort_p_pipeline_args_t) (Kn : Nat) (SL : List particle_t)
    (hN : h.N_PIPELINE = Kn) (hK1 : 1 ≤ Kn)
    (hvl : args.vl = h.VOXEL 1 1 1 g.nx g.ny g.nz)
    (hvh : args.vh = h.VOXEL g.nx g.ny g.nz g.nx g.ny g.nz)
    (hnv : args.n_voxel = n_voxel g)
    (hpar : parallel_pre h sp g) (hSL : ∀ x ∈ SL, x ∈ live sp)
    (hcp : ∀ r : Nat, r ≤ Kn →
      args.coarse_partition[r]? = some ((below (bucket_of h g) SL r : Nat) : Int))
    (haux : ∀ q : Nat, q < Kn → ∀ t : Nat, t < cnt (bucket_of h g) SL q →
      args.aux_p[below (bucket_of h g) SL q + t]? = (at_key (bucket_of h g) SL q)[t]?)
    (hauxl : SL.length ≤ args.aux_p.length) (hpl : SL.length ≤ args.p.length)
    (hnext : n_voxel g ≤ args.next.length) (hpart : n_voxel g < args.partition.length) :
    ∃ p' T' nx', EXEC_PIPELINES h (subsort_pipeline h) args
        = some { args with p := p', partition := T', next := nx' } ∧
      p'.length = args.p.length ∧ T'.length = args.partition.length ∧
      (∀ r : Nat, r < Kn → ∀ j : Nat, j < cnt (bucket_of h g) SL r →
        p'[below (bucket_of h g) SL r + j]?
          = (by_key voxel (at_key (bucket_of h g) SL r) (range_start h g r)
              (range_start h g (r + 1) - range_start h g r).toNat)[j]?) ∧
      (∀ j : Nat, below (bucket_of h g) SL Kn ≤ j → p'[j]? = args.p[j]?) ∧
      (∀ k : Nat, (k : Int) ≤ n_voxel g → T'[k]? = some ((below voxel SL k : Nat) : Int)) := by
  have hKt : (h.N_PIPELINE + 1).toNat = Kn + 1 := by omega
  have hKt' : h.N_PIPELINE.toNat = Kn := by omega
  have hBmono : ∀ a b : Nat, a ≤ b →
      below (bucket_of h g) SL (a : Int) ≤ below (bucket_of h g) SL (b : Int) :=
    fun a b hab => below_mono _ _ (by omega)
  have hBle : ∀ a : Nat, below (bucket_of h g) SL (a : Int) ≤ SL.length :=
    fun a => below_le_length _ _ _
  obtain ⟨a', hrun, p', T', nx', ha', hlp, hlT, hln, hI1, hI2, hI3⟩ := for_loop_inv
    (fun r a => subsort_pipeline h a r h.N_PIPELINE) (Kn + 1)
    (fun m a => ∃ p' T' nx', a = { args with p := p', partition := T', next := nx' } ∧
      p'.length = args.p.length ∧ T'.length = args.partition.length ∧
      nx'.length = args.next.length ∧
      (∀ r : Nat, r < min m Kn → ∀ j : Nat, j < cnt (bucket_of h g) SL r →
        p'[below (bucket_of h g) SL r + j]?
          = (by_key voxel (at_key (bucket_of h g) SL r) (range_start h g r)
              (range_start h g (r + 1) - range_start h g r).toNat)[j]?) ∧
      (∀ j : Nat, below (bucket_of h g) SL ((min m Kn : Nat) : Int) ≤ j →
        p'[j]? = args.p[j]?) ∧
      (∀ k : Nat, ((k : Int) < range_start h g (min m Kn) ∨
          ((k : Int) = range_start h g (min m Kn) ∧ 0 < m)) →
        T'[k]? = some ((below voxel SL k : Nat) : Int)))
    0 args
    ⟨args.p, args.partition, args.next, rfl, rfl, rfl, rfl,
      by intro r hr; simp at hr,
      by intro j _; rfl,
      by
        intro k hk
        have h0 := range_start_zero h g (by omega)
        simp only [Nat.zero_min] at hk
        omega⟩ (by
      rintro m a hm ⟨p1, T1, n1, rfl, hlp1, hlT1, hln1, hI1, hI2, hI3⟩
      simp only [zero_add]
      by_cases hmK : m = Kn
      · -- the straggler
        subst hmK
        refine ⟨_, by simp [subsort_pipeline, hN], p1, T1, n1, rfl, hlp1, hlT1, hln1, ?_, ?_, ?_⟩
        · intro r hr; exact hI1 r (by simpa using hr)
        · intro j hj; exact hI2 j (by simpa using hj)
        · intro k hk
          apply hI3 k
          simp only [Nat.min_self] at hk ⊢
          have : min (m + 1) m = m := by omega
          rw [this] at hk
          omega
      · have hmlt : m < Kn := by omega
        have hmin : min m Kn = m := by omega
        have hmin' : min (m + 1) Kn = m + 1 := by omega
        rw [hmin] at hI1 hI2 hI3
        rw [hmin']
        have hs := below_succ (bucket_of h g) SL (m : Int)
        obtain ⟨T2, n2, hrun2, hlT2, hln2, hvT2⟩ := subsort_step_spec h sp g
          { args with p := p1, partition := T1, next := n1 } Kn m SL hN hmlt hvl hvh hnv hpar
          hSL hcp (haux m hmlt) hauxl (by simp only; omega) (by simp only; omega)
          (by simp only; omega)
        simp only at hrun2 hlT2 hln2 hvT2
        have hV1 : range_start h g m ≤ range_start h g (m + 1) :=
          range_start_step h sp g hpar m (by omega)
        have hkeyA : ∀ x ∈ at_key (bucket_of h g) SL m,
            range_start h g m ≤ voxel x ∧ voxel x <
              range_start h g m + ((range_start h g (m + 1) - range_start h g m).toNat : Nat) := by
          intro x hx
          obtain ⟨hxS, hxb⟩ := mem_at_key hx
          obtain ⟨b, hb, _, hb1, hb2⟩ := bucket_range h sp g hpar x (hSL x hxS)
          have : b = m := by omega
          subst this
          simp only [voxel]
          omega
        have hXlen : (by_key voxel (at_key (bucket_of h g) SL m) (range_start h g m)
            (range_start h g (m + 1) - range_start h g m).toNat).length
            = cnt (bucket_of h g) SL m := by
          rw [(by_key_perm_self voxel _ _ _ hkeyA).length_eq, at_key_length]
        have hB1 := hBle (m + 1)
        have hcastm : ((m + 1 : Nat) : Int) = (m : Int) + 1 := by push_cast; rfl
        rw [hcastm] at hB1
        refine ⟨_, hrun2, _, T2, n2, rfl, ?_, by omega, by omega, ?_, ?_, ?_⟩
        · simp only [List.length_append, List.length_take, List.length_drop, hXlen]
          omega
        · intro r hr j hj
          by_cases hrm : r = m
          · subst hrm
            rw [List.getElem?_append_left (by simp [hXlen]; omega),
              List.getElem?_append_right (by rw [List.length_take]; omega)]
            congr 1
            rw [List.length_take]; omega
          · have hrlt : r < m := by omega
            have h1 := below_succ (bucket_of h g) SL (r : Int)
            have h2 : below (bucket_of h g) SL ((r : Int) + 1)
                ≤ below (bucket_of h g) SL (m : Int) := below_mono _ _ (by omega)
            rw [List.append_assoc, List.getElem?_append_left (by simp; omega),
              List.getElem?_take, if_pos (by omega)]
            exact hI1 r hrlt j hj
        · intro j hj
          rw [hcastm] at hj
          rw [List.getElem?_append_right (by simp [hXlen]; omega), List.getElem?_drop]
          have : below (bucket_of h g) SL ((m : Int) + 1) + (j - (List.take
              (below (bucket_of h g) SL (m : Int)) p1 ++ by_key voxel
              (at_key (bucket_of h g) SL m) (range_start h g m)
              (range_start h g (m + 1) - range_start h g m).toNat).length) = j := by
            simp [hXlen]; omega
          rw [this]
          exact hI2 j (by omega)
        · intro k hk
          rw [hvT2 k]
          by_cases hkr : range_start h g m ≤ k ∧ (k : Int) ≤ range_start h g (m + 1)
          · rw [if_pos hkr]
          · rw [if_neg hkr]
            exact hI3 k (by omega))
  have hmin : min (Kn + 1) Kn = Kn := by omega
  rw [hmin] at hI1 hI2 hI3
  refine ⟨p', T', nx', ?_, hlp, hlT, hI1, hI2, ?_⟩
  · rw [← ha']
    simp only [EXEC_PIPELINES, hKt]
    exact hrun
  · intro k hk
    apply hI3 k
    have := range_start_last h g
    rw [hKt'] at this
    omega

/-! ## The slices of the coarse pipelines -/

theorem seg_take_eq {α : Type} (l : List α) (lo n N : Nat) (hN : n = 0 ∨ lo + n ≤ N) :
    seg (l.take N) lo n = seg l lo n := by
  apply List.ext_getElem?
  intro k
  rw [seg_getElem?, seg_getElem?]
  by_cases hk : k < n
  · rw [if_pos hk, if_pos hk, List.getElem?_take, if_pos (by omega)]
  · rw [if_neg hk, if_neg hk]

theorem slices_cat_perm_core (h : spa_private) (sp : species_t) (g : grid_t)
    (hnp0 : 0 ≤ sp.np) (hnpl : sp.np ≤ sp.p.length) (hpar : coarse_pre h sp g) :
    (slices_cat h sp (h.N_PIPELINE.toNat + 1)).Perm (live sp) := by
  have hll : (live sp).length = sp.np.toNat := by
    have := live_length sp hnp0 hnpl
    omega
  have hperm := slices_perm (live sp)
    (fun r => (slice_lo h sp.np r).toNat)
    (fun r => (slice_hi h sp.np r - slice_lo h sp.np r).toNat)
    (h.N_PIPELINE.toNat + 1)
    (by
      intro r r' hrr hr'
      have h1 := hpar.slices_disjoint r' hr' r hrr
      have h2 := hpar.slices_inside r (by omega)
      have h3 := hpar.slices_inside r' hr'
      simp only
      omega)
    (by
      intro j hj
      obtain ⟨r, hr, h1, h2⟩ := hpar.slices_cover j (by omega)
      have h3 := hpar.slices_inside r hr
      exact ⟨r, hr, by simp only; omega, by simp only; omega⟩)
    (live sp).length (le_refl _)
  rw [List.take_length] at hperm
  have heq : (List.range (h.N_PIPELINE.toNat + 1)).map (fun r : Nat =>
      seg (live sp) (slice_lo h sp.np r).toNat (slice_hi h sp.np r - slice_lo h sp.np r).toNat)
      = (List.range (h.N_PIPELINE.toNat + 1)).map (slice h sp) := by
    apply List.map_congr_left
    intro r hr
    rw [List.mem_range] at hr
    have h3 := hpar.slices_inside r hr
    exact seg_take_eq sp.p _ _ _ (by omega)
  beta_reduce at hperm
  rw [heq] at hperm
  exact hperm

theorem slices_cat_perm (h : spa_private) (sp : species_t) (g : grid_t)
    (hnp0 : 0 ≤ sp.np) (hnpl : sp.np ≤ sp.p.length) (hpar : parallel_pre h sp g) :
    (slices_cat h sp (h.N_PIPELINE.toNat + 1)).Perm (live sp) :=
  slices_cat_perm_core h sp g hnp0 hnpl (coarse_of_parallel hpar)

/-! ## The parallel branch of `sort_p` -/

theorem sort_p_parallel_spec (h : spa_private) (junk : junk_t) (sp : species_t) (g : grid_t)
    (hK : 1 < h.N_PIPELINE) (hpre : sort_p_pre h sp g) (hpar : parallel_pre h sp g) :
    ∃ T : List Int,
      sort_p_parallel h (setup_args h junk sp g ((List.range sp.np.toNat).map junk.scratch_p)) sp
        = some { sp with
          p := parallel_sorted h sp g ++ sp.p.drop sp.np.toNat
          partition := some T } ∧
      (T.length : Int) = n_voxel g + 1 ∧
      ∀ k : Nat, (k : Int) ≤ n_voxel g →
        T[k]? = some ((below voxel (live sp) k : Nat) : Int) := by
  obtain ⟨hnp0, hnpl, hnv0, hpl, hfit, hK1, hK2, hK3⟩ := hpre
  obtain ⟨Kn, hN⟩ := Int.eq_ofNat_of_zero_le (by omega : (0 : Int) ≤ h.N_PIPELINE)
  obtain ⟨MPn, hMP⟩ := Int.eq_ofNat_of_zero_le (by omega : (0 : Int) ≤ h.max_subsort)
  obtain ⟨MXn, hMX⟩ := Int.eq_ofNat_of_zero_le (by omega : (0 : Int) ≤ h.MAX_PIPELINE)
  obtain ⟨np, hnp⟩ := Int.eq_ofNat_of_zero_le hnp0
  obtain ⟨nv, hnv⟩ := Int.eq_ofNat_of_zero_le hnv0
  have hKM : Kn ≤ MPn := by omega
  have hKt : h.N_PIPELINE.toNat = Kn := by omega
  -- the slices, one after the other
  have hSLperm := slices_cat_perm h sp g hnp0 hnpl hpar
  rw [hKt] at hSLperm
  have hSL : ∀ x ∈ slices_cat h sp (Kn + 1), x ∈ live sp := fun x hx => hSLperm.subset hx
  have hSLlen : (slices_cat h sp (Kn + 1)).length = np := by
    have := live_length sp hnp0 hnpl
    rw [hSLperm.length_eq]; omega
  have hbk : ∀ x ∈ slices_cat h sp (Kn + 1),
      0 ≤ bucket_of h g x ∧ bucket_of h g x < (Kn : Int) := by
    intro x hx
    have := hpar.buckets x (hSL x hx)
    omega
  have hBK : below (bucket_of h g) (slices_cat h sp (Kn + 1)) (Kn : Int) = np := by
    rw [below_eq_length _ _ _ (fun x hx => (hbk x hx).2), hSLlen]
  -- sizes
  have hcplen : MPn * (Kn + 1) ≤ (h.max_subsort * (h.MAX_PIPELINE + 1)).toNat := by
    have : MPn * (Kn + 1) ≤ MPn * (MXn + 1) := Nat.mul_le_mul_left _ (by omega)
    have e : (h.max_subsort * (h.MAX_PIPELINE + 1)).toNat = MPn * (MXn + 1) := by
      rw [hMP, hMX]
      have : (MPn : Int) * ((MXn : Int) + 1) = ((MPn * (MXn + 1) : Nat) : Int) := by
        push_cast; rfl
      rw [this, Int.toNat_ofNat]
    omega
  obtain ⟨T0, hT0, hT0len⟩ : ∃ T0 : List Int, partition_table junk sp g = T0 ∧
      T0.length = nv + 1 := by
    refine ⟨_, rfl, ?_⟩
    unfold partition_table
    cases hsp : sp.partition with
    | none => simp [hnv]
    | some t => have := hpl t hsp; simp only; omega
  -- coarse count
  obtain ⟨cp1, hrun1, hl1, hv1⟩ := EXEC_coarse_count_spec h sp g
    (setup_args h junk sp g ((List.range sp.np.toNat).map junk.scratch_p)) Kn MPn hN hMP hKM
    rfl rfl hN rfl rfl hnpl hpar (by simpa [setup_args] using hcplen)
  -- coarse partitioning
  obtain ⟨cp2, hrun2, hl2, hv2⟩ := coarse_partition_loop_spec h (bucket_of h g) (slice h sp)
    Kn MPn (Kn + 1) cp1 hMP hKM (by rw [hl1]; simpa [setup_args] using hcplen)
    (fun x hx => (hbk x hx).1) hv1
  -- coarse sort
  obtain ⟨aux', hrun3, hl3, hv3⟩ := EXEC_coarse_sort_spec h sp g
    { setup_args h junk sp g ((List.range sp.np.toNat).map junk.scratch_p) with
      coarse_partition := cp2 } Kn MPn hN hMP hKM rfl rfl hN rfl rfl hnpl hpar
    (by simp only; rw [hl2, hl1]; simpa [setup_args] using hcplen)
    (by simp [setup_args, hSLlen, hnp]) hv2
  -- the sentinel
  have hKlt : Kn < cp2.length := by
    have : MPn * 1 + Kn ≤ MPn * (Kn + 1) := by
      have := idx_lt MPn 0 (Kn + 1) 0 (by omega) (by omega)
      have h2 : MPn * Kn + MPn = MPn * (Kn + 1) := (Nat.mul_succ _ _).symm
      have h3 : Kn * 1 ≤ MPn * Kn := by
        rw [Nat.mul_comm MPn Kn]; exact Nat.mul_le_mul_left _ (by omega)
      omega
    rw [hl2, hl1]
    have := hcplen
    simp only [setup_args, List.length_map, List.length_range]
    omega
  -- fine sorts
  obtain ⟨p', T', nx', hrun4, hlp, hlT, hI1, hI2, hI3⟩ := EXEC_subsort_spec h sp g
    { setup_args h junk sp g ((List.range sp.np.toNat).map junk.scratch_p) with
      coarse_partition := cp2.set Kn (np : Int), aux_p := aux' } Kn
    (slices_cat h sp (Kn + 1)) hN (by omega) rfl rfl rfl hpar hSL
    (by
      intro r hr
      simp only
      rw [List.getElem?_set]
      by_cases hrK : Kn = r
      · subst hrK
        rw [if_pos rfl, if_pos hKlt, hBK]
      · rw [if_neg hrK]
        have := hv2 0 (by omega) r (by omega)
        simp only [Nat.mul_zero, Nat.zero_add, List.range_zero, List.map_nil,
          List.flatten_nil] at this
        rw [this]
        simp [cnt]
        rfl)
    hv3
    (by simp only; rw [hl3]; simp [setup_args, hSLlen, hnp])
    (by simp only [setup_args]; rw [hSLlen]; omega)
    (by simp [setup_args, hnv])
    (by simp only [setup_args, hT0, hT0len]; omega)
  simp only [setup_args] at hlp hlT hI2
  rw [hBK] at hI2
  rw [hT0] at hlT
  -- the final array
  have hXlen : ∀ r : Nat, r < Kn → (fine_sorted h sp g r).length
      = cnt (bucket_of h g) (slices_cat h sp (Kn + 1)) r := by
    intro r hr
    unfold fine_sorted
    rw [hKt]
    have hV1 : range_start h g r ≤ range_start h g (r + 1) :=
      range_start_step h sp g hpar r (by omega)
    rw [(by_key_perm_self voxel _ _ _ (by
      intro x hx
      obtain ⟨hxS, hxb⟩ := mem_at_key hx
      obtain ⟨b, hb, _, hb1, hb2⟩ := bucket_range h sp g hpar x (hSL x hxS)
      have : b = r := by omega
      subst this
      simp only [voxel]
      omega)).length_eq, at_key_length]
  have hcatlen : ∀ m : Nat, m ≤ Kn → (((List.range m).map (fine_sorted h sp g)).flatten).length
      = below (bucket_of h g) (slices_cat h sp (Kn + 1)) m := by
    intro m hm
    exact cat_length_eq (bucket_of h g) _ _ (fun x hx => (hbk x hx).1) m
      (fun r hr => hXlen r (by omega))
  have hpfin : p' = parallel_sorted h sp g ++ sp.p.drop np := by
    apply List.ext_getElem?
    intro j
    have hpl' : (parallel_sorted h sp g).length = np := by
      unfold parallel_sorted
      rw [hKt, hcatlen Kn (le_refl _), hBK]
    by_cases hj : j < np
    · rw [List.getElem?_append_left (by omega)]
      obtain ⟨r, t, hr, ht, hjr⟩ := below_locate (bucket_of h g) (slices_cat h sp (Kn + 1)) 0
        (fun x hx => (hbk x hx).1) Kn j (by rw [zero_add, hBK]; exact hj)
      rw [zero_add] at ht hjr
      have h1 := hI1 r hr t ht
      have h2 := cat_getElem? (fine_sorted h sp g) Kn r t hr (by rw [hXlen r hr]; exact ht)
      rw [hcatlen r (by omega)] at h2
      unfold parallel_sorted
      rw [hKt, hjr, h2, h1]
      unfold fine_sorted
      rw [hKt]
    · rw [List.getElem?_append_right (by omega), hpl', List.getElem?_drop, hI2 j (by omega)]
      congr 1
      omega
  refine ⟨T', ?_, by rw [hlT, hT0len, hnv]; push_cast; rfl, ?_⟩
  · have e1 : h.N_PIPELINE + 1 = ((Kn + 1 : Nat) : Int) := by rw [hN]; push_cast; rfl
    simp only [sort_p_parallel, hrun1, Option.bind_eq_bind, Option.some_bind, e1]
    rw [hN]
    simp only [hrun2, Option.some_bind]
    dsimp only at hrun3 hrun4 ⊢
    rw [hrun3]
    simp only [Option.some_bind]
    rw [hnp, store_natCast _ _ _ hKlt]
    simp only [Option.some_bind]
    rw [hnp] at hrun4
    rw [hrun4]
    simp only [Option.some_bind, hpfin, Int.toNat_ofNat]
    rfl
  · intro k hk
    rw [hI3 k hk]
    have := hSLperm.countP_eq (fun x => decide (voxel x < (k : Int)))
    simp only [below]
    rw [this]

/-! ## Arrays grouped by voxel -/

theorem at_key_eq_nil {key : particle_t → Int} {l : List particle_t} {v : Int}
    (hl : ∀ x ∈ l, key x ≠ v) : at_key key l v = [] := by
  unfold at_key
  rw [List.filter_eq_nil_iff]
  intro x hx
  simpa using hl x hx

theorem at_key_eq_self {key : particle_t → Int} {l : List particle_t} {v : Int}
    (hl : ∀ x ∈ l, key x = v) : at_key key l v = l := by
  unfold at_key
  rw [List.filter_eq_self]
  intro x hx
  simpa using hl x hx

/-- In an array grouped by voxel the run of a voxel holds exactly the records
of that voxel. -/
theorem voxel_run_eq (L P : List particle_t) (T : List Int) (nv : Nat)
    (hkey : ∀ x ∈ L, 0 ≤ x.i ∧ x.i < (nv : Int)) (hs : sorted_by_voxel L P T nv)
    (v : Nat) (hv : v < nv) : voxel_run P T v = at_key voxel P v := by
  have hlo : ∀ x ∈ L, (0 : Int) ≤ voxel x := fun x hx => (hkey x hx).1
  have htot : below voxel L ((0 : Int) + nv) = L.length :=
    below_eq_length voxel _ _ (fun x hx => by have := (hkey x hx).2; simp only [voxel]; omega)
  have hsucc := below_succ voxel L (v : Int)
  have hT0 : T.getD v 0 = ((below voxel L v : Nat) : Int) := by
    rw [List.getD_eq_getElem?_getD, hs.table v (by omega)]; rfl
  have hT1 : T.getD (v + 1) 0 = ((below voxel L ((v : Int) + 1) : Nat) : Int) := by
    rw [List.getD_eq_getElem?_getD, hs.table (v + 1) (by omega)]; push_cast; rfl
  have hrun : voxel_run P T v = seg P (below voxel L v) (cnt voxel L v) := by
    unfold voxel_run
    rw [hT0, hT1]
    congr 1
    omega
  rw [hrun]
  have hlen : P.length = L.length := hs.perm.length_eq
  -- the key found at an index
  have hat : ∀ (i : Nat) (x : particle_t), P[i]? = some x →
      ∃ w : Nat, w < nv ∧ x.i = w ∧ below voxel L w ≤ i ∧ i < below voxel L ((w : Int) + 1) := by
    intro i x hx
    have hi : i < P.length := by
      by_contra hc
      rw [List.getElem?_eq_none (by omega)] at hx
      cases hx
    obtain ⟨w, t, hw, ht, hiw⟩ := below_locate voxel L 0 hlo nv i (by rw [htot]; omega)
    rw [zero_add] at ht hiw
    have hsw := below_succ voxel L (w : Int)
    obtain ⟨y, hy, hyw⟩ := hs.grouped w hw i (by omega) (by omega)
    rw [hx] at hy
    injection hy with hy
    subst hy
    exact ⟨w, hw, hyw, by omega, by omega⟩
  have hsplit : P = P.take (below voxel L v) ++ seg P (below voxel L v) (cnt voxel L v)
      ++ P.drop (below voxel L v + cnt voxel L v) := by
    unfold seg
    rw [List.append_assoc, ← List.drop_drop, List.take_append_drop, List.take_append_drop]
  have h1 : at_key voxel (P.take (below voxel L v)) v = [] := by
    apply at_key_eq_nil
    intro x hx hxv
    obtain ⟨i, hi⟩ := List.mem_iff_getElem?.mp hx
    rw [List.getElem?_take] at hi
    split at hi
    · obtain ⟨w, _, hxw, hw1, hw2⟩ := hat i x hi
      have : w = v := by simp only [voxel] at hxv; omega
      subst this
      omega
    · cases hi
  have h2 : at_key voxel (seg P (below voxel L v) (cnt voxel L v)) v
      = seg P (below voxel L v) (cnt voxel L v) := by
    apply at_key_eq_self
    intro x hx
    obtain ⟨i, hi⟩ := List.mem_iff_getElem?.mp hx
    rw [seg_getElem?] at hi
    split at hi
    · obtain ⟨y, hy, hyv⟩ := hs.grouped v hv (below voxel L v + i) (by omega) (by omega)
      rw [hi] at hy
      injection hy with hy
      subst hy
      exact hyv
    · cases hi
  have h3 : at_key voxel (P.drop (below voxel L v + cnt voxel L v)) v = [] := by
    apply at_key_eq_nil
    intro x hx hxv
    obtain ⟨i, hi⟩ := List.mem_iff_getElem?.mp hx
    rw [List.getElem?_drop] at hi
    obtain ⟨w, _, hxw, hw1, hw2⟩ := hat _ x hi
    have : w = v := by simp only [voxel] at hxv; omega
    subst this
    omega
  conv_rhs => rw [hsplit]
  rw [at_key_append, at_key_append, h1, h2, h3]
  simp

theorem voxel_run_perm (L P : List particle_t) (T : List Int) (nv : Nat)
    (hkey : ∀ x ∈ L, 0 ≤ x.i ∧ x.i < (nv : Int)) (hs : sorted_by_voxel L P T nv)
    (v : Nat) (hv : v < nv) : (voxel_run P T v).Perm (at_key voxel L v) := by
  rw [voxel_run_eq L P T nv hkey hs v hv]
  exact hs.perm.filter _

theorem by_key_sorted (L : List particle_t) (T : List Int) (nv : Nat)
    (hkey : ∀ x ∈ L, 0 ≤ x.i ∧ x.i < (nv : Int)) (hlen : T.length = nv + 1)
    (hT : ∀ k : Nat, k ≤ nv → T[k]? = some ((below voxel L k : Nat) : Int)) :
    sorted_by_voxel L (by_key voxel L 0 nv) T nv := by
  have hlo : ∀ x ∈ L, (0 : Int) ≤ voxel x := fun x hx => (hkey x hx).1
  refine ⟨by_key_perm_self voxel L 0 nv (fun x hx => by
    have := hkey x hx; simp only [voxel]; omega), hlen, hT, ?_⟩
  intro v hv i hi0 hi1
  have hs := below_succ voxel L (v : Int)
  obtain ⟨t, rfl⟩ : ∃ t, i = below voxel L v + t := ⟨i - below voxel L v, by omega⟩
  have ht : t < cnt voxel L ((0 : Int) + v) := by rw [zero_add]; omega
  have hget := by_key_getElem? voxel L 0 hlo nv v t hv ht
  rw [zero_add] at hget ht
  have hlt : t < (at_key voxel L v).length := by rw [at_key_length]; exact ht
  refine ⟨(at_key voxel L v)[t], ?_, (mem_at_key (List.getElem_mem hlt)).2⟩
  rw [hget, List.getElem?_eq_getElem hlt]

theorem range_locate (h : spa_private) (g : grid_t)
    (hK : 1 ≤ h.N_PIPELINE) (v : Int) (hv0 : 0 ≤ v) :
    ∀ m : Nat, v < range_start h g m →
      ∃ r : Nat, r < m ∧ range_start h g r ≤ v ∧ v < range_start h g (r + 1) := by
  intro m
  induction m with
  | zero =>
    intro hv
    rw [range_start_zero h g hK] at hv
    omega
  | succ m ih =>
    intro hv
    by_cases hm : v < range_start h g m
    · obtain ⟨r, hr, h1, h2⟩ := ih hm
      exact ⟨r, by omega, h1, h2⟩
    · exact ⟨m, by omega, by omega, hv⟩

theorem parallel_sorted_spec (h : spa_private) (sp : species_t) (g : grid_t) (T : List Int)
    (nv : Nat) (hK : 1 ≤ h.N_PIPELINE) (hnp0 : 0 ≤ sp.np) (hnpl : sp.np ≤ sp.p.length)
    (hnv : n_voxel g = nv) (hpar : parallel_pre h sp g) (hlen : T.length = nv + 1)
    (hT : ∀ k : Nat, k ≤ nv → T[k]? = some ((below voxel (live sp) k : Nat) : Int)) :
    sorted_by_voxel (live sp) (parallel_sorted h sp g) T nv := by
  obtain ⟨Kn, hN⟩ := Int.eq_ofNat_of_zero_le (by omega : (0 : Int) ≤ h.N_PIPELINE)
  have hKt : h.N_PIPELINE.toNat = Kn := by omega
  have hSLperm := slices_cat_perm h sp g hnp0 hnpl hpar
  rw [hKt] at hSLperm
  have hSL : ∀ x ∈ slices_cat h sp (Kn + 1), x ∈ live sp := fun x hx => hSLperm.subset hx
  have hbk : ∀ x ∈ slices_cat h sp (Kn + 1),
      0 ≤ bucket_of h g x ∧ bucket_of h g x < (Kn : Int) := by
    intro x hx
    have := hpar.buckets x (hSL x hx)
    omega
  have hkeyA : ∀ r : Nat, r < Kn → ∀ x ∈ at_key (bucket_of h g) (slices_cat h sp (Kn + 1)) r,
      range_start h g r ≤ voxel x ∧ voxel x <
        range_start h g r + ((range_start h g (r + 1) - range_start h g r).toNat : Nat) := by
    intro r hr x hx
    have hV1 : range_start h g r ≤ range_start h g (r + 1) :=
      range_start_step h sp g hpar r (by omega)
    obtain ⟨hxS, hxb⟩ := mem_at_key hx
    obtain ⟨b, hb, _, hb1, hb2⟩ := bucket_range h sp g hpar x (hSL x hxS)
    have : b = r := by omega
    subst this
    simp only [voxel]
    omega
  have hXperm : ∀ r : Nat, r < Kn → (fine_sorted h sp g r).Perm
      (at_key (bucket_of h g) (slices_cat h sp (Kn + 1)) r) := by
    intro r hr
    unfold fine_sorted
    rw [hKt]
    exact by_key_perm_self voxel _ _ _ (hkeyA r hr)
  have hXlen : ∀ r : Nat, r < Kn → (fine_sorted h sp g r).length
      = cnt (bucket_of h g) (slices_cat h sp (Kn + 1)) r := by
    intro r hr
    rw [(hXperm r hr).length_eq, at_key_length]
  have hcatlen : ∀ m : Nat, m ≤ Kn → (((List.range m).map (fine_sorted h sp g)).flatten).length
      = below (bucket_of h g) (slices_cat h sp (Kn + 1)) m := by
    intro m hm
    exact cat_length_eq (bucket_of h g) _ _ (fun x hx => (hbk x hx).1) m
      (fun r hr => hXlen r (by omega))
  refine ⟨?_, hlen, hT, ?_⟩
  · -- the same records
    unfold parallel_sorted
    rw [hKt]
    have h1 := cat_perm (fine_sorted h sp g)
      (fun k : Nat => at_key (bucket_of h g) (slices_cat h sp (Kn + 1)) k) Kn hXperm
    rw [← by_key_eq_cat] at h1
    have h2 := by_key_perm_self (bucket_of h g) (slices_cat h sp (Kn + 1)) 0 Kn
      (fun x hx => by have := hbk x hx; omega)
    exact (h1.trans h2).trans hSLperm
  · -- grouped by voxel
    intro v hv i hi0 hi1
    have hVK : range_start h g Kn = nv := by
      rw [← hKt, range_start_last, hnv]
    obtain ⟨r, hr, hr1, hr2⟩ := range_locate h g hK (v : Int) (by omega) Kn (by omega)
    have hsplit : ∀ k : Int, range_start h g r ≤ k → k ≤ range_start h g (r + 1) →
        below voxel (live sp) k = below (bucket_of h g) (slices_cat h sp (Kn + 1)) r
          + below voxel (at_key (bucket_of h g) (slices_cat h sp (Kn + 1)) r) k := by
      intro k hk1 hk2
      have hp := hSLperm.countP_eq (fun x => decide (voxel x < k))
      have hb : below voxel (live sp) k = below voxel (slices_cat h sp (Kn + 1)) k := by
        simp only [below]; rw [hp]
      rw [hb]
      apply below_split
      · intro x hx hlt
        obtain ⟨b, hb, hbl, _, hb2⟩ := bucket_range h sp g hpar x (hSL x hx)
        have hmono := range_start_mono h sp g hpar r (b + 1) (by omega) (by omega)
        simp only [voxel]
        omega
      · intro x hx hgt
        obtain ⟨b, hb, hbl, hb1, _⟩ := bucket_range h sp g hpar x (hSL x hx)
        have hmono := range_start_mono h sp g hpar b (r + 1) (by omega) (by omega)
        simp only [voxel]
        omega
    have hs0 := hsplit (v : Int) hr1 (by omega)
    have hs1 := hsplit ((v : Int) + 1) (by omega) (by omega)
    have hsA := below_succ voxel (at_key (bucket_of h g) (slices_cat h sp (Kn + 1)) r) (v : Int)
    have hAle : below voxel (at_key (bucket_of h g) (slices_cat h sp (Kn + 1)) r) ((v : Int) + 1)
        ≤ (at_key (bucket_of h g) (slices_cat h sp (Kn + 1)) r).length := below_le_length _ _ _
    rw [at_key_length] at hAle
    obtain ⟨t, rfl⟩ : ∃ t, i = below voxel (live sp) v + t :=
      ⟨i - below voxel (live sp) v, by omega⟩
    have ht : t < cnt voxel (at_key (bucket_of h g) (slices_cat h sp (Kn + 1)) r) (v : Int) := by
      omega
    -- position within bucket `r`
    have hcat := cat_getElem? (fine_sorted h sp g) Kn r
      (below voxel (at_key (bucket_of h g) (slices_cat h sp (Kn + 1)) r) (v : Int) + t) hr
      (by rw [hXlen r hr]; omega)
    rw [hcatlen r (by omega)] at hcat
    obtain ⟨k, hk⟩ := Int.eq_ofNat_of_zero_le (by omega : (0 : Int) ≤ (v : Int) - range_start h g r)
    have hvk : (v : Int) = range_start h g r + k := by omega
    have hget := by_key_getElem? voxel (at_key (bucket_of h g) (slices_cat h sp (Kn + 1)) r)
      (range_start h g r) (fun x hx => (hkeyA r hr x hx).1)
      (range_start h g (r + 1) - range_start h g r).toNat k t (by omega) (by rw [← hvk]; exact ht)
    rw [← hvk] at hget
    have hlt : t < (at_key voxel (at_key (bucket_of h g) (slices_cat h sp (Kn + 1)) r)
        (v : Int)).length := by rw [at_key_length]; exact ht
    refine ⟨(at_key voxel (at_key (bucket_of h g) (slices_cat h sp (Kn + 1)) r) (v : Int))[t], ?_,
      (mem_at_key (List.getElem_mem hlt)).2⟩
    unfold parallel_sorted
    rw [hKt, hs0, Nat.add_assoc, hcat]
    unfold fine_sorted
    rw [hKt, hget, List.getElem?_eq_getElem hlt]

/-! ## The outcome of `sort_p` -/

theorem sort_p_spec (h : spa_private) (junk : junk_t) (st : sort_p_static) (sp : species_t)
    (g : grid_t) (hint : int_defined h sp g) (hpre : sort_p_pre h sp g)
    (hvox : ∀ x ∈ live sp, 0 ≤ x.i ∧ x.i < n_voxel g)
    (hpipe : 1 < h.N_PIPELINE → parallel_pre h sp g) :
    ∃ (P : List particle_t) (T : List Int), sort_p h junk st sp g = some
        (ensure_scratch h st sp.np (n_voxel g),
         { sp with p := P ++ sp.p.drop sp.np.toNat, partition := some T }) ∧
      sorted_by_voxel (live sp) P T (n_voxel g).toNat := by
  obtain ⟨nv, hnv⟩ := Int.eq_ofNat_of_zero_le hpre.n_voxel_nonneg
  have hkey : ∀ x ∈ live sp, 0 ≤ x.i ∧ x.i < (nv : Int) := by
    intro x hx; have := hvox x hx; omega
  have hsz := sz_scratch_eq h sp.np (n_voxel g) hpre.np_nonneg hpre.n_voxel_nonneg
    hpre.scratch_fits
  have hmx := ensure_scratch_max h st sp.np (n_voxel g)
  have hfit : h.sizeof_particle * sp.np.toNat + h.sizeof_int * (n_voxel g).toNat
      ≤ (ensure_scratch h st sp.np (n_voxel g)).max_scratch := by
    rw [hmx, hsz]; omega
  by_cases hK : 1 < h.N_PIPELINE
  · obtain ⟨T, hT, hlen, hval⟩ := sort_p_parallel_spec h junk sp g hK hpre (hpipe hK)
    refine ⟨parallel_sorted h sp g, T, ?_, ?_⟩
    · have hK' : h.N_PIPELINE > 1 := hK
      simp only [sort_p, if_pos hint, if_pos hfit, if_pos hK', hT, Option.map_some']
    · rw [hnv, Int.toNat_ofNat]
      exact parallel_sorted_spec h sp g T nv hpre.pipelines.1 hpre.np_nonneg hpre.np_le hnv
        (hpipe hK) (by omega) (fun k hk => hval k (by omega))
  · have hN : h.N_PIPELINE = 1 := by have := hpre.pipelines.1; omega
    obtain ⟨T, hT, hlen, hval⟩ := sort_p_serial_spec h junk sp g hN hpre hvox
    refine ⟨by_key voxel (live sp) 0 (n_voxel g).toNat, T, ?_, ?_⟩
    · have hK' : ¬ (h.N_PIPELINE > 1) := hK
      simp only [sort_p, if_pos hint, if_pos hfit, if_neg hK', hT, Option.map_some']
    · rw [hnv, Int.toNat_ofNat]
      exact by_key_sorted (live sp) T nv hkey (by omega) (fun k hk => hval k (by omega))

/-- The result of a sort meets the preconditions of the next sort. -/
theorem sort_p_pre_next (h : spa_private) (sp : species_t) (g : grid_t) (P : List particle_t)
    (T : List Int) (hpre : sort_p_pre h sp g) (hP : P.length = sp.np.toNat)
    (hT : T.length = (n_voxel g).toNat + 1) :
    sort_p_pre h { sp with p := P ++ sp.p.drop sp.np.toNat, partition := some T } g := by
  obtain ⟨h1, h2, h3, h4, h5, h6⟩ := hpre
  refine ⟨h1, ?_, h3, ?_, h5, h6⟩
  · simp only [List.length_append, List.length_drop, hP]
    omega
  · intro t ht
    simp only [Option.some.injEq] at ht
    subst ht
    omega

theorem live_next (sp : species_t) (P : List particle_t) (T : List Int)
    (hP : P.length = sp.np.toNat) :
    live { sp with p := P ++ sp.p.drop sp.np.toNat, partition := some T } = P := by
  simp only [live]
  rw [List.take_append_of_le_length (by omega), List.take_of_length_le (by omega)]

theorem parallel_pre_next (h : spa_private) (sp sp' : species_t) (g : grid_t)
    (hnp : sp'.np = sp.np) (hperm : (live sp').Perm (live sp)) (hpar : parallel_pre h sp g) :
    parallel_pre h sp' g := by
  obtain ⟨h1, h2, h3, h4, h5⟩ := hpar
  refine ⟨fun x hx => h1 x (hperm.subset hx), h2, ?_, ?_, ?_⟩
  · rw [hnp]; exact h3
  · rw [hnp]; exact h4
  · rw [hnp]; exact h5

/-! ## Facts about the concrete inputs -/

theorem sort_p_pre_one_demo : sort_p_pre env_one species_demo grid_five :=
  ⟨by decide, by decide, by decide, (fun t ht => by cases ht), by decide, by decide⟩

theorem sort_p_pre_two_demo : sort_p_pre env_two species_demo grid_five :=
  ⟨by decide, by decide, by decide, (fun t ht => by cases ht), by decide, by decide⟩

theorem voxels_demo : ∀ x ∈ live species_demo, 0 ≤ x.i ∧ x.i < n_voxel grid_five := by
  decide

theorem parallel_pre_two_demo : parallel_pre env_two species_demo grid_five :=
  ⟨by decide, by decide, by decide, by decide, by decide⟩

theorem sort_p_pre_two_empty : sort_p_pre env_two species_empty grid_ten :=
  ⟨by decide, by decide, by decide, (fun t ht => by cases ht), by decide, by decide⟩

theorem parallel_pre_two_empty : parallel_pre env_two species_empty grid_ten :=
  ⟨by decide, by decide, by decide, by decide, by decide⟩

/-! ## Comparing two outcomes -/

theorem voxel_run_append (P rest : List particle_t) (T : List Int) (L : List particle_t)
    (nv : Nat) (hs : sorted_by_voxel L P T nv) (v : Nat) (hv : v < nv) :
    voxel_run (P ++ rest) T v = voxel_run P T v := by
  have hT0 : T.getD v 0 = ((below voxel L v : Nat) : Int) := by
    rw [List.getD_eq_getElem?_getD, hs.table v (by omega)]; rfl
  have hT1 : T.getD (v + 1) 0 = ((below voxel L ((v : Int) + 1) : Nat) : Int) := by
    rw [List.getD_eq_getElem?_getD, hs.table (v + 1) (by omega)]; push_cast; rfl
  have hle : below voxel L ((v : Int) + 1) ≤ L.length := below_le_length _ _ _
  have hmono : below voxel L (v : Int) ≤ below voxel L ((v : Int) + 1) :=
    below_mono voxel L (by omega)
  have hlen : P.length = L.length := hs.perm.length_eq
  unfold voxel_run
  rw [hT0, hT1]
  apply List.ext_getElem?
  intro k
  rw [seg_getElem?, seg_getElem?]
  split
  · rw [List.getElem?_append_left (by omega)]
  · rfl

theorem table_unique (T T' : List Int) (nv : Nat) (f : Nat → Int) (hl : T.length = nv + 1)
    (hl' : T'.length = nv + 1) (hT : ∀ k : Nat, k ≤ nv → T[k]? = some (f k))
    (hT' : ∀ k : Nat, k ≤ nv → T'[k]? = some (f k)) : T = T' := by
  apply List.ext_getElem?
  intro k
  by_cases hk : k ≤ nv
  · rw [hT k hk, hT' k hk]
  · rw [List.getElem?_eq_none (by omega), List.getElem?_eq_none (by omega)]

theorem sort_p_pre_serial (h : spa_private) (sp : species_t) (g : grid_t)
    (hpre : sort_p_pre h sp g) : sort_p_pre (serial h) sp g := by
  obtain ⟨h1, h2, h3, h4, h5, h6⟩ := hpre
  exact ⟨h1, h2, h3, h4, h5, by simp only [serial]; omega⟩

theorem sorted_length (L P : List particle_t) (T : List Int) (nv : Nat)
    (hs : sorted_by_voxel L P T nv) : P.length = L.length := hs.perm.length_eq

theorem live_length_nat (sp : species_t) (hpre0 : 0 ≤ sp.np) (hpre1 : sp.np ≤ sp.p.length) :
    (live sp).length = sp.np.toNat := by
  have := live_length sp hpre0 hpre1
  omega

theorem calls_demo_ok :
    ∀ c ∈ [(junk_demo, species_demo, grid_five), (junk_demo, species_empty, grid_ten),
      (junk_demo, species_demo, grid_five)], call_ok env_two c := by
  intro c hc
  simp only [List.mem_cons, List.mem_singleton, List.not_mem_nil, or_false] at hc
  rcases hc with rfl | rfl | rfl
  · exact ⟨by decide, sort_p_pre_two_demo, voxels_demo, fun _ => parallel_pre_two_demo⟩
  · exact ⟨by decide, sort_p_pre_two_empty, by decide, fun _ => parallel_pre_two_empty⟩
  · exact ⟨by decide, sort_p_pre_two_demo, voxels_demo, fun _ => parallel_pre_two_demo⟩

theorem ensure_scratch_keep (h : spa_private) (st : sort_p_static) (np nv : Int)
    (hle : sz_scratch h np nv ≤ st.max_scratch) : ensure_scratch h st np nv = st := by
  unfold ensure_scratch
  simp only
  rw [if_neg (by omega)]

/-! ## Stability and sorted inputs -/

theorem at_key_getElem?_cnt (key : particle_t → Int) (L : List particle_t) (i : Nat)
    (x : particle_t) (hx : L[i]? = some x) :
    (at_key key L (key x))[cnt key (L.take i) (key x)]? = some x := by
  have hi : i < L.length := by
    by_contra hc
    rw [List.getElem?_eq_none (by omega)] at hx
    cases hx
  have hsplit : L = L.take i ++ x :: L.drop (i + 1) := by
    have h1 := take_succ_of_getElem? hx
    have h2 := List.take_append_drop (i + 1) L
    rw [h1] at h2
    simpa using h2.symm
  have h3 : at_key key L (key x)
      = at_key key (L.take i) (key x) ++ x :: at_key key (L.drop (i + 1)) (key x) := by
    conv_lhs => rw [hsplit]
    rw [at_key_append]
    simp [at_key, List.filter_cons]
  rw [h3, List.getElem?_append_right (by rw [at_key_length]), at_key_length]
  simp

theorem cnt_take_lt (key : particle_t → Int) (L : List particle_t) (i j : Nat)
    (x : particle_t) (hx : L[i]? = some x) (hij : i < j) :
    cnt key (L.take i) (key x) < cnt key (L.take j) (key x) := by
  have h1 := take_succ_of_getElem? hx
  have h2 : cnt key (L.take (i + 1)) (key x) = cnt key (L.take i) (key x) + 1 := by
    rw [h1, cnt_append_singleton, if_pos rfl]
  have h3 : cnt key (L.take (i + 1)) (key x) ≤ cnt key (L.take j) (key x) := by
    have : (L.take j).take (i + 1) = L.take (i + 1) := by
      rw [List.take_take]
      congr 1
      omega
    rw [← this]
    exact cnt_take_le key _ _ _
  omega

theorem filter_append_of_sorted (key : particle_t → Int) (L : List particle_t) (a b : Int)
    (hab : a ≤ b) (hs : L.Pairwise (fun x y => key x ≤ key y)) :
    L.filter (fun x => decide (a ≤ key x ∧ key x < b)) ++ at_key key L b
      = L.filter (fun x => decide (a ≤ key x ∧ key x < b + 1)) := by
  induction L with
  | nil => rfl
  | cons x xs ih =>
    rw [List.pairwise_cons] at hs
    have ih' := ih hs.2
    unfold at_key at ih' ⊢
    by_cases h1 : a ≤ key x ∧ key x < b
    · have h2 : a ≤ key x ∧ key x < b + 1 := by omega
      have h3 : ¬ key x = b := by omega
      rw [List.filter_cons_of_pos (by simpa using h1), List.filter_cons_of_neg (by simpa using h3),
        List.filter_cons_of_pos (by simpa using h2), List.cons_append, ih']
    · by_cases h3 : key x = b
      · have h2 : a ≤ key x ∧ key x < b + 1 := by omega
        have hnil : xs.filter (fun y => decide (a ≤ key y ∧ key y < b)) = [] := by
          rw [List.filter_eq_nil_iff]
          intro y hy
          have := hs.1 y hy
          simp only [decide_eq_true_eq]
          omega
        rw [hnil] at ih'
        rw [List.filter_cons_of_neg (by simpa using h1), List.filter_cons_of_pos (by simpa using h3),
          List.filter_cons_of_pos (by simpa using h2), hnil, List.nil_append]
        rw [List.nil_append] at ih'
        rw [ih']
      · have h2 : ¬ (a ≤ key x ∧ key x < b + 1) := by omega
        rw [List.filter_cons_of_neg (by simpa using h1), List.filter_cons_of_neg (by simpa using h3),
          List.filter_cons_of_neg (by simpa using h2), ih']

theorem by_key_eq_filter (key : particle_t → Int) (L : List particle_t) (v0 : Int)
    (hs : L.Pairwise (fun x y => key x ≤ key y)) (m : Nat) :
    by_key key L v0 m
      = L.filter (fun x => decide (v0 ≤ key x ∧ key x < v0 + (m : Int))) := by
  induction m with
  | zero =>
    have h0 : by_key key L v0 0 = [] := by simp [by_key]
    rw [h0]
    symm
    rw [List.filter_eq_nil_iff]
    intro y _
    simp only [decide_eq_true_eq]
    omega
  | succ m ih =>
    rw [by_key_succ, ih]
    have := filter_append_of_sorted key L v0 (v0 + (m : Int)) (by omega) hs
    rw [this]
    congr 1
    funext x
    congr 1
    apply propext
    constructor <;> intro hh <;> omega

theorem by_key_of_sorted (key : particle_t → Int) (L : List particle_t) (m : Nat)
    (hs : L.Pairwise (fun x y => key x ≤ key y))
    (hk : ∀ x ∈ L, 0 ≤ key x ∧ key x < (m : Int)) :
    by_key key L 0 m = L := by
  rw [by_key_eq_filter key L 0 hs m, List.filter_eq_self]
  intro x hx
  have := hk x hx
  simp only [decide_eq_true_eq]
  omega

theorem mem_by_key (key : particle_t → Int) (L : List particle_t) (v0 : Int) (m : Nat)
    (x : particle_t) (hx : x ∈ by_key key L v0 m) :
    x ∈ L ∧ v0 ≤ key x ∧ key x < v0 + (m : Int) := by
  unfold by_key at hx
  rw [List.mem_flatMap] at hx
  obtain ⟨k, hk, hxk⟩ := hx
  rw [List.mem_range] at hk
  have := mem_at_key hxk
  refine ⟨this.1, ?_, ?_⟩ <;> omega

theorem by_key_pairwise (key : particle_t → Int) (L : List particle_t) (v0 : Int) (m : Nat) :
    (by_key key L v0 m).Pairwise (fun x y => key x ≤ key y) := by
  induction m with
  | zero => simp [by_key]
  | succ m ih =>
    rw [by_key_succ, List.pairwise_append]
    refine ⟨ih, ?_, ?_⟩
    · unfold at_key
      rw [List.pairwise_iff_forall_sublist]
      intro a b hab
      have ha : a ∈ L.filter (fun x => decide (key x = v0 + (m : Int))) :=
        hab.subset (by simp)
      have hb : b ∈ L.filter (fun x => decide (key x = v0 + (m : Int))) :=
        hab.subset (by simp)
      rw [List.mem_filter] at ha hb
      have h1 := ha.2
      have h2 := hb.2
      simp only [decide_eq_true_eq] at h1 h2
      omega
    · intro a ha b hb
      have h1 := mem_by_key key L v0 m a ha
      have h2 := mem_at_key hb
      omega

theorem by_key_landing (key : particle_t → Int) (L : List particle_t) (m i : Nat)
    (x : particle_t) (hk : ∀ y ∈ L, 0 ≤ key y ∧ key y < (m : Int)) (hx : L[i]? = some x) :
    (by_key key L 0 m)[below key L (key x) + cnt key (L.take i) (key x)]? = some x := by
  have hmem : x ∈ L := by
    obtain ⟨hlt, he⟩ := List.getElem?_eq_some_iff.mp hx
    exact he ▸ List.getElem_mem hlt
  obtain ⟨h0, h1⟩ := hk x hmem
  obtain ⟨v, hv⟩ := Int.eq_ofNat_of_zero_le h0
  have hstep : cnt key (L.take i) (key x) < cnt key (L.take (i + 1)) (key x) :=
    cnt_take_lt key L i (i + 1) x hx (by omega)
  have hle := cnt_take_le key L (i + 1) (key x)
  have := by_key_getElem? key L 0 (fun y hy => (hk y hy).1) m v (cnt key (L.take i) (key x))
    (by omega) (by rw [zero_add, ← hv]; omega)
  rw [zero_add, ← hv] at this
  rw [this]
  exact at_key_getElem?_cnt key L i x hx

theorem live_getElem? (sp : species_t) (i : Nat) (hi : (i : Int) < sp.np) :
    (live sp)[i]? = sp.p[i]? := by
  unfold live
  rw [List.getElem?_take_of_lt (by omega)]

theorem live_take (sp : species_t) (i : Nat) (hi : (i : Int) < sp.np) :
    (live sp).take i = sp.p.take i := by
  unfold live
  rw [List.take_take]
  congr 1
  omega

theorem sort_p_pre_one_sorted : sort_p_pre env_one species_sorted grid_five :=
  ⟨by decide, by decide, by decide, (fun t ht => by cases ht), by decide, by decide⟩

theorem voxels_sorted : ∀ x ∈ live species_sorted, 0 ≤ x.i ∧ x.i < n_voxel grid_five := by
  decide

theorem species_sorted_ordered : ∀ (i j : Nat) (x y : particle_t), i < j →
    (j : Int) < species_sorted.np → species_sorted.p[i]? = some x →
    species_sorted.p[j]? = some y → x.i ≤ y.i := by
  intro i j x y hij hj hx hy
  have hj4 : j < 4 := by
    have : species_sorted.np = 4 := rfl
    omega
  interval_cases j <;> interval_cases i <;>
    simp only [species_sorted, List.getElem?_cons_zero, List.getElem?_cons_succ,
      Option.some.injEq] at hx hy <;> subst hx <;> subst hy <;> decide

/-! ## Voxel ranges of the subsort pipelines -/

/-- The voxel range that `subsort_pipeline` works on is `[subsort_v0, subsort_v1)`. -/
theorem subsort_pipeline_range (h : spa_private) (args : sort_p_pipeline_args_t)
    (pipeline_rank n_pipeline : Int) :
    subsort_pipeline h args pipeline_rank n_pipeline =
      (if pipeline_rank = n_pipeline then some args else do
        let i0 ← load args.coarse_partition pipeline_rank
        let i1 ← load args.coarse_partition (pipeline_rank + 1)
        let v0 := subsort_v0 h args pipeline_rank n_pipeline
        let v1 := subsort_v1 h args pipeline_rank n_pipeline
        let next ← CLEAR args.next v0 (v1 - v0)
        let next ← for_range (subsort_count_body args.aux_p) i0 i1 next
        let s ← for_range subsort_prefix_body v0 v1 (next, args.partition, i0)
        let partition ← store s.2.1 v1 s.2.2
        let t ← for_range (subsort_scatter_body args.aux_p) i0 i1 (s.1, args.p)
        pure { args with p := t.2, partition := partition, next := t.1 }) := rfl

theorem mono_of_step (B : Nat → Int) (n : Nat) (hstep : ∀ r : Nat, r < n → B r ≤ B (r + 1)) :
    ∀ b a : Nat, a ≤ b → b ≤ n → B a ≤ B b := by
  intro b
  induction b with
  | zero =>
    intro a ha _
    have : a = 0 := by omega
    subst this; exact le_refl _
  | succ b ih =>
    intro a ha hb
    by_cases he : a = b + 1
    · subst he; exact le_refl _
    · exact le_trans (ih a (by omega) (by omega)) (hstep b (by omega))

theorem tile_locate (B : Nat → Int) (n : Nat) (hstep : ∀ r : Nat, r < n → B r ≤ B (r + 1))
    (v : Int) (h0 : B 0 ≤ v) (h1 : v < B n) :
    ∃ r : Nat, (r < n ∧ B r ≤ v ∧ v < B (r + 1)) ∧
      ∀ r' : Nat, r' < n → B r' ≤ v → v < B (r' + 1) → r' = r := by
  have hex : ∀ m : Nat, m ≤ n → v < B m → ∃ r : Nat, r < m ∧ B r ≤ v ∧ v < B (r + 1) := by
    intro m
    induction m with
    | zero => intro _ hv; omega
    | succ m ih =>
      intro hm hv
      by_cases hlt : v < B m
      · obtain ⟨r, hr, h2, h3⟩ := ih (by omega) hlt
        exact ⟨r, by omega, h2, h3⟩
      · exact ⟨m, by omega, by omega, hv⟩
  obtain ⟨r, hr, h2, h3⟩ := hex n (le_refl _) h1
  refine ⟨r, ⟨hr, h2, h3⟩, ?_⟩
  intro r' hr' h2' h3'
  by_contra hne
  rcases Nat.lt_or_gt_of_ne hne with hlt | hgt
  · have := mono_of_step B n hstep r (r' + 1) (by omega) (by omega)
    omega
  · have := mono_of_step B n hstep r' (r + 1) (by omega) (by omega)
    omega

/-! ## Growth of the scratch buffer -/

theorem ensure_scratch_eq (h : spa_private) (st : sort_p_static) (np nv : Int) :
    ensure_scratch h st np nv = { max_scratch := max st.max_scratch (sz_scratch h np nv) } := by
  have := ensure_scratch_max h st np nv
  cases hs : ensure_scratch h st np nv with
  | mk m =>
    rw [hs] at this
    simp only at this
    rw [this]

/-! ## The coarse partitioning of an arbitrary histogram -/

theorem lex_sum_zero (C : Nat → Nat → Int) (K m : Nat) : lex_sum C K m 0 0 = 0 := by
  unfold lex_sum
  apply Finset.sum_eq_zero
  intro x hx
  rw [Finset.mem_filter] at hx
  omega

theorem lex_sum_next (C : Nat → Nat → Int) (K m q : Nat) :
    lex_sum C K m (q + 1) 0 = lex_sum C K m q m := by
  unfold lex_sum
  apply Finset.sum_congr _ (fun _ _ => rfl)
  apply Finset.filter_congr
  intro x hx
  rw [Finset.mem_product, Finset.mem_range, Finset.mem_range] at hx
  omega

theorem lex_sum_total (C : Nat → Nat → Int) (K m : Nat) :
    lex_sum C K m K 0 = total_count C K m := by
  unfold lex_sum total_count
  apply Finset.sum_congr _ (fun _ _ => rfl)
  apply Finset.filter_true_of_mem
  intro x hx
  rw [Finset.mem_product, Finset.mem_range, Finset.mem_range] at hx
  omega

theorem lex_sum_succ (C : Nat → Nat → Int) (K m q p : Nat) (hq : q < K) (hp : p < m) :
    lex_sum C K m q (p + 1) = lex_sum C K m q p + C q p := by
  unfold lex_sum
  have hset : (Finset.range K ×ˢ Finset.range m).filter
      (fun x => x.1 < q ∨ (x.1 = q ∧ x.2 < p + 1))
      = insert (q, p) ((Finset.range K ×ˢ Finset.range m).filter
        (fun x => x.1 < q ∨ (x.1 = q ∧ x.2 < p))) := by
    ext x
    simp only [Finset.mem_filter, Finset.mem_product, Finset.mem_range, Finset.mem_insert,
      Prod.ext_iff]
    omega
  rw [hset, Finset.sum_insert (by
    simp only [Finset.mem_filter, Finset.mem_product, Finset.mem_range]
    omega)]
  ring

theorem coarse_partition_inner_lex (h : spa_private) (C : Nat → Nat → Int)
    (Kn MPn m : Nat) (q : Nat) (cp0 cp : List Int)
    (hMP : h.max_subsort = MPn) (hKM : Kn ≤ MPn) (hq : q < Kn) (hlen : MPn * m ≤ cp.length)
    (hin : ∀ r : Nat, r < m → ∀ q' : Nat, q' < Kn → cp[MPn * r + q']? =
      if q' < q then some (lex_sum C Kn m q' r) else some (C q' r))
    (hout : ∀ j : Nat, (∀ r : Nat, r < m → ∀ q' : Nat, q' < Kn → j ≠ MPn * r + q') →
      cp[j]? = cp0[j]?) :
    ∃ cp', for_loop (fun p s => coarse_partition_body h q p s) m 0 (cp, lex_sum C Kn m q 0)
        = some (cp', lex_sum C Kn m (q + 1) 0) ∧
      cp'.length = cp.length ∧
      (∀ r : Nat, r < m → ∀ q' : Nat, q' < Kn → cp'[MPn * r + q']? =
        if q' < q + 1 then some (lex_sum C Kn m q' r) else some (C q' r)) ∧
      (∀ j : Nat, (∀ r : Nat, r < m → ∀ q' : Nat, q' < Kn → j ≠ MPn * r + q') →
        cp'[j]? = cp0[j]?) := by
  obtain ⟨⟨c, sum⟩, hrun, hsum, hl, hv, ho⟩ := for_loop_inv
    (fun p s => coarse_partition_body h q p s) m
    (fun k s => s.2 = lex_sum C Kn m q k ∧ s.1.length = cp.length ∧
      (∀ r : Nat, r < m → ∀ q' : Nat, q' < Kn → s.1[MPn * r + q']? =
        if q' < q ∨ (q' = q ∧ r < k) then some (lex_sum C Kn m q' r) else some (C q' r)) ∧
      (∀ j : Nat, (∀ r : Nat, r < m → ∀ q' : Nat, q' < Kn → j ≠ MPn * r + q') →
        s.1[j]? = cp0[j]?))
    0 (cp, lex_sum C Kn m q 0)
    ⟨rfl, rfl, by
      intro r hr q' hq'
      simp only
      rw [hin r hr q' hq']
      by_cases hlt : q' < q
      · rw [if_pos hlt, if_pos (Or.inl hlt)]
      · rw [if_neg hlt, if_neg (by omega)], hout⟩ (by
      rintro k ⟨c, sum⟩ hk ⟨hsum, hl, hv, ho⟩
      simp only at hsum hl hv ho
      have hidx : MPn * k + q < cp.length := by
        have := idx_lt MPn k m q (by omega) hk
        omega
      have hcast : (q : Int) + h.max_subsort * ((0 : Int) + (k : Int))
          = ((MPn * k + q : Nat) : Int) := by rw [hMP]; push_cast; ring
      have hld : load c ((q : Int) + h.max_subsort * ((0 : Int) + (k : Int)))
          = some (C q k) := by
        rw [hcast, load_natCast, hv k hk q hq, if_neg (by omega)]
      refine ⟨(c.set (MPn * k + q) sum, sum + C q k), ?_, ?_, by simpa using hl, ?_, ?_⟩
      · simp only [coarse_partition_body, hld, Option.bind_eq_bind, Option.some_bind]
        rw [hcast, store_natCast _ _ _ (by omega)]
        rfl
      · simp only
        rw [hsum, lex_sum_succ C Kn m q k hq hk]
      · intro r hr q' hq'
        simp only
        rw [List.getElem?_set]
        by_cases he : MPn * k + q = MPn * r + q'
        · obtain ⟨hkr, hqq⟩ := idx_inj MPn k r q q' (by omega) (by omega) he
          subst hkr; subst hqq
          rw [if_pos he, if_pos (by omega), if_pos (Or.inr ⟨rfl, by omega⟩), hsum]
        · rw [if_neg he, hv r hr q' hq']
          by_cases hc : q' < q ∨ (q' = q ∧ r < k)
          · rw [if_pos hc, if_pos (by omega)]
          · have hc' : ¬ (q' < q ∨ (q' = q ∧ r < k + 1)) := by
              intro hcon
              rcases hcon with h1 | ⟨h1, h2⟩
              · exact hc (Or.inl h1)
              · by_cases hrk : r = k
                · subst hrk; subst h1; exact he rfl
                · exact hc (Or.inr ⟨h1, by omega⟩)
            rw [if_neg hc, if_neg hc']
      · intro j hj
        simp only
        rw [List.getElem?_set, if_neg (fun he => hj k hk q hq he.symm)]
        exact ho j hj)
  simp only at hsum hl hv ho
  refine ⟨c, ?_, hl, ?_, ho⟩
  · rw [hrun, hsum, lex_sum_next]
  · intro r hr q' hq'
    rw [hv r hr q' hq']
    by_cases hc : q' < q + 1
    · rw [if_pos hc, if_pos (by omega)]
    · rw [if_neg hc, if_neg (by omega)]

theorem coarse_partition_loop_lex (h : spa_private) (C : Nat → Nat → Int)
    (Kn MPn m : Nat) (cp : List Int)
    (hMP : h.max_subsort = MPn) (hKM : Kn ≤ MPn) (hlen : MPn * m ≤ cp.length)
    (hin : ∀ r : Nat, r < m → ∀ q : Nat, q < Kn → cp[MPn * r + q]? = some (C q r)) :
    ∃ cp', coarse_partition_loop h Kn m cp = some (cp', total_count C Kn m) ∧
      cp'.length = cp.length ∧
      (∀ r : Nat, r < m → ∀ q : Nat, q < Kn →
        cp'[MPn * r + q]? = some (lex_sum C Kn m q r)) ∧
      (∀ j : Nat, (∀ r : Nat, r < m → ∀ q : Nat, q < Kn → j ≠ MPn * r + q) →
        cp'[j]? = cp[j]?) := by
  obtain ⟨⟨c, sum⟩, hrun, hsum, hl, hv, ho⟩ := for_loop_inv
    (fun q s => for_range (fun p s => coarse_partition_body h q p s) 0 (m : Int) s) Kn
    (fun k s => s.2 = lex_sum C Kn m k 0 ∧ s.1.length = cp.length ∧
      (∀ r : Nat, r < m → ∀ q' : Nat, q' < Kn → s.1[MPn * r + q']? =
        if q' < k then some (lex_sum C Kn m q' r) else some (C q' r)) ∧
      (∀ j : Nat, (∀ r : Nat, r < m → ∀ q' : Nat, q' < Kn → j ≠ MPn * r + q') →
        s.1[j]? = cp[j]?))
    0 (cp, 0)
    ⟨(lex_sum_zero C Kn m).symm, rfl, by
      intro r hr q' hq'
      simp only
      rw [hin r hr q' hq', if_neg (by omega)], fun _ _ => rfl⟩ (by
      rintro k ⟨c, sum⟩ hk ⟨hsum, hl, hv, ho⟩
      simp only at hsum hl hv ho
      obtain ⟨c', hc', hl', hv', ho'⟩ := coarse_partition_inner_lex h C Kn MPn m k cp c hMP hKM
        hk (by omega) hv ho
      refine ⟨(c', lex_sum C Kn m (k + 1) 0), ?_, rfl,
        by show c'.length = cp.length; omega, hv', ho'⟩
      simp only [for_range, zero_add, Int.sub_zero, Int.toNat_ofNat, hsum]
      exact hc')
  simp only at hsum hl hv ho
  refine ⟨c, ?_, hl, ?_, ho⟩
  · simp only [for_range, Int.sub_zero, Int.toNat_ofNat] at hrun
    simp only [coarse_partition_loop, for_range, Int.sub_zero, Int.toNat_ofNat]
    rw [hrun, hsum, lex_sum_total]
  · intro r hr q hq
    rw [hv r hr q hq, if_pos hq]

/-! ## Slices in rank order -/

theorem take_append_seg {α : Type} (l : List α) (a n : Nat) :
    l.take a ++ seg l a n = l.take (a + n) := by
  unfold seg
  rw [List.take_add]

theorem slices_cat_in_order (h : spa_private) (sp : species_t) (ho : slices_in_order h sp) :
    ∀ m : Nat, m < h.N_PIPELINE.toNat + 1 →
      0 ≤ slice_lo h sp.np m ∧ slices_cat h sp m = sp.p.take (slice_lo h sp.np m).toNat := by
  intro m
  induction m with
  | zero =>
    intro _
    have := ho.first
    simp only [Nat.cast_zero]
    rw [this]
    exact ⟨le_refl _, by simp [slices_cat]⟩
  | succ m ih =>
    intro hm
    obtain ⟨h0, hcat⟩ := ih (by omega)
    have h1 := ho.next m (by omega)
    have h2 := ho.ordered m (by omega)
    refine ⟨by omega, ?_⟩
    rw [slices_cat_succ, hcat, slice, take_append_seg]
    congr 1
    omega

theorem slices_cat_eq_live (h : spa_private) (sp : species_t) (ho : slices_in_order h sp) :
    slices_cat h sp (h.N_PIPELINE.toNat + 1) = live sp := by
  obtain ⟨h0, hcat⟩ := slices_cat_in_order h sp ho h.N_PIPELINE.toNat (by omega)
  have h1 := ho.last
  have h2 := ho.ordered h.N_PIPELINE.toNat (by omega)
  rw [slices_cat_succ, hcat, slice, take_append_seg, live]
  congr 1
  omega

theorem by_key_congr (key : particle_t → Int) (l₁ l₂ : List particle_t) (v0 : Int) :
    ∀ m : Nat, (∀ k : Nat, k < m → at_key key l₁ (v0 + k) = at_key key l₂ (v0 + k)) →
      by_key key l₁ v0 m = by_key key l₂ v0 m := by
  intro m
  induction m with
  | zero => intro _; simp [by_key]
  | succ m ih =>
    intro hk
    rw [by_key_succ, by_key_succ, ih (fun k hkm => hk k (by omega)), hk m (by omega)]

theorem by_key_add (key : particle_t → Int) (l : List particle_t) (v0 : Int) (a : Nat) :
    ∀ b : Nat, by_key key l v0 (a + b) = by_key key l v0 a ++ by_key key l (v0 + a) b := by
  intro b
  induction b with
  | zero => simp [by_key]
  | succ b ih =>
    rw [← Nat.add_assoc, by_key_succ, ih, by_key_succ, List.append_assoc]
    congr 3
    push_cast
    ring

theorem at_key_at_key (key bkt : particle_t → Int) (l : List particle_t) (r v : Int)
    (hb : ∀ x ∈ l, key x = v → bkt x = r) :
    at_key key (at_key bkt l r) v = at_key key l v := by
  unfold at_key
  rw [List.filter_filter]
  apply List.filter_congr
  intro x hx
  have := hb x hx
  by_cases hv : key x = v
  · simp [hv, this hv]
  · simp [hv]

theorem parallel_sorted_exact (h : spa_private) (sp : species_t) (g : grid_t)
    (hK : 1 ≤ h.N_PIPELINE) (hpar : parallel_pre h sp g)
    (hSL : slices_cat h sp (h.N_PIPELINE.toNat + 1) = live sp) :
    parallel_sorted h sp g = by_key voxel (live sp) 0 (n_voxel g).toNat := by
  have hV0 := range_start_zero h g hK
  have hstep : ∀ m : Nat, m ≤ h.N_PIPELINE.toNat →
      ((List.range m).map (fine_sorted h sp g)).flatten
        = by_key voxel (live sp) 0 (range_start h g m).toNat := by
    intro m
    induction m with
    | zero =>
      intro _
      rw [hV0]
      simp [by_key]
    | succ m ih =>
      intro hm
      have hm0 : 0 ≤ range_start h g m := by
        have := range_start_mono h sp g hpar m 0 (by omega) (by omega)
        omega
      have hm1 := range_start_step h sp g hpar m (by omega)
      have hfine : fine_sorted h sp g m = by_key voxel (live sp) (range_start h g m)
          (range_start h g (m + 1) - range_start h g m).toNat := by
        unfold fine_sorted
        rw [hSL]
        apply by_key_congr
        intro k hk
        apply at_key_at_key
        intro x hx hxv
        obtain ⟨b, hb, hbl, hb1, hb2⟩ := bucket_range h sp g hpar x hx
        rw [hb]
        have hxi : x.i = range_start h g m + k := hxv
        by_contra hne
        have hbm : b ≠ m := fun he => hne (by rw [he])
        rcases Nat.lt_or_gt_of_ne hbm with hlt | hgt
        · have := range_start_mono h sp g hpar m (b + 1) (by omega) (by omega)
          omega
        · have := range_start_mono h sp g hpar b (m + 1) (by omega) (by omega)
          omega
      rw [cat_succ, ih (by omega), hfine]
      have hsum : (range_start h g (m + 1)).toNat
          = (range_start h g m).toNat + (range_start h g (m + 1) - range_start h g m).toNat := by
        omega
      rw [hsum, by_key_add]
      congr 2
      omega
  unfold parallel_sorted
  rw [hstep _ (le_refl _), range_start_last]

theorem sort_p_eq_parallel (h : spa_private) (junk : junk_t) (st : sort_p_static)
    (sp : species_t) (g : grid_t) (hK : 1 < h.N_PIPELINE) (hint : int_defined h sp g)
    (hpre : sort_p_pre h sp g) :
    sort_p h junk st sp g
      = (sort_p_parallel h
          (setup_args h junk sp g ((List.range sp.np.toNat).map junk.scratch_p)) sp).map
        (fun sp' => (ensure_scratch h st sp.np (n_voxel g), sp')) := by
  have hsz := sz_scratch_eq h sp.np (n_voxel g) hpre.np_nonneg hpre.n_voxel_nonneg
    hpre.scratch_fits
  have hmx := ensure_scratch_max h st sp.np (n_voxel g)
  have hfit : h.sizeof_particle * sp.np.toNat + h.sizeof_int * (n_voxel g).toNat
      ≤ (ensure_scratch h st sp.np (n_voxel g)).max_scratch := by
    rw [hmx, hsz]; omega
  have hK' : h.N_PIPELINE > 1 := hK
  simp only [sort_p, if_pos hint, if_pos hfit, if_pos hK']

theorem sort_p_multi_spec (h : spa_private) (junk : junk_t) (st : sort_p_static)
    (sp : species_t) (g : grid_t) (hK : 1 < h.N_PIPELINE) (hint : int_defined h sp g)
    (hpre : sort_p_pre h sp g) (hpar : parallel_pre h sp g) :
    ∃ T : List Int, sort_p h junk st sp g = some
        (ensure_scratch h st sp.np (n_voxel g),
         { sp with
           p := parallel_sorted h sp g ++ sp.p.drop sp.np.toNat
           partition := some T }) ∧
      (T.length : Int) = n_voxel g + 1 ∧
      ∀ k : Nat, (k : Int) ≤ n_voxel g →
        T[k]? = some ((below voxel (live sp) k : Nat) : Int) := by
  obtain ⟨T, hT, hlen, hval⟩ := sort_p_parallel_spec h junk sp g hK hpre hpar
  refine ⟨T, ?_, hlen, hval⟩
  rw [sort_p_eq_parallel h junk st sp g hK hint hpre, hT]
  rfl

theorem voxels_of_parallel_pre (h : spa_private) (sp : species_t) (g : grid_t)
    (hK : 1 ≤ h.N_PIPELINE) (hpar : parallel_pre h sp g) :
    ∀ x ∈ live sp, 0 ≤ x.i ∧ x.i < n_voxel g := by
  intro x hx
  obtain ⟨b, _, hbl, hb1, hb2⟩ := bucket_range h sp g hpar x hx
  have h0 := range_start_mono h sp g hpar b 0 (by omega) (by omega)
  have h1 := range_start_mono h sp g hpar h.N_PIPELINE.toNat (b + 1) (by omega) (le_refl _)
  rw [range_start_zero h g hK] at h0
  rw [range_start_last] at h1
  omega

/-! ## The coarse stage of the parallel branch -/

/-- The parallel branch is the coarse stage followed by the subsort pipelines. -/
theorem sort_p_parallel_eq (h : spa_private) (args : sort_p_pipeline_args_t) (sp : species_t) :
    sort_p_parallel h args sp = (coarse_stage h args sp).bind fun a =>
      (EXEC_PIPELINES h (subsort_pipeline h) a).map fun a' =>
        { sp with p := a'.p, partition := some a'.partition } := by
  simp only [sort_p_parallel, coarse_stage, coarse_offsets, Option.bind_eq_bind,
    Option.pure_def, Option.bind_assoc, Option.some_bind]
  congr 1
  funext a1
  congr 1
  funext s
  congr 1
  funext a2
  congr 1
  funext cp
  cases EXEC_PIPELINES h (subsort_pipeline h) { a2 with coarse_partition := cp } <;> rfl

theorem coarse_stage_spec (h : spa_private) (junk : junk_t) (sp : species_t) (g : grid_t)
    (hK : 1 ≤ h.N_PIPELINE) (hpre : sort_p_pre h sp g) (hc : coarse_pre h sp g) :
    ∃ cp2 aux',
      coarse_offsets h (setup_args h junk sp g ((List.range sp.np.toNat).map junk.scratch_p))
        = some { setup_args h junk sp g ((List.range sp.np.toNat).map junk.scratch_p) with
            coarse_partition := cp2 } ∧
      EXEC_PIPELINES h (coarse_sort_pipeline h)
          { setup_args h junk sp g ((List.range sp.np.toNat).map junk.scratch_p) with
            coarse_partition := cp2 }
        = some { setup_args h junk sp g ((List.range sp.np.toNat).map junk.scratch_p) with
            coarse_partition := cp2, aux_p := aux' } ∧
      coarse_stage h (setup_args h junk sp g ((List.range sp.np.toNat).map junk.scratch_p)) sp
        = some { setup_args h junk sp g ((List.range sp.np.toNat).map junk.scratch_p) with
            coarse_partition := cp2.set h.N_PIPELINE.toNat sp.np, aux_p := aux' } ∧
      h.max_subsort.toNat * (h.N_PIPELINE.toNat + 1) ≤ cp2.length ∧
      h.N_PIPELINE.toNat < cp2.length ∧
      aux'.length = sp.np.toNat ∧
      (∀ r : Nat, r < h.N_PIPELINE.toNat + 1 → ∀ q : Nat, q < h.N_PIPELINE.toNat →
        cp2[h.max_subsort.toNat * r + q]? =
          some (((below (bucket_of h g) (slices_cat h sp (h.N_PIPELINE.toNat + 1)) q
            + cnt (bucket_of h g) (slices_cat h sp r) q : Nat)) : Int)) ∧
      (∀ q : Nat, q < h.N_PIPELINE.toNat → ∀ t : Nat,
        t < cnt (bucket_of h g) (slices_cat h sp (h.N_PIPELINE.toNat + 1)) q →
        aux'[below (bucket_of h g) (slices_cat h sp (h.N_PIPELINE.toNat + 1)) q + t]?
          = (at_key (bucket_of h g) (slices_cat h sp (h.N_PIPELINE.toNat + 1)) q)[t]?) := by
  obtain ⟨hnp0, hnpl, hnv0, hpl, hfit, hK1, hK2, hK3⟩ := hpre
  obtain ⟨Kn, hN⟩ := Int.eq_ofNat_of_zero_le (by omega : (0 : Int) ≤ h.N_PIPELINE)
  obtain ⟨MPn, hMP⟩ := Int.eq_ofNat_of_zero_le (by omega : (0 : Int) ≤ h.max_subsort)
  obtain ⟨MXn, hMX⟩ := Int.eq_ofNat_of_zero_le (by omega : (0 : Int) ≤ h.MAX_PIPELINE)
  obtain ⟨np, hnp⟩ := Int.eq_ofNat_of_zero_le hnp0
  have hKM : Kn ≤ MPn := by omega
  have hKt : h.N_PIPELINE.toNat = Kn := by omega
  have hMt : h.max_subsort.toNat = MPn := by omega
  have hSLperm := slices_cat_perm_core h sp g hnp0 hnpl hc
  rw [hKt] at hSLperm
  have hSL : ∀ x ∈ slices_cat h sp (Kn + 1), x ∈ live sp := fun x hx => hSLperm.subset hx
  have hSLlen : (slices_cat h sp (Kn + 1)).length = np := by
    have := live_length sp hnp0 hnpl
    rw [hSLperm.length_eq]; omega
  have hbk : ∀ x ∈ slices_cat h sp (Kn + 1),
      0 ≤ bucket_of h g x ∧ bucket_of h g x < (Kn : Int) := by
    intro x hx
    have := hc.buckets x (hSL x hx)
    omega
  have hcplen : MPn * (Kn + 1) ≤ (h.max_subsort * (h.MAX_PIPELINE + 1)).toNat := by
    have : MPn * (Kn + 1) ≤ MPn * (MXn + 1) := Nat.mul_le_mul_left _ (by omega)
    have e : (h.max_subsort * (h.MAX_PIPELINE + 1)).toNat = MPn * (MXn + 1) := by
      rw [hMP, hMX]
      have : (MPn : Int) * ((MXn : Int) + 1) = ((MPn * (MXn + 1) : Nat) : Int) := by
        push_cast; rfl
      rw [this, Int.toNat_ofNat]
    omega
  obtain ⟨cp1, hrun1, hl1, hv1⟩ := EXEC_coarse_count_core h sp g
    (setup_args h junk sp g ((List.range sp.np.toNat).map junk.scratch_p)) Kn MPn hN hMP hKM
    rfl rfl hN rfl rfl hnpl hc (by simpa [setup_args] using hcplen)
  obtain ⟨cp2, hrun2, hl2, hv2⟩ := coarse_partition_loop_spec h (bucket_of h g) (slice h sp)
    Kn MPn (Kn + 1) cp1 hMP hKM (by rw [hl1]; simpa [setup_args] using hcplen)
    (fun x hx => (hbk x hx).1) hv1
  obtain ⟨aux', hrun3, hl3, hv3⟩ := EXEC_coarse_sort_core h sp g
    { setup_args h junk sp g ((List.range sp.np.toNat).map junk.scratch_p) with
      coarse_partition := cp2 } Kn MPn hN hMP hKM rfl rfl hN rfl rfl hnpl hc
    (by simp only; rw [hl2, hl1]; simpa [setup_args] using hcplen)
    (by simp [setup_args, hSLlen, hnp]) hv2
  have hcp2 : MPn * (Kn + 1) ≤ cp2.length := by
    rw [hl2, hl1]
    simpa [setup_args] using hcplen
  have hKlt : Kn < cp2.length := by
    have h3 : Kn * 1 ≤ MPn * Kn := by
      rw [Nat.mul_comm MPn Kn]; exact Nat.mul_le_mul_left _ (by omega)
    have h2 : MPn * Kn + MPn = MPn * (Kn + 1) := (Nat.mul_succ _ _).symm
    omega
  have e1 : h.N_PIPELINE + 1 = ((Kn + 1 : Nat) : Int) := by rw [hN]; push_cast; rfl
  have hoff : coarse_offsets h
      (setup_args h junk sp g ((List.range sp.np.toNat).map junk.scratch_p))
      = some { setup_args h junk sp g ((List.range sp.np.toNat).map junk.scratch_p) with
          coarse_partition := cp2 } := by
    simp only [coarse_offsets, hrun1, Option.bind_eq_bind, Option.some_bind, e1]
    rw [hN]
    simp only [hrun2, Option.some_bind]
    rfl
  rw [hKt, hMt]
  refine ⟨cp2, aux', hoff, hrun3, ?_, hcp2, hKlt, ?_, hv2, hv3⟩
  · simp only [coarse_stage, hoff, Option.bind_eq_bind, Option.some_bind]
    dsimp only at hrun3 ⊢
    rw [hrun3]
    simp only [Option.some_bind]
    rw [hN, hnp, store_natCast _ _ _ hKlt]
    rfl
  · rw [hl3]
    simp [setup_args, hnp]

/-! ## Boundaries between the subsort pipelines -/

/-- After the coarse stage, a subsort pipeline of rank `m` that starts from any contents of
`p`, `partition` and `next` returns and leaves `partition[k]` as the number of live records
of a voxel below `k`, for every `k` from the start of its voxel range up to its end. -/
theorem fine_worker_table (h : spa_private) (junk : junk_t) (sp : species_t) (g : grid_t)
    (hK : 1 ≤ h.N_PIPELINE) (hpre : sort_p_pre h sp g) (hpar : parallel_pre h sp g) :
    ∃ a, coarse_stage h (setup_args h junk sp g ((List.range sp.np.toNat).map junk.scratch_p)) sp
        = some a ∧
      a.vl = h.VOXEL 1 1 1 g.nx g.ny g.nz ∧
      a.vh = h.VOXEL g.nx g.ny g.nz g.nx g.ny g.nz ∧ a.n_voxel = n_voxel g ∧
      (∀ r : Nat, r ≤ h.N_PIPELINE.toNat → a.coarse_partition[r]? =
        some ((below voxel (live sp) (range_start h g r) : Nat) : Int)) ∧
      ∀ (m : Nat) (a1 : sort_p_pipeline_args_t), m < h.N_PIPELINE.toNat → same_inputs a a1 →
        ∃ b1, subsort_pipeline h a1 m h.N_PIPELINE = some b1 ∧
          ∀ k : Nat, range_start h g m ≤ k → (k : Int) ≤ range_start h g (m + 1) →
            b1.partition[k]? = some ((below voxel (live sp) k : Nat) : Int) := by
  obtain ⟨cp2, aux', _, _, hst, hcplen, hKlt, hauxl, hv2, hv3⟩ :=
    coarse_stage_spec h junk sp g hK hpre (coarse_of_parallel hpar)
  obtain ⟨hnp0, hnpl, hnv0, hpl, hfit, hK1, hK2, hK3⟩ := hpre
  obtain ⟨nv, hnv⟩ := Int.eq_ofNat_of_zero_le hnv0
  have hSLperm := slices_cat_perm h sp g hnp0 hnpl hpar
  have hSL : ∀ x ∈ slices_cat h sp (h.N_PIPELINE.toNat + 1), x ∈ live sp :=
    fun x hx => hSLperm.subset hx
  have hSLlen : (slices_cat h sp (h.N_PIPELINE.toNat + 1)).length = sp.np.toNat := by
    rw [hSLperm.length_eq]
    exact live_length_nat sp hnp0 hnpl
  have hbk : ∀ x ∈ slices_cat h sp (h.N_PIPELINE.toNat + 1),
      0 ≤ bucket_of h g x ∧ bucket_of h g x < (h.N_PIPELINE.toNat : Int) := by
    intro x hx
    have := hpar.buckets x (hSL x hx)
    omega
  have hBK : below (bucket_of h g) (slices_cat h sp (h.N_PIPELINE.toNat + 1))
      (h.N_PIPELINE.toNat : Int) = sp.np.toNat := by
    rw [below_eq_length _ _ _ (fun x hx => (hbk x hx).2), hSLlen]
  have hbelow : ∀ k : Int, below voxel (slices_cat h sp (h.N_PIPELINE.toNat + 1)) k
      = below voxel (live sp) k := by
    intro k
    exact hSLperm.countP_eq (fun x => decide (voxel x < k))
  have hcp : ∀ r : Nat, r ≤ h.N_PIPELINE.toNat →
      (cp2.set h.N_PIPELINE.toNat sp.np)[r]? = some ((below (bucket_of h g)
        (slices_cat h sp (h.N_PIPELINE.toNat + 1)) r : Nat) : Int) := by
    intro r hr
    rw [List.getElem?_set]
    by_cases hrK : h.N_PIPELINE.toNat = r
    · rw [if_pos hrK, if_pos hKlt, ← hrK, hBK]
      congr 1
      omega
    · rw [if_neg hrK]
      have := hv2 0 (by omega) r (by omega)
      simp only [Nat.mul_zero, Nat.zero_add] at this
      rw [this]
      simp [slices_cat, cnt]
  have hsplit : ∀ r : Nat, r ≤ h.N_PIPELINE.toNat →
      below voxel (slices_cat h sp (h.N_PIPELINE.toNat + 1)) (range_start h g r)
        = below (bucket_of h g) (slices_cat h sp (h.N_PIPELINE.toNat + 1)) r := by
    intro r hr
    rw [below_split voxel (bucket_of h g) _ (r : Int) (range_start h g r)
      (by
        intro x hx hlt
        obtain ⟨b, hb, hbl, _, hb2⟩ := bucket_range h sp g hpar x (hSL x hx)
        have := range_start_mono h sp g hpar r (b + 1) (by omega) hr
        show x.i < _
        omega)
      (by
        intro x hx hgt
        obtain ⟨b, hb, hbl, hb1, _⟩ := bucket_range h sp g hpar x (hSL x hx)
        have := range_start_mono h sp g hpar b r (by omega) (by omega)
        show _ ≤ x.i
        omega)]
    rw [below_eq_zero voxel _ _ (by
      intro x hx
      obtain ⟨hxS, hxb⟩ := mem_at_key hx
      obtain ⟨b, hb, hbl, hb1, _⟩ := bucket_range h sp g hpar x (hSL x hxS)
      have : b = r := by omega
      subst this
      exact hb1)]
    rfl
  refine ⟨_, hst, rfl, rfl, rfl, ?_, ?_⟩
  · intro r hr
    show (cp2.set h.N_PIPELINE.toNat sp.np)[r]? = _
    rw [hcp r hr, ← hbelow, hsplit r hr]
  · rintro m a1 hm ⟨e1, e2, e3, e4, e5, e6, e7, e8, e9, e10⟩
    simp only [setup_args] at e1 e2 e3 e4 e5 e6 e7 e8 e9 e10
    have hT0 : (partition_table junk sp g).length = nv + 1 := by
      unfold partition_table
      cases hsp : sp.partition with
      | none => simp [hnv]
      | some t => have := hpl t hsp; simp only; omega
    obtain ⟨T', nx', hrun, _, _, hT⟩ := subsort_step_spec h sp g a1 h.N_PIPELINE.toNat m
      (slices_cat h sp (h.N_PIPELINE.toNat + 1)) (by omega) hm e5 e6 e7 hpar hSL
      (by rw [e2]; exact hcp)
      (by rw [e1]; exact hv3 m hm)
      (by rw [e1, hauxl, hSLlen])
      (by rw [e8, hSLlen]; omega)
      (by rw [e10]; simp [hnv])
      (by rw [e9, hT0]; omega)
    refine ⟨_, hrun, ?_⟩
    intro k hk0 hk1
    show T'[k]? = _
    rw [hT k, if_pos ⟨hk0, hk1⟩, hbelow]

/-! ## The stores of the coarse sort -/

theorem coarse_sort_body_logged_eq (h : spa_private) (p_src : List particle_t)
    (ns vl vh : Int) :
    coarse_sort_body_logged h p_src ns vl vh = scatter_step_logged (bucket h ns vl vh) p_src :=
  rfl

/-- Dropping the log of a logged scatter step gives the scatter step. -/
theorem scatter_step_logged_fst (key : particle_t → Int) (src : List particle_t) (i : Int)
    (nx : List Int) (d : List particle_t) (lg : List Int) :
    (scatter_step_logged key src i (nx, d, lg)).map (fun s => (s.1, s.2.1))
      = scatter_step key src i (nx, d) := by
  simp only [scatter_step_logged, scatter_step, Option.bind_eq_bind, Option.pure_def]
  cases load src i with
  | none => rfl
  | some x =>
    simp only [Option.some_bind]
    cases load nx (key x) with
    | none => rfl
    | some j =>
      simp only [Option.some_bind]
      cases store nx (key x) (j + 1) with
      | none => rfl
      | some nx' =>
        simp only [Option.some_bind]
        cases store d j x with
        | none => rfl
        | some d' => rfl

/-- Dropping the log of a logged scatter loop gives the scatter loop. -/
theorem scatter_loop_logged_fst (key : particle_t → Int) (src : List particle_t) :
    ∀ (n : Nat) (i : Int) (nx : List Int) (d : List particle_t) (lg : List Int),
      (for_loop (scatter_step_logged key src) n i (nx, d, lg)).map (fun s => (s.1, s.2.1))
        = for_loop (scatter_step key src) n i (nx, d) := by
  intro n
  induction n with
  | zero => intro i nx d lg; rfl
  | succ n ih =>
    intro i nx d lg
    have hstep := scatter_step_logged_fst key src i nx d lg
    simp only [for_loop]
    cases hs : scatter_step_logged key src i (nx, d, lg) with
    | none =>
      rw [hs] at hstep
      simp only [Option.map_none'] at hstep
      rw [← hstep]
      rfl
    | some s =>
      obtain ⟨nx', d', lg'⟩ := s
      rw [hs] at hstep
      simp only [Option.map_some'] at hstep
      rw [← hstep]
      simp only [Option.some_bind]
      exact ih (i + 1) nx' d' lg'

theorem scatter_logged_spec (key : particle_t → Int) (src : List particle_t) (i0 n : Nat)
    (next : List Int) (dst : List particle_t) (log : List Int) (v0 m : Nat) (start : Nat → Nat)
    (hsrc : i0 + n ≤ src.length) (hm : v0 + m ≤ next.length)
    (hkey : ∀ x ∈ seg src i0 n, (v0 : Int) ≤ key x ∧ key x < ((v0 + m : Nat) : Int))
    (hnext : ∀ v : Nat, v0 ≤ v → v < v0 + m → next[v]? = some ((start v : Nat) : Int))
    (hbound : ∀ v : Nat, v0 ≤ v → v < v0 + m →
      start v + cnt key (seg src i0 n) v ≤ dst.length) :
    ∃ next' dst', for_loop (scatter_step_logged key src) n i0 (next, dst, log)
        = some (next', dst', log ++ (List.range n).map
          (fun k : Nat => ((slot key start (seg src i0 n) k : Nat) : Int))) ∧
      dst'.length = dst.length := by
  obtain ⟨⟨nx, d, lg⟩, hrun, hl1, hl2, hv1, hlg⟩ := for_loop_inv (scatter_step_logged key src) n
    (fun k s => s.1.length = next.length ∧ s.2.1.length = dst.length ∧
      (∀ v : Nat, s.1[v]? = if v0 ≤ v ∧ v < v0 + m
        then some (((start v + cnt key ((seg src i0 n).take k) v : Nat)) : Int) else next[v]?) ∧
      s.2.2 = log ++ (List.range k).map
        (fun k' : Nat => ((slot key start (seg src i0 n) k' : Nat) : Int)))
    i0 (next, dst, log)
    ⟨rfl, rfl, by
        intro v
        by_cases hr : v0 ≤ v ∧ v < v0 + m
        · rw [if_pos hr, hnext v hr.1 hr.2]; simp [cnt]
        · rw [if_neg hr],
      by simp⟩ (by
      rintro k ⟨nx, d, lg⟩ hk ⟨hl1, hl2, hv1, hlg⟩
      simp only at hl1 hl2 hv1 hlg
      have hlt : i0 + k < src.length := by omega
      have hsk : (seg src i0 n)[k]? = some src[i0 + k] := by
        rw [seg_getElem?, if_pos hk, List.getElem?_eq_getElem hlt]
      obtain ⟨h0, h1⟩ := hkey _ (List.getElem?_mem hsk)
      obtain ⟨v, hv⟩ := Int.eq_ofNat_of_zero_le (le_trans (Int.ofNat_nonneg v0) h0)
      have hvr : v0 ≤ v ∧ v < v0 + m := by omega
      have hload : load src ((i0 : Int) + k) = some src[i0 + k] := by
        have : ((i0 : Int) + k) = ((i0 + k : Nat) : Int) := by push_cast; rfl
        rw [this, load_natCast, List.getElem?_eq_getElem hlt]
      have htk := take_succ_of_getElem? hsk
      have hcs : ∀ w : Int, cnt key ((seg src i0 n).take (k + 1)) w
          = cnt key ((seg src i0 n).take k) w + (if (v : Int) = w then 1 else 0) := by
        intro w; rw [htk, cnt_append_singleton, hv]
      have hle : ∀ w : Int, cnt key ((seg src i0 n).take (k + 1)) w ≤ cnt key (seg src i0 n) w :=
        fun w => cnt_take_le key _ _ w
      have hlev := hle v
      rw [hcs v, if_pos rfl] at hlev
      have hbv := hbound v hvr.1 hvr.2
      have hnv := hv1 v
      rw [if_pos hvr] at hnv
      refine ⟨(nx.set v (((start v + cnt key ((seg src i0 n).take k) v : Nat) : Int) + 1),
        d.set (start v + cnt key ((seg src i0 n).take k) v) src[i0 + k],
        lg ++ [((start v + cnt key ((seg src i0 n).take k) v : Nat) : Int)]), ?_,
        by simpa using hl1, by simpa using hl2, ?_, ?_⟩
      · simp only [scatter_step_logged, hload, hv, load_natCast, hnv, Option.bind_eq_bind,
          Option.some_bind]
        rw [store_natCast _ _ _ (by omega), store_natCast _ _ _ (by omega)]
        rfl
      · intro w
        simp only
        rw [List.getElem?_set, hcs]
        by_cases hw : v = w
        · subst hw
          rw [if_pos rfl, if_pos (by omega), if_pos hvr, if_pos rfl]
          push_cast; ring_nf
        · have hw' : ¬ ((v : Int) = (w : Int)) := by omega
          rw [if_neg hw, if_neg hw', hv1 w]; simp
      · simp only
        rw [hlg, List.range_succ, List.map_append, List.append_assoc]
        congr 2
        simp only [List.map_cons, List.map_nil, slot, hsk, hv, Int.toNat_ofNat])
  simp only at hlg hl2
  exact ⟨nx, d, by rw [hrun, hlg], hl2⟩

theorem scatter_logged_range (key : particle_t → Int) (src : List particle_t) (lo hi : Int)
    (next : List Int) (dst : List particle_t) (log : List Int) (v0 m : Nat) (start : Nat → Nat)
    (hin : hi ≤ lo ∨ (0 ≤ lo ∧ hi ≤ src.length)) (hm : v0 + m ≤ next.length)
    (hkey : ∀ x ∈ seg src lo.toNat (hi - lo).toNat,
      (v0 : Int) ≤ key x ∧ key x < ((v0 + m : Nat) : Int))
    (hnext : ∀ v : Nat, v0 ≤ v → v < v0 + m → next[v]? = some ((start v : Nat) : Int))
    (hbound : ∀ v : Nat, v0 ≤ v → v < v0 + m →
      start v + cnt key (seg src lo.toNat (hi - lo).toNat) v ≤ dst.length) :
    ∃ next' dst', for_range (scatter_step_logged key src) lo hi (next, dst, log)
        = some (next', dst', log ++ (List.range (hi - lo).toNat).map
          (fun k : Nat => ((slot key start (seg src lo.toNat (hi - lo).toNat) k : Nat) : Int))) ∧
      dst'.length = dst.length := by
  unfold for_range
  by_cases h : hi ≤ lo
  · have h0 : (hi - lo).toNat = 0 := by omega
    rw [h0]
    exact ⟨next, dst, by simp [for_loop], rfl⟩
  · have hlo : ((lo.toNat : Nat) : Int) = lo := by omega
    have := scatter_logged_spec key src lo.toNat (hi - lo).toNat next dst log v0 m start
      (by omega) hm hkey hnext hbound
    rw [hlo] at this
    exact this

/-- Dropping the log of the logged kernel gives the kernel `coarse_sort_pipeline`. -/
theorem coarse_sort_pipeline_logged_fst (h : spa_private) (args : sort_p_pipeline_args_t)
    (rank n_pipeline : Int) :
    (coarse_sort_pipeline_logged h args rank n_pipeline).map Prod.fst
      = coarse_sort_pipeline h args rank n_pipeline := by
  simp only [coarse_sort_pipeline_logged, coarse_sort_pipeline, Option.bind_eq_bind,
    Option.pure_def, coarse_sort_body_logged_eq, coarse_sort_body_eq, for_range]
  by_cases hg : 0 ≤ args.n_subsort ∧ args.n_subsort ≤ h.max_subsort
  · simp only [if_pos hg]
    cases COPY (List.replicate args.n_subsort.toNat (0 : Int)) 0 args.coarse_partition
        (h.max_subsort * rank) args.n_subsort with
    | none => rfl
    | some next =>
      simp only [Option.some_bind]
      rw [← scatter_loop_logged_fst _ _ _ _ next args.aux_p []]
      cases for_loop (scatter_step_logged (bucket h args.n_subsort args.vl args.vh) args.p) _ _
        (next, args.aux_p, []) with
      | none => rfl
      | some s => rfl
  · simp only [if_neg hg]
    rfl

/-- Dropping the logs of the logged dispatch gives the dispatch of `coarse_sort_pipeline`. -/
theorem EXEC_coarse_sort_logged_fst (h : spa_private) (args : sort_p_pipeline_args_t) :
    (EXEC_coarse_sort_logged h args).map Prod.fst
      = EXEC_PIPELINES h (coarse_sort_pipeline h) args := by
  unfold EXEC_coarse_sort_logged EXEC_PIPELINES
  generalize (h.N_PIPELINE + 1).toNat = n
  generalize (0 : Int) = i
  generalize ([] : List Int) = lg
  induction n generalizing i args lg with
  | zero => rfl
  | succ n ih =>
    simp only [for_loop]
    have hk := coarse_sort_pipeline_logged_fst h args i h.N_PIPELINE
    cases hs : coarse_sort_pipeline_logged h args i h.N_PIPELINE with
    | none =>
      rw [hs] at hk
      simp only [Option.map_none'] at hk
      rw [← hk]
      rfl
    | some t =>
      rw [hs] at hk
      simp only [Option.map_some'] at hk
      rw [← hk]
      simp only [Option.map_some', Option.some_bind]
      exact ih t.1 (i + 1) (lg ++ t.2)

theorem perm_range_of_inj (f : Nat → Nat) (n : Nat) (hlt : ∀ k : Nat, k < n → f k < n)
    (hinj : ∀ k k' : Nat, k < k' → k' < n → f k ≠ f k') :
    ((List.range n).map f).Perm (List.range n) := by
  have hnd : ((List.range n).map f).Nodup := by
    apply List.Nodup.map_on _ (List.nodup_range n)
    intro a ha b hb hab
    rw [List.mem_range] at ha hb
    by_contra hne
    rcases Nat.lt_or_gt_of_ne hne with h1 | h1
    · exact hinj a b h1 hb hab
    · exact hinj b a h1 ha hab.symm
  have hsub : (List.range n).map f ⊆ List.range n := by
    intro y hy
    rw [List.mem_map] at hy
    obtain ⟨k, hk, rfl⟩ := hy
    rw [List.mem_range] at hk ⊢
    exact hlt k hk
  exact (List.subperm_of_subset hnd hsub).perm_of_length_le (by simp)

theorem slot_eq (key : particle_t → Int) (st : Nat → Nat) (S : List particle_t) (k : Nat)
    (x : particle_t) (hx : S[k]? = some x) :
    slot key st S k = st (key x).toNat + cnt key (S.take k) (key x) := by
  simp only [slot, hx]

theorem slot_bounds (key : particle_t → Int) (S : List particle_t) (k : Nat) (x : particle_t)
    (hx : S[k]? = some x) (h0 : 0 ≤ key x) :
    below key S (key x) ≤ slot key (fun q : Nat => below key S q) S k ∧
      slot key (fun q : Nat => below key S q) S k < below key S (key x + 1) := by
  rw [slot_eq key _ S k x hx]
  have e : (((key x).toNat : Nat) : Int) = key x := by omega
  have h1 := cnt_take_lt key S k (k + 1) x hx (by omega)
  have h2 := cnt_take_le key S (k + 1) (key x)
  have h3 := below_succ key S (key x)
  simp only [e]
  omega

theorem slot_perm (key : particle_t → Int) (S : List particle_t)
    (h0 : ∀ x ∈ S, 0 ≤ key x) :
    ((List.range S.length).map (slot key (fun q : Nat => below key S q) S)).Perm
      (List.range S.length) := by
  have hget : ∀ k : Nat, k < S.length → ∃ x, S[k]? = some x ∧ x ∈ S := fun k hk =>
    ⟨S[k], List.getElem?_eq_getElem hk, List.getElem_mem hk⟩
  apply perm_range_of_inj
  · intro k hk
    obtain ⟨x, hx, hm⟩ := hget k hk
    have := (slot_bounds key S k x hx (h0 x hm)).2
    have := below_le_length key S (key x + 1)
    omega
  · intro k k' hkk hk'
    obtain ⟨x, hx, hm⟩ := hget k (by omega)
    obtain ⟨y, hy, hm'⟩ := hget k' hk'
    have hbx := slot_bounds key S k x hx (h0 x hm)
    have hby := slot_bounds key S k' y hy (h0 y hm')
    by_cases hxy : key x = key y
    · rw [slot_eq key _ S k x hx, slot_eq key _ S k' y hy, ← hxy]
      have := cnt_take_lt key S k k' x hx hkk
      omega
    · rcases lt_or_gt_of_ne hxy with hlt | hgt
      · have := below_mono key S (show key x + 1 ≤ key y by omega)
        omega
      · have := below_mono key S (show key y + 1 ≤ key x by omega)
        omega

theorem slot_shift (key : particle_t → Int) (st st' : Nat → Nat) (A B C : List particle_t)
    (k : Nat) (hk : k < B.length)
    (hst : ∀ x ∈ B, st' (key x).toNat = st (key x).toNat + cnt key A (key x)) :
    slot key st' B k = slot key st (A ++ B ++ C) (A.length + k) := by
  have hx : B[k]? = some B[k] := List.getElem?_eq_getElem hk
  have hx' : (A ++ B ++ C)[A.length + k]? = some B[k] := by
    rw [List.append_assoc, List.getElem?_append_right (by omega)]
    have : A.length + k - A.length = k := by omega
    rw [this, List.getElem?_append_left hk, hx]
  rw [slot_eq key st' B k _ hx, slot_eq key st _ _ _ hx', hst _ (List.getElem_mem hk)]
  have htake : (A ++ B ++ C).take (A.length + k) = A ++ B.take k := by
    rw [List.append_assoc, List.take_append_eq_append_take]
    have h1 : A.length + k - A.length = k := by omega
    rw [List.take_of_length_le (by omega), h1, List.take_append_of_le_length (by omega)]
  rw [htake, cnt_append]
  omega

theorem cat_range_map {α β : Type} (f : Nat → List α) (g : Nat → β) :
    ∀ m : Nat, ((List.range m).map (fun r : Nat => (List.range (f r).length).map
        (fun k : Nat => g ((((List.range r).map f).flatten).length + k)))).flatten
      = (List.range (((List.range m).map f).flatten).length).map g := by
  intro m
  induction m with
  | zero => simp
  | succ m ih =>
    rw [cat_succ, ih, cat_succ, List.length_append, List.range_add, List.map_append,
      List.map_map]
    rfl

theorem coarse_sort_pipeline_logged_spec (h : spa_private) (args : sort_p_pipeline_args_t)
    (r : Nat) (P : Int) (Kn MPn : Nat) (lo hi : Int) (start : Nat → Nat)
    (hK : args.n_subsort = Kn) (hMP : h.max_subsort = MPn) (hKM : Kn ≤ MPn)
    (hlo : (h.DISTRIBUTE args.n h.sort_block_size r P).1 = lo)
    (hhi : (h.DISTRIBUTE args.n h.sort_block_size r P).2
      + (h.DISTRIBUTE args.n h.sort_block_size r P).1 = hi)
    (hin : hi ≤ lo ∨ (0 ≤ lo ∧ hi ≤ args.p.length))
    (hkey : ∀ x ∈ seg args.p lo.toNat (hi - lo).toNat,
      0 ≤ bucket h args.n_subsort args.vl args.vh x ∧
        bucket h args.n_subsort args.vl args.vh x < Kn)
    (hcp : MPn * r + Kn ≤ args.coarse_partition.length)
    (hstart : ∀ q : Nat, q < Kn →
      args.coarse_partition[MPn * r + q]? = some ((start q : Nat) : Int))
    (hbound : ∀ v : Nat, v < Kn →
      start v + cnt (bucket h args.n_subsort args.vl args.vh)
        (seg args.p lo.toNat (hi - lo).toNat) v ≤ args.aux_p.length) :
    ∃ d', coarse_sort_pipeline_logged h args r P = some ({ args with aux_p := d' },
        (List.range (hi - lo).toNat).map (fun k : Nat =>
          ((slot (bucket h args.n_subsort args.vl args.vh) start
            (seg args.p lo.toNat (hi - lo).toNat) k : Nat) : Int))) ∧
      d'.length = args.aux_p.length := by
  obtain ⟨n1, hc1, hl1, hv1⟩ := COPY_spec (List.replicate Kn (0 : Int)) args.coarse_partition
    0 (MPn * r) Kn (by simp) hcp
  rw [List.length_replicate] at hl1
  obtain ⟨n2, d2, hc2, hl2⟩ := scatter_logged_range
    (bucket h args.n_subsort args.vl args.vh) args.p lo hi n1 args.aux_p [] 0 Kn start hin
    (by omega) (by simpa using hkey)
    (by
      intro v _ hv
      rw [hv1 v, if_pos (by omega)]
      have : MPn * r + (v - 0) = MPn * r + v := by omega
      rw [this]
      exact hstart v (by omega))
    (by intro v _ hv; exact hbound v (by omega))
  refine ⟨d2, ?_, hl2⟩
  have hg : (0 : Int) ≤ args.n_subsort ∧ args.n_subsort ≤ h.max_subsort := by
    rw [hK, hMP]; omega
  have e1 : h.max_subsort * (r : Int) = ((MPn * r : Nat) : Int) := by rw [hMP]; push_cast; rfl
  have hhi' : (h.DISTRIBUTE args.n h.sort_block_size r P).2 + lo = hi := by
    rw [← hlo]; exact hhi
  simp only [coarse_sort_pipeline_logged, hlo, hhi', if_pos hg, Option.bind_eq_bind,
    coarse_sort_body_logged_eq, e1]
  rw [hK] at hc2 ⊢
  have := hc1
  simp only [Nat.cast_zero] at this
  simp only [Int.toNat_ofNat, this, Option.some_bind, hc2, List.nil_append]
  rfl

theorem cat_split {α : Type} (f : Nat → List α) :
    ∀ n m : Nat, m ≤ n → ∃ C, ((List.range n).map f).flatten = ((List.range m).map f).flatten ++ C := by
  intro n
  induction n with
  | zero =>
    intro m hm
    have : m = 0 := by omega
    subst this
    exact ⟨[], by simp⟩
  | succ n ih =>
    intro m hm
    by_cases he : m = n + 1
    · subst he
      exact ⟨[], by simp⟩
    · obtain ⟨C, hC⟩ := ih m (by omega)
      exact ⟨C ++ f n, by rw [cat_succ, hC, List.append_assoc]⟩

theorem slice_length (h : spa_private) (sp : species_t) (r : Nat)
    (hin : slice_hi h sp.np r ≤ slice_lo h sp.np r ∨
      (0 ≤ slice_lo h sp.np r ∧ slice_hi h sp.np r ≤ sp.p.length)) :
    (slice h sp r).length = (slice_hi h sp.np r - slice_lo h sp.np r).toNat := by
  unfold slice
  rcases hin with hle | ⟨h0, h1⟩
  · have : (slice_hi h sp.np r - slice_lo h sp.np r).toNat = 0 := by omega
    rw [this]
    simp [seg]
  · by_cases hle : slice_hi h sp.np r ≤ slice_lo h sp.np r
    · have : (slice_hi h sp.np r - slice_lo h sp.np r).toNat = 0 := by omega
      rw [this]
      simp [seg]
    · exact seg_length _ _ _ (by omega)

theorem EXEC_coarse_sort_logged_spec (h : spa_private) (sp : species_t) (g : grid_t)
    (args : sort_p_pipeline_args_t) (Kn MPn : Nat)
    (hN : h.N_PIPELINE = Kn) (hMP : h.max_subsort = MPn) (hKM : Kn ≤ MPn)
    (hp : args.p = sp.p) (hn : args.n = sp.np) (hns : args.n_subsort = Kn)
    (hvl : args.vl = h.VOXEL 1 1 1 g.nx g.ny g.nz)
    (hvh : args.vh = h.VOXEL g.nx g.ny g.nz g.nx g.ny g.nz)
    (hnpl : sp.np ≤ sp.p.length) (hpar : coarse_pre h sp g)
    (hcp : MPn * (Kn + 1) ≤ args.coarse_partition.length)
    (haux : (slices_cat h sp (Kn + 1)).length ≤ args.aux_p.length)
    (hstart : ∀ r : Nat, r < Kn + 1 → ∀ q : Nat, q < Kn →
      args.coarse_partition[MPn * r + q]? =
        some (((below (bucket_of h g) (slices_cat h sp (Kn + 1)) q
          + cnt (bucket_of h g) (slices_cat h sp r) q : Nat)) : Int)) :
    ∃ aux', EXEC_coarse_sort_logged h args = some ({ args with aux_p := aux' },
      (List.range (slices_cat h sp (Kn + 1)).length).map (fun k : Nat =>
        ((slot (bucket_of h g)
          (fun q : Nat => below (bucket_of h g) (slices_cat h sp (Kn + 1)) q)
          (slices_cat h sp (Kn + 1)) k : Nat) : Int))) := by
  have hKt : (h.N_PIPELINE + 1).toNat = Kn + 1 := by omega
  have hsucc : ∀ q : Nat, below (bucket_of h g) (slices_cat h sp (Kn + 1)) ((q : Int) + 1)
      = below (bucket_of h g) (slices_cat h sp (Kn + 1)) q
        + cnt (bucket_of h g) (slices_cat h sp (Kn + 1)) q :=
    fun q => below_succ _ _ _
  have hleB : ∀ v : Int, below (bucket_of h g) (slices_cat h sp (Kn + 1)) v
      ≤ (slices_cat h sp (Kn + 1)).length := fun v => below_le_length _ _ _
  have hcle : ∀ (m : Nat) (q : Int), m ≤ Kn + 1 → cnt (bucket_of h g) (slices_cat h sp m) q
      ≤ cnt (bucket_of h g) (slices_cat h sp (Kn + 1)) q :=
    fun m q hm => cnt_cat_le _ (slice h sp) q m (Kn + 1) hm
  obtain ⟨⟨a', lg'⟩, hrun, aux', ha', hl', hlg'⟩ := for_loop_inv
    (fun r s => (coarse_sort_pipeline_logged h s.1 r h.N_PIPELINE).map
      fun t => (t.1, s.2 ++ t.2)) (Kn + 1)
    (fun m s => ∃ aux', s.1 = { args with aux_p := aux' } ∧
      aux'.length = args.aux_p.length ∧
      s.2 = ((List.range m).map (fun r : Nat => (List.range (slice h sp r).length).map
        (fun k : Nat => ((slot (bucket_of h g)
          (fun q : Nat => below (bucket_of h g) (slices_cat h sp (Kn + 1)) q)
          (slices_cat h sp (Kn + 1))
          ((((List.range r).map (slice h sp)).flatten).length + k) : Nat) : Int)))).flatten)
    0 (args, []) ⟨args.aux_p, rfl, rfl, by simp⟩ (by
      rintro m ⟨a, lg⟩ hm ⟨aux1, ha, hl1, hlg⟩
      simp only at ha hlg
      subst ha
      have hin := hpar.slices_inside m (by omega)
      have hmle : MPn * m + MPn ≤ MPn * (Kn + 1) := by
        have : MPn * (m + 1) ≤ MPn * (Kn + 1) := Nat.mul_le_mul_left _ (by omega)
        rw [Nat.mul_succ] at this
        exact this
      have hcs : ∀ q : Int, cnt (bucket_of h g) (slices_cat h sp (m + 1)) q
          = cnt (bucket_of h g) (slices_cat h sp m) q + cnt (bucket_of h g) (slice h sp m) q :=
        fun q => by rw [slices_cat_succ h sp m, cnt_append]
      have hbk : bucket h (Kn : Int) (h.VOXEL 1 1 1 g.nx g.ny g.nz)
          (h.VOXEL g.nx g.ny g.nz g.nx g.ny g.nz) = bucket_of h g := by
        simp only [bucket_of, hN]
      have hbkt : ∀ x ∈ slice h sp m, 0 ≤ bucket_of h g x ∧ bucket_of h g x < (Kn : Int) := by
        intro x hx
        have hb := hpar.buckets x (mem_slice_live h sp m hin x hx)
        rw [hN] at hb
        exact hb
      obtain ⟨aux2, hc2, hl2⟩ := coarse_sort_pipeline_logged_spec h
        { args with aux_p := aux1 } m h.N_PIPELINE Kn MPn
        (slice_lo h sp.np m) (slice_hi h sp.np m)
        (fun q => below (bucket_of h g) (slices_cat h sp (Kn + 1)) q
          + cnt (bucket_of h g) (slices_cat h sp m) q)
        hns hMP hKM
        (by simp only [hn]; rfl) (by simp only [hn]; rfl)
        (by simp only [hp]; omega)
        (by
          intro x hx
          simp only [hp, hns, hvl, hvh] at hx ⊢
          rw [hbk]
          exact hbkt x hx)
        (by simp only; omega)
        (by intro q hq; exact hstart m hm q hq)
        (by
          intro v _
          simp only [hp, hns, hvl, hvh, hbk, hl1]
          have h1 := hcs v
          have h2 := hcle (m + 1) v (by omega)
          have h3 := hsucc v
          have h4 := hleB ((v : Int) + 1)
          change _ + cnt (bucket_of h g) (slice h sp m) v ≤ _
          omega)
      have hlen := slice_length h sp m (by omega)
      obtain ⟨C, hC⟩ := cat_split (slice h sp) (Kn + 1) (m + 1) (by omega)
      rw [cat_succ (slice h sp) m] at hC
      refine ⟨_, by
        show (coarse_sort_pipeline_logged h _ _ _).map _ = _
        have e0 : ((0 : Int) + (m : Int)) = (m : Int) := by omega
        rw [e0, hc2]
        rfl, aux2, rfl, by rw [hl2]; exact hl1, ?_⟩
      simp only [hp, hns, hvl, hvh, hbk]
      rw [hlg, cat_succ]
      congr 1
      rw [hlen]
      apply List.map_congr_left
      intro k hk
      rw [List.mem_range, ← hlen] at hk
      congr 1
      change slot (bucket_of h g) _ (slice h sp m) k = _
      have hsh := slot_shift (bucket_of h g)
        (fun q : Nat => below (bucket_of h g) (slices_cat h sp (Kn + 1)) q)
        (fun q : Nat => below (bucket_of h g) (slices_cat h sp (Kn + 1)) q
          + cnt (bucket_of h g) (slices_cat h sp m) q)
        (((List.range m).map (slice h sp)).flatten) (slice h sp m) C k hk (by
          intro x hx
          have := (hbkt x hx).1
          have e : (((bucket_of h g x).toNat : Nat) : Int) = bucket_of h g x := by omega
          simp only [e]
          rfl)
      rw [hsh]
      congr 1
      unfold slices_cat
      exact hC.symm)
  simp only at ha' hlg'
  refine ⟨aux', ?_⟩
  simp only [EXEC_coarse_sort_logged, hKt]
  have hcat := cat_range_map (slice h sp) (fun j : Nat => ((slot (bucket_of h g)
    (fun q : Nat => below (bucket_of h g) (slices_cat h sp (Kn + 1)) q)
    (slices_cat h sp (Kn + 1)) j : Nat) : Int)) (Kn + 1)
  beta_reduce at hcat
  rw [hrun, ha', hlg', hcat]
  rfl

/-! ## The bucket ranges modelled from the specification -/

theorem P2V_spec_mono (p p' P vl vh : Int) (hP : 0 < P) (hV : vl ≤ vh) (hp : p ≤ p') :
    P2V_spec p P vl vh ≤ P2V_spec p' P vl vh := by
  unfold P2V_spec
  have h1 : p * (vh - vl) ≤ p' * (vh - vl) := Int.mul_le_mul_of_nonneg_right hp (by omega)
  have := Int.ediv_le_ediv hP (show p * (vh - vl) + P - 1 ≤ p' * (vh - vl) + P - 1 by omega)
  omega

theorem P2V_spec_inside (p P vl vh : Int) (hP : 0 < P) (hV : vl ≤ vh) (h0 : 0 ≤ p)
    (h1 : p ≤ P) : vl ≤ P2V_spec p P vl vh ∧ P2V_spec p P vl vh ≤ vh := by
  unfold P2V_spec
  have hnum : 0 ≤ p * (vh - vl) := Int.mul_nonneg h0 (by omega)
  have hge : 0 ≤ (p * (vh - vl) + P - 1) / P := Int.ediv_nonneg (by omega) (by omega)
  have hle : p * (vh - vl) ≤ P * (vh - vl) := Int.mul_le_mul_of_nonneg_right h1 (by omega)
  have hlt : (p * (vh - vl) + P - 1) / P < (vh - vl) + 1 := by
    apply Int.ediv_lt_of_lt_mul hP
    linarith
  omega

/-- The bucket ranges modelled from the specification give no subsort pipeline a voxel
range that ends before it starts. -/
theorem P2V_spec_ordered (h : spa_private) (args : sort_p_pipeline_args_t) (n_pipeline : Int)
    (hP2V : h.P2V = P2V_spec) (hvl : 0 ≤ args.vl) (hV : args.vl ≤ args.vh)
    (hvh : args.vh ≤ args.n_voxel) :
    ∀ r : Int, 0 ≤ r → r < n_pipeline →
      subsort_v0 h args r n_pipeline ≤ subsort_v1 h args r n_pipeline := by
  intro r hr0 hr1
  have hP : 0 < n_pipeline := by omega
  have hmono := P2V_spec_mono r (r + 1) n_pipeline args.vl args.vh hP hV (by omega)
  have hin0 := P2V_spec_inside r n_pipeline args.vl args.vh hP hV hr0 (by omega)
  have hin1 := P2V_spec_inside (r + 1) n_pipeline args.vl args.vh hP hV (by omega) (by omega)
  unfold subsort_v0 subsort_v1
  rw [hP2V]
  split <;> split <;> omega

/-! ## Defined integer arithmetic -/

/-- The result of a sort keeps the `int` arithmetic of the next sort defined. -/
theorem int_defined_next (h : spa_private) (sp : species_t) (g : grid_t) (P : List particle_t)
    (T : List Int) (hint : int_defined h sp g) :
    int_defined h { sp with p := P, partition := some T } g := by
  obtain ⟨h1, h2, h3, h4, h5, h6, h7, h8, h9, _⟩ := hint
  exact ⟨h1, h2, h3, h4, h5, h6, h7, h8, h9, fun hc => by cases hc⟩

theorem int_defined_serial (h : spa_private) (sp : species_t) (g : grid_t)
    (hint : int_defined h sp g) : int_defined (serial h) sp g := hint

theorem int_defined_one_demo : int_defined env_one species_demo grid_five := by decide

theorem int_defined_two_demo : int_defined env_two species_demo grid_five := by decide

theorem int_defined_two_empty : int_defined env_two species_empty grid_ten := by decide

theorem int_defined_one_sorted : int_defined env_one species_sorted grid_five := by decide

/-- On a grid whose voxel count overflows `int` at line 143 the behaviour of `sort_p` is
undefined: the model returns nothing. -/
theorem sort_p_overflow (h : spa_private) (junk : junk_t) (st : sort_p_static)
    (sp : species_t) (g : grid_t) (hov : h.INT_MAX < n_voxel g) :
    sort_p h junk st sp g = none := by
  unfold sort_p
  rw [if_neg]
  rintro ⟨_, _, _, _, _, _, _, _, h9, _⟩
  unfold int_range at h9
  omega

theorem sort_p_overflow_demo (junk : junk_t) (st : sort_p_static) :
    sort_p env_one junk st species_empty grid_huge = none :=
  sort_p_overflow env_one junk st species_empty grid_huge (by decide)

/-! ## Main results -/

set_option maxRecDepth 100000

/-- Claim C1: for every particle array of length `np` whose voxel indices all lie in
`[0, n_voxel)`, `sort_p` on the single-worker path (`N_PIPELINE = 1`) returns, and for
every voxel `v` in `[0, n_voxel)` every index `i` with `partition[v] <= i < partition[v+1]`
holds a particle with voxel index `v` in `sp->p`, and no particle with voxel index `v`
sits at an index of `[0, np)` outside that range.
The grid is one for which the `int` arithmetic of lines 143 and 151 does not overflow
(`int_defined`). -/
theorem sort_p_groups_by_voxel (h : spa_private) (junk : junk_t) (st : sort_p_static)
    (sp : species_t) (g : grid_t) (hN : h.N_PIPELINE = 1) (hint : int_defined h sp g)
    (hpre : sort_p_pre h sp g)
    (hvox : ∀ x ∈ live sp, 0 ≤ x.i ∧ x.i < n_voxel g) :
    ∃ st' sp' T, sort_p h junk st sp g = some (st', sp') ∧ sp'.np = sp.np ∧
      sp'.partition = some T ∧
      ∀ v : Nat, (v : Int) < n_voxel g →
        ∃ a b : Nat, T[v]? = some (a : Int) ∧ T[v + 1]? = some (b : Int) ∧
          (∀ i : Nat, a ≤ i → i < b → ∃ x, sp'.p[i]? = some x ∧ x.i = v) ∧
          (∀ (i : Nat) (x : particle_t), (i : Int) < sp.np → sp'.p[i]? = some x → x.i = v →
            a ≤ i ∧ i < b) := by
  obtain ⟨T, hrun, _, hT⟩ := sort_p_single_spec h junk st sp g hN hint hpre hvox
  refine ⟨_, _, T, hrun, rfl, rfl, ?_⟩
  intro v hv
  obtain ⟨nv, hnv⟩ := Int.eq_ofNat_of_zero_le hpre.n_voxel_nonneg
  have hlo : ∀ x ∈ live sp, (0 : Int) ≤ voxel x := fun x hx => (hvox x hx).1
  have hkey0 : ∀ x ∈ live sp, (0 : Int) ≤ voxel x ∧ voxel x < (0 : Int) + nv := by
    intro x hx
    have := hvox x hx
    simp only [voxel]; omega
  have hlen : (by_key voxel (live sp) 0 nv).length = (live sp).length :=
    (by_key_perm_self voxel (live sp) 0 nv hkey0).length_eq
  have hll := live_length sp hpre.np_nonneg hpre.np_le
  have hs := below_succ voxel (live sp) (v : Int)
  refine ⟨below voxel (live sp) v, below voxel (live sp) ((v : Int) + 1), hT v (by omega), ?_,
    ?_, ?_⟩
  · have := hT (v + 1) (by push_cast; omega)
    rw [this]; push_cast; rfl
  · intro i hi0 hi1
    obtain ⟨t, rfl⟩ : ∃ t, i = below voxel (live sp) v + t :=
      ⟨i - below voxel (live sp) v, by omega⟩
    have ht : t < cnt voxel (live sp) ((0 : Int) + v) := by rw [zero_add]; omega
    have hget := by_key_getElem? voxel (live sp) 0 hlo nv v t (by omega) ht
    rw [zero_add] at hget ht
    have hlt : t < (at_key voxel (live sp) v).length := by rw [at_key_length]; exact ht
    refine ⟨(at_key voxel (live sp) v)[t], ?_, (mem_at_key (List.getElem_mem hlt)).2⟩
    simp only [hnv, Int.toNat_ofNat]
    have hb : below voxel (live sp) ((v : Int) + 1) ≤ (live sp).length := below_le_length _ _ _
    rw [List.getElem?_append_left (by rw [hlen]; omega), hget, List.getElem?_eq_getElem hlt]
  · intro i x hi hx hxv
    simp only [hnv, Int.toNat_ofNat] at hx
    rw [List.getElem?_append_left (by rw [hlen]; omega)] at hx
    have htot : below voxel (live sp) ((0 : Int) + nv) = (live sp).length :=
      below_eq_length voxel _ _ (fun y hy => (hkey0 y hy).2)
    obtain ⟨k, t, hk, ht, hik⟩ := below_locate voxel (live sp) 0 hlo nv i (by rw [htot]; omega)
    have hget := by_key_getElem? voxel (live sp) 0 hlo nv k t hk ht
    rw [← hik, hx] at hget
    have hmem := mem_at_key (List.getElem?_mem hget.symm)
    have hkv : (0 : Int) + k = v := by rw [← hmem.2, ← hxv]; rfl
    rw [hkv] at hik ht
    omega

theorem sort_p_groups_by_voxel_witness :
    (env_one.N_PIPELINE = 1 ∧ int_defined env_one species_demo grid_five ∧
      sort_p_pre env_one species_demo grid_five ∧
      (∀ x ∈ live species_demo, 0 ≤ x.i ∧ x.i < n_voxel grid_five)) ∧
    ∃ st' sp' T, sort_p env_one junk_demo { max_scratch := 0 } species_demo grid_five
        = some (st', sp') ∧ sp'.np = species_demo.np ∧ sp'.partition = some T ∧
      ∀ v : Nat, (v : Int) < n_voxel grid_five →
        ∃ a b : Nat, T[v]? = some (a : Int) ∧ T[v + 1]? = some (b : Int) ∧
          (∀ i : Nat, a ≤ i → i < b → ∃ x, sp'.p[i]? = some x ∧ x.i = v) ∧
          (∀ (i : Nat) (x : particle_t), (i : Int) < species_demo.np → sp'.p[i]? = some x →
            x.i = v → a ≤ i ∧ i < b) :=
  ⟨⟨rfl, int_defined_one_demo, sort_p_pre_one_demo, voxels_demo⟩,
    sort_p_groups_by_voxel env_one junk_demo { max_scratch := 0 } species_demo grid_five rfl
      int_defined_one_demo sort_p_pre_one_demo voxels_demo⟩

/-- Claim C2: for every particle array of length `np` whose voxel indices all lie in
`[0, n_voxel)`, `sort_p` on the single-worker path returns and the offset table
`sp->partition` has `n_voxel + 1` entries, is non-decreasing, `partition[0] = 0` and
`partition[n_voxel] = np`.
The grid is one for which the `int` arithmetic of lines 143 and 151 does not overflow
(`int_defined`). -/
theorem sort_p_table_monotone (h : spa_private) (junk : junk_t) (st : sort_p_static)
    (sp : species_t) (g : grid_t) (hN : h.N_PIPELINE = 1) (hint : int_defined h sp g)
    (hpre : sort_p_pre h sp g)
    (hvox : ∀ x ∈ live sp, 0 ≤ x.i ∧ x.i < n_voxel g) :
    ∃ st' sp' T, sort_p h junk st sp g = some (st', sp') ∧ sp'.partition = some T ∧
      (T.length : Int) = n_voxel g + 1 ∧ T.Pairwise (· ≤ ·) ∧
      T[0]? = some 0 ∧ T[(n_voxel g).toNat]? = some sp.np := by
  obtain ⟨T, hrun, hlen, hT⟩ := sort_p_single_spec h junk st sp g hN hint hpre hvox
  refine ⟨_, _, T, hrun, rfl, hlen, ?_, ?_, ?_⟩
  · rw [List.pairwise_iff_getElem]
    intro i j hi hj hij
    have h1 := hT i (by omega)
    have h2 := hT j (by omega)
    rw [List.getElem?_eq_getElem hi] at h1
    rw [List.getElem?_eq_getElem hj] at h2
    injection h1 with h1
    injection h2 with h2
    rw [h1, h2]
    have : below voxel (live sp) (i : Int) ≤ below voxel (live sp) (j : Int) :=
      below_mono voxel _ (by omega)
    omega
  · have := hT 0 (by simpa using hpre.n_voxel_nonneg)
    rw [this, below_eq_zero voxel _ _ (fun x hx => by simpa using (hvox x hx).1)]
    rfl
  · have := hT (n_voxel g).toNat (by have := hpre.n_voxel_nonneg; omega)
    rw [this, below_eq_length voxel _ _ (fun x hx => by
      have := (hvox x hx).2
      have := hpre.n_voxel_nonneg
      simp only [voxel]; omega)]
    rw [live_length sp hpre.np_nonneg hpre.np_le]

theorem sort_p_table_monotone_witness :
    (env_one.N_PIPELINE = 1 ∧ int_defined env_one species_demo grid_five ∧
      sort_p_pre env_one species_demo grid_five ∧
      (∀ x ∈ live species_demo, 0 ≤ x.i ∧ x.i < n_voxel grid_five)) ∧
    ∃ st' sp' T, sort_p env_one junk_demo { max_scratch := 0 } species_demo grid_five
        = some (st', sp') ∧ sp'.partition = some T ∧
      (T.length : Int) = n_voxel grid_five + 1 ∧ T.Pairwise (· ≤ ·) ∧
      T[0]? = some 0 ∧ T[(n_voxel grid_five).toNat]? = some species_demo.np :=
  ⟨⟨rfl, int_defined_one_demo, sort_p_pre_one_demo, voxels_demo⟩,
    sort_p_table_monotone env_one junk_demo { max_scratch := 0 } species_demo grid_five rfl
      int_defined_one_demo sort_p_pre_one_demo voxels_demo⟩

/-- Claim C3: `sort_p` is a permutation of the particle array: for every input whose voxel
indices lie in `[0, n_voxel)`, `sort_p` on the single-worker path (copy back from scratch
included) returns and the records of `sp->p[0..np)` afterwards are a permutation of those
before it, so no record is altered, lost or duplicated; `np`, the length of the storage
and the storage beyond `np` are as before.
The grid is one for which the `int` arithmetic of lines 143 and 151 does not overflow
(`int_defined`). -/
theorem sort_p_permutes (h : spa_private) (junk : junk_t) (st : sort_p_static)
    (sp : species_t) (g : grid_t) (hN : h.N_PIPELINE = 1) (hint : int_defined h sp g)
    (hpre : sort_p_pre h sp g)
    (hvox : ∀ x ∈ live sp, 0 ≤ x.i ∧ x.i < n_voxel g) :
    ∃ st' sp', sort_p h junk st sp g = some (st', sp') ∧ sp'.np = sp.np ∧
      (live sp').Perm (live sp) ∧ sp'.p.length = sp.p.length ∧
      sp'.p.drop sp.np.toNat = sp.p.drop sp.np.toNat := by
  obtain ⟨T, hrun, _, _⟩ := sort_p_single_spec h junk st sp g hN hint hpre hvox
  obtain ⟨nv, hnv⟩ := Int.eq_ofNat_of_zero_le hpre.n_voxel_nonneg
  have hkey0 : ∀ x ∈ live sp, (0 : Int) ≤ voxel x ∧ voxel x < (0 : Int) + nv := by
    intro x hx
    have := hvox x hx
    simp only [voxel]; omega
  have hperm := by_key_perm_self voxel (live sp) 0 nv hkey0
  have hll := live_length sp hpre.np_nonneg hpre.np_le
  have hlen : (by_key voxel (live sp) 0 nv).length = sp.np.toNat := by
    rw [hperm.length_eq]; omega
  have hnpl := hpre.np_le
  refine ⟨_, _, hrun, rfl, ?_, ?_, ?_⟩
  · show (List.take sp.np.toNat
      (by_key voxel (live sp) 0 (n_voxel g).toNat ++ sp.p.drop sp.np.toNat)).Perm (live sp)
    simp only [hnv, Int.toNat_ofNat]
    rw [List.take_append_of_le_length (by omega), List.take_of_length_le (by omega)]
    exact hperm
  · simp only [hnv, Int.toNat_ofNat, List.length_append, hlen, List.length_drop]
    omega
  · simp only [hnv, Int.toNat_ofNat]
    rw [List.drop_append_of_le_length (by omega), List.drop_of_length_le (by omega)]
    rfl

theorem sort_p_permutes_witness :
    (env_one.N_PIPELINE = 1 ∧ int_defined env_one species_demo grid_five ∧
      sort_p_pre env_one species_demo grid_five ∧
      (∀ x ∈ live species_demo, 0 ≤ x.i ∧ x.i < n_voxel grid_five)) ∧
    ∃ st' sp', sort_p env_one junk_demo { max_scratch := 0 } species_demo grid_five
        = some (st', sp') ∧ sp'.np = species_demo.np ∧
      (live sp').Perm (live species_demo) ∧ sp'.p.length = species_demo.p.length ∧
      sp'.p.drop species_demo.np.toNat = species_demo.p.drop species_demo.np.toNat :=
  ⟨⟨rfl, int_defined_one_demo, sort_p_pre_one_demo, voxels_demo⟩,
    sort_p_permutes env_one junk_demo { max_scratch := 0 } species_demo grid_five rfl
      int_defined_one_demo sort_p_pre_one_demo voxels_demo⟩

/-- Claim C4: for every input whose voxel indices lie in `[0, n_voxel)` and every number
`K > 1` of pipelines, the parallel branch of `sort_p` (coarse count, coarse partitioning,
coarse sort, `K` subsorts) and `sort_p` run with a single pipeline both return, they
leave the same offset table, and for every voxel the run of that voxel holds the same
records (up to order) in both results; this is shown when the bucket mapper sends the
voxel index of each live record into the voxel range of its subsort pipeline, no voxel
range ends before it starts, and the slices of the coarse pipelines tile `[0, np)`.
The grid is one for which the `int` arithmetic of lines 143 and 151 does not overflow
(`int_defined`). -/
theorem sort_p_parallel_agrees (h : spa_private) (junk junk1 : junk_t) (st st1 : sort_p_static)
    (sp : species_t) (g : grid_t) (hK : 1 < h.N_PIPELINE) (hint : int_defined h sp g)
    (hpre : sort_p_pre h sp g)
    (hvox : ∀ x ∈ live sp, 0 ≤ x.i ∧ x.i < n_voxel g) (hpar : parallel_pre h sp g) :
    ∃ stK spK st1' sp1 T, sort_p h junk st sp g = some (stK, spK) ∧
      sort_p (serial h) junk1 st1 sp g = some (st1', sp1) ∧
      spK.partition = some T ∧ sp1.partition = some T ∧
      ∀ v : Nat, (v : Int) < n_voxel g → (voxel_run spK.p T v).Perm (voxel_run sp1.p T v) := by
  have _ := hK
  obtain ⟨nv, hnv⟩ := Int.eq_ofNat_of_zero_le hpre.n_voxel_nonneg
  have hkey : ∀ x ∈ live sp, 0 ≤ x.i ∧ x.i < (((n_voxel g).toNat : Nat) : Int) := by
    intro x hx; have := hvox x hx; omega
  obtain ⟨PK, TK, hrunK, hsK⟩ := sort_p_spec h junk st sp g hint hpre hvox (fun _ => hpar)
  obtain ⟨P1, T1, hrun1, hs1⟩ := sort_p_spec (serial h) junk1 st1 sp g
    (int_defined_serial h sp g hint) (sort_p_pre_serial h sp g hpre) hvox (fun hc => absurd hc (by simp [serial]))
  have hTT : T1 = TK := table_unique T1 TK _ _ hs1.table_length hsK.table_length
    hs1.table hsK.table
  subst hTT
  refine ⟨_, _, _, _, T1, hrunK, hrun1, rfl, rfl, ?_⟩
  intro v hv
  have hv' : v < (n_voxel g).toNat := by omega
  simp only
  rw [voxel_run_append PK _ T1 _ _ hsK v hv', voxel_run_append P1 _ T1 _ _ hs1 v hv']
  exact (voxel_run_perm _ _ _ _ hkey hsK v hv').trans
    (voxel_run_perm _ _ _ _ hkey hs1 v hv').symm

theorem sort_p_parallel_agrees_witness :
    (1 < env_two.N_PIPELINE ∧ int_defined env_two species_demo grid_five ∧
      sort_p_pre env_two species_demo grid_five ∧
      (∀ x ∈ live species_demo, 0 ≤ x.i ∧ x.i < n_voxel grid_five) ∧
      parallel_pre env_two species_demo grid_five) ∧
    (∃ stK spK st1' sp1 T,
      sort_p env_two junk_demo { max_scratch := 0 } species_demo grid_five = some (stK, spK) ∧
      sort_p (serial env_two) junk_demo { max_scratch := 0 } species_demo grid_five
        = some (st1', sp1) ∧
      spK.partition = some T ∧ sp1.partition = some T ∧
      ∀ v : Nat, (v : Int) < n_voxel grid_five →
        (voxel_run spK.p T v).Perm (voxel_run sp1.p T v)) ∧
    (sort_p env_two junk_demo { max_scratch := 0 } species_demo grid_five).map
      (fun r => r.2.partition) = some (some [0, 1, 2, 2, 4, 4]) ∧
    (sort_p (serial env_two) junk_demo { max_scratch := 0 } species_demo grid_five).map
      (fun r => r.2.partition) = some (some [0, 1, 2, 2, 4, 4]) :=
  ⟨⟨by decide, int_defined_two_demo, sort_p_pre_two_demo, voxels_demo, parallel_pre_two_demo⟩,
    sort_p_parallel_agrees env_two junk_demo junk_demo { max_scratch := 0 } { max_scratch := 0 }
      species_demo grid_five (by decide) int_defined_two_demo sort_p_pre_two_demo voxels_demo
      parallel_pre_two_demo,
    by decide, by decide⟩

/-- Claim C5: sorting an already sorted array again yields the same offset table: for
every input whose voxel indices lie in `[0, n_voxel)`, `sort_p` returns, `sort_p`
applied to its output returns as well, and the second table equals the first entry by
entry.  (With more than one pipeline this is shown under the contract of the bucket mapper
and of the slices that the parallel branch needs.)
The grid is one for which the `int` arithmetic of lines 143 and 151 does not overflow
(`int_defined`). -/
theorem sort_p_table_idempotent (h : spa_private) (junk junk' : junk_t) (st : sort_p_static)
    (sp : species_t) (g : grid_t) (hint : int_defined h sp g) (hpre : sort_p_pre h sp g)
    (hvox : ∀ x ∈ live sp, 0 ≤ x.i ∧ x.i < n_voxel g)
    (hpipe : 1 < h.N_PIPELINE → parallel_pre h sp g) :
    ∃ st1 sp1 st2 sp2 T, sort_p h junk st sp g = some (st1, sp1) ∧
      sort_p h junk' st1 sp1 g = some (st2, sp2) ∧
      sp1.partition = some T ∧ sp2.partition = some T := by
  obtain ⟨P1, T1, hrun1, hs1⟩ := sort_p_spec h junk st sp g hint hpre hvox hpipe
  have hP1 : P1.length = sp.np.toNat := by
    rw [hs1.perm.length_eq, live_length_nat sp hpre.np_nonneg hpre.np_le]
  have hlive := live_next sp P1 T1 hP1
  have hpre1 := sort_p_pre_next h sp g P1 T1 hpre hP1 hs1.table_length
  have hperm1 : (live { sp with p := P1 ++ sp.p.drop sp.np.toNat, partition := some T1 }).Perm
      (live sp) := by rw [hlive]; exact hs1.perm
  obtain ⟨P2, T2, hrun2, hs2⟩ := sort_p_spec h junk' (ensure_scratch h st sp.np (n_voxel g))
    { sp with p := P1 ++ sp.p.drop sp.np.toNat, partition := some T1 } g
    (int_defined_next h sp g _ T1 hint) hpre1
    (fun x hx => hvox x (hperm1.subset hx))
    (fun hK => parallel_pre_next h sp _ g rfl hperm1 (hpipe hK))
  have hTT : T2 = T1 := by
    apply table_unique T2 T1 _ _ hs2.table_length hs1.table_length hs2.table
    intro k hk
    rw [hs1.table k hk]
    have := hperm1.countP_eq (fun x => decide (voxel x < (k : Int)))
    simp only [below]
    rw [this]
  subst hTT
  exact ⟨_, _, _, _, T2, hrun1, hrun2, rfl, rfl⟩

theorem sort_p_table_idempotent_witness :
    (int_defined env_two species_demo grid_five ∧ sort_p_pre env_two species_demo grid_five ∧
      (∀ x ∈ live species_demo, 0 ≤ x.i ∧ x.i < n_voxel grid_five) ∧
      (1 < env_two.N_PIPELINE → parallel_pre env_two species_demo grid_five)) ∧
    ∃ st1 sp1 st2 sp2 T,
      sort_p env_two junk_demo { max_scratch := 0 } species_demo grid_five = some (st1, sp1) ∧
      sort_p env_two junk_demo st1 sp1 grid_five = some (st2, sp2) ∧
      sp1.partition = some T ∧ sp2.partition = some T :=
  ⟨⟨int_defined_two_demo, sort_p_pre_two_demo, voxels_demo, fun _ => parallel_pre_two_demo⟩,
    sort_p_table_idempotent env_two junk_demo junk_demo { max_scratch := 0 } species_demo
      grid_five int_defined_two_demo sort_p_pre_two_demo voxels_demo
      (fun _ => parallel_pre_two_demo)⟩

/-- Claim C6: when `np = 0`, for every `n_voxel`, `sort_p` returns and leaves an offset
table whose `n_voxel + 1` entries are all `0`, `partition[n_voxel]` included.  (With more
than one pipeline this is shown when no voxel range of a subsort pipeline ends before it
starts and the slices of the coarse pipelines are empty.)
The grid is one for which the `int` arithmetic of lines 143 and 151 does not overflow
(`int_defined`). -/
theorem sort_p_empty (h : spa_private) (junk : junk_t) (st : sort_p_static)
    (sp : species_t) (g : grid_t) (hnp : sp.np = 0) (hint : int_defined h sp g)
    (hpre : sort_p_pre h sp g)
    (hpipe : 1 < h.N_PIPELINE → parallel_pre h sp g) :
    ∃ st' sp', sort_p h junk st sp g = some (st', sp') ∧
      sp'.partition = some (List.replicate ((n_voxel g).toNat + 1) 0) ∧
      sp'.p = sp.p := by
  have hlive : live sp = [] := by simp [live, hnp]
  obtain ⟨P, T, hrun, hs⟩ := sort_p_spec h junk st sp g hint hpre
    (by rw [hlive]; intro x hx; cases hx) hpipe
  have hP : P = [] := by
    have := hs.perm.length_eq
    rw [hlive] at this
    exact List.length_eq_zero.mp this
  have hT : T = List.replicate ((n_voxel g).toNat + 1) 0 := by
    apply table_unique T _ (n_voxel g).toNat (fun _ => 0) hs.table_length (by simp)
    · intro k hk
      rw [hs.table k hk, hlive]
      rfl
    · intro k hk
      rw [List.getElem?_replicate, if_pos (by omega)]
  refine ⟨_, _, hrun, by rw [hT], ?_⟩
  simp [hP, hnp]

theorem sort_p_empty_witness :
    (species_empty.np = 0 ∧ int_defined env_two species_empty grid_ten ∧
      sort_p_pre env_two species_empty grid_ten ∧
      (1 < env_two.N_PIPELINE → parallel_pre env_two species_empty grid_ten)) ∧
    (∃ st' sp', sort_p env_two junk_demo { max_scratch := 0 } species_empty grid_ten
        = some (st', sp') ∧
      sp'.partition = some (List.replicate ((n_voxel grid_ten).toNat + 1) 0) ∧
      sp'.p = species_empty.p) ∧
    List.replicate ((n_voxel grid_ten).toNat + 1) (0 : Int)
      = [0, 0, 0, 0, 0, 0, 0, 0, 0, 0, 0] :=
  ⟨⟨rfl, int_defined_two_empty, sort_p_pre_two_empty, fun _ => parallel_pre_two_empty⟩,
    sort_p_empty env_two junk_demo { max_scratch := 0 } species_empty grid_ten rfl
      int_defined_two_empty sort_p_pre_two_empty (fun _ => parallel_pre_two_empty),
    by decide⟩

/-- Claim C7 (Scenario B): for four particles with voxel indices `3, 1, 3, 0`,
`n_voxel = 5` and a single worker over the voxels `[0, 5)`, `subsort_pipeline` returns,
the offset table it leaves is `[0, 1, 2, 2, 4, 4]`, and the particle formerly at index 3
(voxel 0) is at output index 0; the whole output is the records of voxel 0, 1, 3 in that
order. -/
theorem subsort_scenario_B (h : spa_private) (args : sort_p_pipeline_args_t)
    (x0 x1 x2 x3 : particle_t) (hx0 : x0.i = 3) (hx1 : x1.i = 1) (hx2 : x2.i = 3)
    (hx3 : x3.i = 0) (haux : args.aux_p = [x0, x1, x2, x3]) (hp : args.p.length = 4)
    (hcp0 : args.coarse_partition[0]? = some 0) (hcp1 : args.coarse_partition[1]? = some 4)
    (hnv : args.n_voxel = 5) (hnext : args.next.length = 5)
    (hpart : args.partition.length = 6) :
    ∃ args', subsort_pipeline h args 0 1 = some args' ∧
      args'.partition = [0, 1, 2, 2, 4, 4] ∧ args'.p[0]? = args.aux_p[3]? ∧
      args'.p = [x3, x1, x0, x2] := by
  obtain ⟨T, nx, hrun, hlT, _, hvT, _⟩ := subsort_pipeline_spec h args 0 1 0 4 0 5 (by decide)
    (by rw [show (0 : Int) = ((0 : Nat) : Int) from rfl, load_natCast, hcp0]; rfl)
    (by rw [show (0 : Int) + 1 = ((1 : Nat) : Int) from rfl, load_natCast, hcp1]; rfl)
    (by simp) (by simp [hnv]) (by decide) (by rw [haux]; simp) (by omega) (by decide)
    (by omega) (by omega)
    (by
      rw [haux]
      intro x hx
      simp only [seg, List.drop_zero, Nat.sub_zero, List.take_succ_cons, List.take_zero,
        List.mem_cons, List.mem_singleton, List.not_mem_nil, or_false] at hx
      rcases hx with rfl | rfl | rfl | rfl <;> simp [*])
  have hS : seg args.aux_p 0 (4 - 0) = [x0, x1, x2, x3] := by rw [haux]; rfl
  rw [hS] at hrun hvT
  have hplen : List.drop 4 args.p = [] := List.drop_of_length_le (by omega)
  have hby : by_key voxel [x0, x1, x2, x3] ((0 : Nat) : Int) (5 - 0) = [x3, x1, x0, x2] := by
    simp [by_key, at_key, voxel, hx0, hx1, hx2, hx3, List.range_succ, List.filter_cons]
  have hT : T = [0, 1, 2, 2, 4, 4] := by
    apply table_unique T [0, 1, 2, 2, 4, 4] 5 (fun k => ((0 : Nat) : Int) + (below voxel [x0, x1, x2, x3] k : Nat))
      (by omega) rfl
    · intro k hk
      rw [hvT k, if_pos (by omega)]
    · intro k hk
      have hb : ∀ v : Int, below voxel [x0, x1, x2, x3] v
          = (if (3 : Int) < v then 1 else 0) + (if (1 : Int) < v then 1 else 0)
            + (if (3 : Int) < v then 1 else 0) + (if (0 : Int) < v then 1 else 0) := by
        intro v
        simp only [below, voxel, List.countP_cons, List.countP_nil, hx0, hx1, hx2, hx3,
          decide_eq_true_eq]
        omega
      simp only [hb]
      interval_cases k <;> rfl
  refine ⟨_, hrun, hT, ?_, ?_⟩
  · simp only [List.take_zero, List.nil_append, hby, hplen, haux]
    rfl
  · simp only [List.take_zero, List.nil_append, hby, hplen, List.append_nil]

theorem subsort_scenario_B_witness :
    ((mk_particle 3 0).i = 3 ∧ (mk_particle 1 1).i = 1 ∧ (mk_particle 3 2).i = 3 ∧
      (mk_particle 0 3).i = 0 ∧
      args_demo.aux_p = [mk_particle 3 0, mk_particle 1 1, mk_particle 3 2, mk_particle 0 3] ∧
      args_demo.p.length = 4 ∧ args_demo.coarse_partition[0]? = some 0 ∧
      args_demo.coarse_partition[1]? = some 4 ∧ args_demo.n_voxel = 5 ∧
      args_demo.next.length = 5 ∧ args_demo.partition.length = 6) ∧
    ∃ args', subsort_pipeline env_one args_demo 0 1 = some args' ∧
      args'.partition = [0, 1, 2, 2, 4, 4] ∧ args'.p[0]? = args_demo.aux_p[3]? ∧
      args'.p = [mk_particle 0 3, mk_particle 1 1, mk_particle 3 0, mk_particle 3 2] :=
  ⟨⟨rfl, rfl, rfl, rfl, rfl, rfl, rfl, rfl, rfl, rfl, rfl⟩,
    subsort_scenario_B env_one args_demo (mk_particle 3 0) (mk_particle 1 1) (mk_particle 3 2)
      (mk_particle 0 3) rfl rfl rfl rfl rfl rfl rfl rfl rfl rfl rfl⟩

/-- Claim C8: the straggler invocation of the fine subsorter is a no-op: for every
argument block, `subsort_pipeline` called with `pipeline_rank == n_pipeline` returns and
leaves the block as it was, hence the offset table, the cursor array, the primary array
and the auxiliary array unchanged. -/
theorem subsort_straggler_noop (h : spa_private) (args : sort_p_pipeline_args_t)
    (n_pipeline : Int) :
    ∃ args', subsort_pipeline h args n_pipeline n_pipeline = some args' ∧
      args'.partition = args.partition ∧ args'.next = args.next ∧ args'.p = args.p ∧
      args'.aux_p = args.aux_p ∧ args' = args :=
  ⟨args, by simp [subsort_pipeline], rfl, rfl, rfl, rfl, rfl⟩

/-- Claim C9: the cached scratch capacity is never shrunk and is resized only when
insufficient: over every sequence of calls of `sort_p`, each call returns, its required
size `sz_scratch` is `sizeof(particle_t)*np + 128 + sizeof(int)*n_voxel`, the cached
capacity after the call is the maximum of the capacity before it and that size, so it is
not below the capacity before, not below the required size, and the static state is left
as it was when the capacity before already sufficed.
The calls are calls with defined behaviour (`call_ok`), which includes that the `int`
arithmetic of lines 143 and 151 does not overflow. -/
theorem sort_p_scratch_capacity (h : spa_private) :
    ∀ (calls : List (junk_t × species_t × grid_t)) (st : sort_p_static),
      (∀ c ∈ calls, call_ok h c) →
      ∃ sts, sort_p_calls h calls st = some sts ∧ sts.length = calls.length ∧
        ∀ i : Nat, i < calls.length → ∃ c before after,
          calls[i]? = some c ∧ (st :: sts)[i]? = some before ∧ sts[i]? = some after ∧
          sz_scratch h c.2.1.np (n_voxel c.2.2) = required_scratch h c.2.1 c.2.2 ∧
          after.max_scratch = max before.max_scratch (required_scratch h c.2.1 c.2.2) ∧
          before.max_scratch ≤ after.max_scratch ∧
          required_scratch h c.2.1 c.2.2 ≤ after.max_scratch ∧
          (required_scratch h c.2.1 c.2.2 ≤ before.max_scratch → after = before) := by
  intro calls
  induction calls with
  | nil =>
    intro st _
    exact ⟨[], rfl, rfl, by intro i hi; simp at hi⟩
  | cons c cs ih =>
    intro st hok
    obtain ⟨hint, hpre, hvox, hpipe⟩ := hok c (List.mem_cons_self _ _)
    obtain ⟨P, T, hrun, _⟩ := sort_p_spec h c.1 st c.2.1 c.2.2 hint hpre hvox hpipe
    obtain ⟨sts, hrs, hlen, hall⟩ := ih (ensure_scratch h st c.2.1.np (n_voxel c.2.2))
      (fun d hd => hok d (List.mem_cons_of_mem _ hd))
    have hsz : sz_scratch h c.2.1.np (n_voxel c.2.2) = required_scratch h c.2.1 c.2.2 :=
      sz_scratch_eq h _ _ hpre.np_nonneg hpre.n_voxel_nonneg hpre.scratch_fits
    have hmx := ensure_scratch_max h st c.2.1.np (n_voxel c.2.2)
    refine ⟨ensure_scratch h st c.2.1.np (n_voxel c.2.2) :: sts, ?_, by simp [hlen], ?_⟩
    · simp only [sort_p_calls, hrun, Option.some_bind, hrs, Option.map_some']
    · intro i hi
      cases i with
      | zero =>
        refine ⟨c, st, ensure_scratch h st c.2.1.np (n_voxel c.2.2), by simp, by simp, by simp, hsz, ?_,
          ?_, ?_, ?_⟩
        · rw [hmx, hsz]
        · rw [hmx]; omega
        · rw [hmx, hsz]; omega
        · intro hle
          exact ensure_scratch_keep h st _ _ (by omega)
      | succ i =>
        obtain ⟨d, before, after, h1, h2, h3, h4⟩ := hall i (by simpa using hi)
        exact ⟨d, before, after, by simpa using h1, by simpa using h2, by simpa using h3, h4⟩

theorem sort_p_scratch_capacity_witness :
    (∀ c ∈ [(junk_demo, species_demo, grid_five), (junk_demo, species_empty, grid_ten),
        (junk_demo, species_demo, grid_five)], call_ok env_two c) ∧
    ∃ sts, sort_p_calls env_two [(junk_demo, species_demo, grid_five),
        (junk_demo, species_empty, grid_ten), (junk_demo, species_demo, grid_five)]
        { max_scratch := 100 } = some sts ∧
      sts.length = [(junk_demo, species_demo, grid_five), (junk_demo, species_empty, grid_ten),
        (junk_demo, species_demo, grid_five)].length ∧
      ∀ i : Nat, i < [(junk_demo, species_demo, grid_five), (junk_demo, species_empty, grid_ten),
          (junk_demo, species_demo, grid_five)].length → ∃ c before after,
        [(junk_demo, species_demo, grid_five), (junk_demo, species_empty, grid_ten),
          (junk_demo, species_demo, grid_five)][i]? = some c ∧
        (({ max_scratch := 100 } : sort_p_static) :: sts)[i]? = some before ∧
        sts[i]? = some after ∧
        sz_scratch env_two c.2.1.np (n_voxel c.2.2) = required_scratch env_two c.2.1 c.2.2 ∧
        after.max_scratch = max before.max_scratch (required_scratch env_two c.2.1 c.2.2) ∧
        before.max_scratch ≤ after.max_scratch ∧
        required_scratch env_two c.2.1 c.2.2 ≤ after.max_scratch ∧
        (required_scratch env_two c.2.1 c.2.2 ≤ before.max_scratch → after = before) :=
  ⟨calls_demo_ok, sort_p_scratch_capacity env_two _ { max_scratch := 100 } calls_demo_ok⟩

/-- Claim C10 (prefix sum of the fine subsorter): for a real worker
(`0 <= rank < n_pipeline`) with auxiliary range `[i0, i1)` and voxel range `[v0, v1)`, as
`subsort_pipeline` reads and computes them, whose particles in that range all have voxel
indices in `[v0, v1)`, `subsort_pipeline` returns and afterwards every `v` with
`v0 <= v <= v1` has `partition[v] = i0 +` (number of particles of `aux_p[i0, i1)` with
voxel index below `v`); in particular `partition[v0] = i0` and `partition[v1] = i1`. -/
theorem subsort_partition_prefix (h : spa_private) (args : sort_p_pipeline_args_t)
    (rank n_pipeline : Int) (i0 i1 v0 v1 : Nat) (hr0 : 0 ≤ rank) (hr1 : rank < n_pipeline)
    (hi0 : load args.coarse_partition rank = some (i0 : Int))
    (hi1 : load args.coarse_partition (rank + 1) = some (i1 : Int))
    (hv0 : (if rank = 0 then 0 else h.P2V rank n_pipeline args.vl args.vh) = (v0 : Int))
    (hv1 : (if rank = n_pipeline - 1 then args.n_voxel
      else h.P2V (rank + 1) n_pipeline args.vl args.vh) = (v1 : Int))
    (hi : i0 ≤ i1) (hsrc : i1 ≤ args.aux_p.length) (hdst : i1 ≤ args.p.length)
    (hv : v0 ≤ v1) (hnext : v1 ≤ args.next.length) (hpart : v1 < args.partition.length)
    (hkey : ∀ x ∈ seg args.aux_p i0 (i1 - i0), (v0 : Int) ≤ x.i ∧ x.i < (v1 : Int)) :
    ∃ args', subsort_pipeline h args rank n_pipeline = some args' ∧
      (∀ v : Nat, v0 ≤ v → v ≤ v1 → args'.partition[v]? =
        some ((i0 : Int) + (below voxel (seg args.aux_p i0 (i1 - i0)) v : Nat))) ∧
      args'.partition[v0]? = some (i0 : Int) ∧ args'.partition[v1]? = some (i1 : Int) := by
  have _ := hr0
  obtain ⟨T, nx, hrun, _, _, hvT, _⟩ := subsort_pipeline_spec h args rank n_pipeline i0 i1 v0 v1
    (by omega) hi0 hi1 hv0 hv1 hi hsrc hdst hv hnext hpart hkey
  have hlen : (seg args.aux_p i0 (i1 - i0)).length = i1 - i0 := seg_length _ _ _ (by omega)
  refine ⟨_, hrun, ?_, ?_, ?_⟩
  · intro v h0 h1
    simp only
    rw [hvT v, if_pos ⟨h0, h1⟩]
  · simp only
    rw [hvT v0, if_pos ⟨le_refl _, hv⟩,
      below_eq_zero voxel _ _ (fun x hx => (hkey x hx).1)]
    simp
  · simp only
    rw [hvT v1, if_pos ⟨hv, le_refl _⟩,
      below_eq_length voxel _ _ (fun x hx => (hkey x hx).2), hlen]
    congr 1
    omega

theorem subsort_partition_prefix_witness :
    ((0 : Int) ≤ 0 ∧ (0 : Int) < 1 ∧
      load args_demo.coarse_partition 0 = some ((0 : Nat) : Int) ∧
      load args_demo.coarse_partition (0 + 1) = some ((4 : Nat) : Int) ∧
      (if (0 : Int) = 0 then 0 else env_one.P2V 0 1 args_demo.vl args_demo.vh)
        = ((0 : Nat) : Int) ∧
      (if (0 : Int) = 1 - 1 then args_demo.n_voxel
        else env_one.P2V (0 + 1) 1 args_demo.vl args_demo.vh) = ((5 : Nat) : Int) ∧
      0 ≤ 4 ∧ 4 ≤ args_demo.aux_p.length ∧ 4 ≤ args_demo.p.length ∧ 0 ≤ 5 ∧
      5 ≤ args_demo.next.length ∧ 5 < args_demo.partition.length ∧
      ∀ x ∈ seg args_demo.aux_p 0 (4 - 0), ((0 : Nat) : Int) ≤ x.i ∧ x.i < ((5 : Nat) : Int)) ∧
    ∃ args', subsort_pipeline env_one args_demo 0 1 = some args' ∧
      (∀ v : Nat, 0 ≤ v → v ≤ 5 → args'.partition[v]? =
        some (((0 : Nat) : Int) + (below voxel (seg args_demo.aux_p 0 (4 - 0)) v : Nat))) ∧
      args'.partition[0]? = some ((0 : Nat) : Int) ∧
      args'.partition[5]? = some ((4 : Nat) : Int) :=
  ⟨⟨by decide, by decide, by decide, by decide, by decide, by decide, by decide, by decide,
      by decide, by decide, by decide, by decide, by decide⟩,
    subsort_partition_prefix env_one args_demo 0 1 0 4 0 5 (by decide) (by decide) (by decide)
      (by decide) (by decide) (by decide) (by decide) (by decide) (by decide) (by decide)
      (by decide) (by decide) (by decide)⟩

/-- Claim C11 (boundary agreement between adjacent fine workers): on the parallel path the
coarse stage returns, leaving the auxiliary array grouped by bucket; then for every rank
`r` with `0 <= r < n_subsort - 1`, whatever `p`, `partition` and `next` hold when the
workers start, the workers of rank `r` and `r + 1` both return, the end `v1` of the range
of worker `r` is the start `v0` of the range of worker `r + 1`, so that both write the same
table index, and the value worker `r` leaves in `partition[v1]` equals the value worker
`r + 1` leaves in `partition[v0]`: both are `coarse_partition[r + 1]`, the number of
particles with a voxel index below that voxel.
The grid is one for which the `int` arithmetic of lines 143 and 151 does not overflow
(`int_defined`). -/
theorem fine_boundaries_agree (h : spa_private) (junk : junk_t) (sp : species_t) (g : grid_t)
    (hK : 1 < h.N_PIPELINE) (hint : int_defined h sp g) (hpre : sort_p_pre h sp g)
    (hpar : parallel_pre h sp g) :
    ∃ a, coarse_stage h (setup_args h junk sp g ((List.range sp.np.toNat).map junk.scratch_p)) sp
        = some a ∧
      ∀ (r : Nat) (a1 a2 : sort_p_pipeline_args_t), (r : Int) < h.N_PIPELINE - 1 →
        same_inputs a a1 → same_inputs a a2 →
        ∃ (b1 b2 : sort_p_pipeline_args_t) (v c : Nat),
          subsort_pipeline h a1 r h.N_PIPELINE = some b1 ∧
          subsort_pipeline h a2 ((r : Int) + 1) h.N_PIPELINE = some b2 ∧
          subsort_v1 h a1 r h.N_PIPELINE = v ∧
          subsort_v0 h a2 ((r : Int) + 1) h.N_PIPELINE = v ∧
          b1.partition[v]? = some (c : Int) ∧ b2.partition[v]? = some (c : Int) ∧
          a.coarse_partition[r + 1]? = some (c : Int) ∧ c = below voxel (live sp) v := by
  have _ := hint
  obtain ⟨a, hst, hvl, hvh, hnv, hcp, hfine⟩ :=
    fine_worker_table h junk sp g (by omega) hpre hpar
  refine ⟨a, hst, ?_⟩
  intro r a1 a2 hr hs1 hs2
  have hr1 : r < h.N_PIPELINE.toNat := by omega
  have hr2 : r + 1 < h.N_PIPELINE.toNat := by omega
  have hV0 : 0 ≤ range_start h g (r + 1) := by
    have := range_start_mono h sp g hpar (r + 1) 0 (by omega) (by omega)
    rw [range_start_zero h g (by omega)] at this
    exact this
  obtain ⟨v, hv⟩ := Int.eq_ofNat_of_zero_le hV0
  have hstep1 := range_start_step h sp g hpar r hr1
  have hstep2 := range_start_step h sp g hpar (r + 1) hr2
  obtain ⟨b1, hrun1, hT1⟩ := hfine r a1 hr1 hs1
  obtain ⟨b2, hrun2, hT2⟩ := hfine (r + 1) a2 hr2 hs2
  obtain ⟨_, _, _, _, e5, e6, e7, _, _, _⟩ := hs1
  obtain ⟨_, _, _, _, f5, f6, f7, _, _, _⟩ := hs2
  refine ⟨b1, b2, v, below voxel (live sp) v, hrun1, ?_, ?_, ?_, ?_, ?_, ?_, rfl⟩
  · have : ((r : Int) + 1) = ((r + 1 : Nat) : Int) := by push_cast; rfl
    rw [this]
    exact hrun2
  · have := range_hi_eq h g r hr1
    rw [← hv]
    rw [← this]
    simp only [subsort_v1, range_hi, e5, e6, e7, hvl, hvh, hnv]
  · have := range_lo_eq h g (r + 1) hr2
    rw [← hv, ← this]
    simp only [subsort_v0, range_lo, f5, f6, hvl, hvh]
    push_cast
    rfl
  · exact hT1 v (by omega) (by omega)
  · exact hT2 v (by omega) (by omega)
  · rw [hcp (r + 1) (by omega), hv]

theorem fine_boundaries_agree_witness :
    ∃ a, coarse_stage env_two (setup_args env_two junk_demo species_demo grid_five
        ((List.range species_demo.np.toNat).map junk_demo.scratch_p)) species_demo = some a ∧
      ∀ (r : Nat) (a1 a2 : sort_p_pipeline_args_t), (r : Int) < env_two.N_PIPELINE - 1 →
        same_inputs a a1 → same_inputs a a2 →
        ∃ (b1 b2 : sort_p_pipeline_args_t) (v c : Nat),
          subsort_pipeline env_two a1 r env_two.N_PIPELINE = some b1 ∧
          subsort_pipeline env_two a2 ((r : Int) + 1) env_two.N_PIPELINE = some b2 ∧
          subsort_v1 env_two a1 r env_two.N_PIPELINE = v ∧
          subsort_v0 env_two a2 ((r : Int) + 1) env_two.N_PIPELINE = v ∧
          b1.partition[v]? = some (c : Int) ∧ b2.partition[v]? = some (c : Int) ∧
          a.coarse_partition[r + 1]? = some (c : Int) ∧
          c = below voxel (live species_demo) v :=
  fine_boundaries_agree env_two junk_demo species_demo grid_five (by decide)
    int_defined_two_demo sort_p_pre_two_demo parallel_pre_two_demo

/-- Claim C12 (coarse partitioner): for every histogram matrix `count q p` (bucket
`q < n_subsort`, worker `p < n_coarse_pipeline`, stored at
`coarse_partition[q + max_subsort*p]`, with `n_subsort <= max_subsort` and the array long
enough), the in-place loop of lines 182-188 returns; afterwards every cell holds the
exclusive prefix sum in bucket-major, worker-minor order, i.e. the sum of `count q' p'`
over all `(q', p')` with `q' < q`, or `q' = q` and `p' < p`; the running sum after the
loop is the total of all the counts; entries that are not cells keep their values. -/
theorem coarse_partition_prefix_sums (h : spa_private) (count : Nat → Nat → Int)
    (n_subsort n_coarse_pipeline : Nat) (cp : List Int)
    (hK : (n_subsort : Int) ≤ h.max_subsort)
    (hlen : h.max_subsort * (n_coarse_pipeline : Int) ≤ (cp.length : Int))
    (hin : ∀ q p : Nat, q < n_subsort → p < n_coarse_pipeline →
      load cp ((q : Int) + h.max_subsort * (p : Int)) = some (count q p)) :
    ∃ cp', coarse_partition_loop h n_subsort n_coarse_pipeline cp
        = some (cp', total_count count n_subsort n_coarse_pipeline) ∧
      cp'.length = cp.length ∧
      (∀ q p : Nat, q < n_subsort → p < n_coarse_pipeline →
        load cp' ((q : Int) + h.max_subsort * (p : Int))
          = some (lex_sum count n_subsort n_coarse_pipeline q p)) ∧
      (∀ j : Int, (∀ q p : Nat, q < n_subsort → p < n_coarse_pipeline →
        j ≠ (q : Int) + h.max_subsort * (p : Int)) → load cp' j = load cp j) := by
  obtain ⟨MPn, hMP⟩ := Int.eq_ofNat_of_zero_le (by omega : (0 : Int) ≤ h.max_subsort)
  have hidx : ∀ q p : Nat, (q : Int) + h.max_subsort * (p : Int) = ((MPn * p + q : Nat) : Int) := by
    intro q p
    rw [hMP]; push_cast; ring
  obtain ⟨cp', hrun, hl, hv, ho⟩ := coarse_partition_loop_lex h count n_subsort MPn
    n_coarse_pipeline cp hMP (by omega) (by
      rw [hMP] at hlen
      exact_mod_cast hlen)
    (by
      intro r hr q hq
      have := hin q r hq hr
      rwa [hidx, load_natCast] at this)
  refine ⟨cp', hrun, hl, ?_, ?_⟩
  · intro q p hq hp
    rw [hidx, load_natCast]
    exact hv p hp q hq
  · intro j hj
    by_cases hj0 : 0 ≤ j
    · obtain ⟨k, rfl⟩ := Int.eq_ofNat_of_zero_le hj0
      rw [load_natCast, load_natCast]
      apply ho
      intro r hr q hq he
      apply hj q r hq hr
      rw [hidx, he]
    · simp [load, hj0]

theorem coarse_partition_prefix_sums_witness :
    ∃ cp', coarse_partition_loop env_two (2 : Nat) (3 : Nat) coarse_demo
        = some (cp', total_count count_demo 2 3) ∧
      cp'.length = coarse_demo.length ∧
      (∀ q p : Nat, q < 2 → p < 3 →
        load cp' ((q : Int) + env_two.max_subsort * (p : Int))
          = some (lex_sum count_demo 2 3 q p)) ∧
      (∀ j : Int, (∀ q p : Nat, q < 2 → p < 3 →
        j ≠ (q : Int) + env_two.max_subsort * (p : Int)) → load cp' j = load coarse_demo j) :=
  coarse_partition_prefix_sums env_two count_demo 2 3 coarse_demo (by decide) (by decide) (by
    intro q p hq hp
    interval_cases q <;> interval_cases p <;> rfl)

/-- Claim C13 (coarse scatter): on the parallel path, when the bucket mapper sends every
live record to a bucket in `[0, n_subsort)` and the slices of the coarse workers tile
`[0, np)`, the coarse counts and the partitioner return offsets `a`; started from these
offsets the `coarse_sort_pipeline` runs of all workers return, and the indices of their
stores to the auxiliary array, all workers taken together, are a rearrangement of
`0, ..., np - 1`: every index in `[0, np)` is written exactly once, so no two workers write
the same index.  Afterwards, with `coarse_partition[n_subsort] = np`, for every bucket `r`
the entries `aux[coarse_partition[r], coarse_partition[r + 1])` are exactly the live
records whose bucket is `r`. -/
theorem coarse_sort_writes_once (h : spa_private) (junk : junk_t) (sp : species_t)
    (g : grid_t) (hK : 1 < h.N_PIPELINE) (hpre : sort_p_pre h sp g)
    (hc : coarse_pre h sp g) :
    ∃ (a b c : sort_p_pipeline_args_t) (W : List Int),
      coarse_offsets h (setup_args h junk sp g ((List.range sp.np.toNat).map junk.scratch_p))
        = some a ∧
      EXEC_coarse_sort_logged h a = some (b, W) ∧
      EXEC_PIPELINES h (coarse_sort_pipeline h) a = some b ∧
      coarse_stage h (setup_args h junk sp g ((List.range sp.np.toNat).map junk.scratch_p)) sp
        = some c ∧
      c.aux_p = b.aux_p ∧
      W.Perm ((List.range sp.np.toNat).map (fun j : Nat => (j : Int))) ∧ W.Nodup ∧
      c.coarse_partition[h.N_PIPELINE.toNat]? = some sp.np ∧
      ∀ r : Nat, r < h.N_PIPELINE.toNat → ∃ c0 c1 : Nat,
        c.coarse_partition[r]? = some (c0 : Int) ∧ c.coarse_partition[r + 1]? = some (c1 : Int) ∧
        c0 ≤ c1 ∧ (c1 : Int) ≤ sp.np ∧
        (seg c.aux_p c0 (c1 - c0)).Perm (at_key (bucket_of h g) (live sp) r) := by
  have _ := hK
  obtain ⟨cp2, aux', hoff, hsort, hst, hcplen, hKlt, hauxl, hv2, hv3⟩ :=
    coarse_stage_spec h junk sp g (by omega) hpre hc
  obtain ⟨hnp0, hnpl, hnv0, hpl, hfit, hK1, hK2, hK3⟩ := hpre
  obtain ⟨MPn, hMP⟩ := Int.eq_ofNat_of_zero_le (by omega : (0 : Int) ≤ h.max_subsort)
  have hMt : h.max_subsort.toNat = MPn := by omega
  have hN : h.N_PIPELINE = (h.N_PIPELINE.toNat : Nat) := by omega
  have hSLperm := slices_cat_perm_core h sp g hnp0 hnpl hc
  have hSL : ∀ x ∈ slices_cat h sp (h.N_PIPELINE.toNat + 1), x ∈ live sp :=
    fun x hx => hSLperm.subset hx
  have hSLlen : (slices_cat h sp (h.N_PIPELINE.toNat + 1)).length = sp.np.toNat := by
    rw [hSLperm.length_eq]
    exact live_length_nat sp hnp0 hnpl
  have hbk : ∀ x ∈ slices_cat h sp (h.N_PIPELINE.toNat + 1),
      0 ≤ bucket_of h g x ∧ bucket_of h g x < (h.N_PIPELINE.toNat : Int) := by
    intro x hx
    have := hc.buckets x (hSL x hx)
    omega
  have hBK : below (bucket_of h g) (slices_cat h sp (h.N_PIPELINE.toNat + 1))
      (h.N_PIPELINE.toNat : Int) = sp.np.toNat := by
    rw [below_eq_length _ _ _ (fun x hx => (hbk x hx).2), hSLlen]
  have hcp : ∀ r : Nat, r ≤ h.N_PIPELINE.toNat →
      (cp2.set h.N_PIPELINE.toNat sp.np)[r]? = some ((below (bucket_of h g)
        (slices_cat h sp (h.N_PIPELINE.toNat + 1)) r : Nat) : Int) := by
    intro r hr
    rw [List.getElem?_set]
    by_cases hrK : h.N_PIPELINE.toNat = r
    · rw [if_pos hrK, if_pos hKlt, ← hrK, hBK]
      congr 1
      omega
    · rw [if_neg hrK]
      have := hv2 0 (by omega) r (by omega)
      simp only [Nat.mul_zero, Nat.zero_add] at this
      rw [this]
      simp [slices_cat, cnt]
  rw [hMt] at hcplen hv2
  obtain ⟨aux2, hlog⟩ := EXEC_coarse_sort_logged_spec h sp g
    { setup_args h junk sp g ((List.range sp.np.toNat).map junk.scratch_p) with
      coarse_partition := cp2 } h.N_PIPELINE.toNat MPn hN hMP (by omega) rfl rfl hN rfl rfl
    hnpl hc hcplen (by simp [setup_args, hSLlen]) hv2
  have htie := EXEC_coarse_sort_logged_fst h
    { setup_args h junk sp g ((List.range sp.np.toNat).map junk.scratch_p) with
      coarse_partition := cp2 }
  rw [hlog, hsort, Option.map_some'] at htie
  have haux : aux2 = aux' := by
    have := Option.some.inj htie
    exact congrArg sort_p_pipeline_args_t.aux_p this
  subst haux
  have hW : ((List.range (slices_cat h sp (h.N_PIPELINE.toNat + 1)).length).map
      (fun k : Nat => ((slot (bucket_of h g) (fun q : Nat => below (bucket_of h g)
        (slices_cat h sp (h.N_PIPELINE.toNat + 1)) q)
        (slices_cat h sp (h.N_PIPELINE.toNat + 1)) k : Nat) : Int))).Perm
      ((List.range sp.np.toNat).map (fun j : Nat => (j : Int))) := by
    have hp := (slot_perm (bucket_of h g) (slices_cat h sp (h.N_PIPELINE.toNat + 1))
      (fun x hx => (hbk x hx).1)).map (fun j : Nat => (j : Int))
    rw [List.map_map] at hp
    rw [← hSLlen]
    exact hp
  refine ⟨_, _, _, _, hoff, hlog, hsort, hst, rfl, hW, ?_, ?_, ?_⟩
  · rw [hW.nodup_iff]
    exact List.Nodup.map Nat.cast_injective (List.nodup_range _)
  · show (cp2.set h.N_PIPELINE.toNat sp.np)[h.N_PIPELINE.toNat]? = _
    rw [List.getElem?_set, if_pos rfl, if_pos hKlt]
  · intro r hr
    have hs := below_succ (bucket_of h g) (slices_cat h sp (h.N_PIPELINE.toNat + 1)) (r : Int)
    have hle := below_mono (bucket_of h g) (slices_cat h sp (h.N_PIPELINE.toNat + 1))
      (show ((r : Int) + 1) ≤ (h.N_PIPELINE.toNat : Int) by omega)
    refine ⟨below (bucket_of h g) (slices_cat h sp (h.N_PIPELINE.toNat + 1)) r,
      below (bucket_of h g) (slices_cat h sp (h.N_PIPELINE.toNat + 1)) ((r : Int) + 1),
      hcp r (by omega), ?_, by omega, by omega, ?_⟩
    · have := hcp (r + 1) (by omega)
      rw [this]
      push_cast
      rfl
    · have hseg : seg aux2 (below (bucket_of h g) (slices_cat h sp (h.N_PIPELINE.toNat + 1)) r)
          (at_key (bucket_of h g) (slices_cat h sp (h.N_PIPELINE.toNat + 1)) r).length
          = at_key (bucket_of h g) (slices_cat h sp (h.N_PIPELINE.toNat + 1)) r :=
        seg_eq_of_getElem? _ _ _ (fun t ht => hv3 r hr t (by rwa [at_key_length] at ht))
      rw [at_key_length] at hseg
      have hw : below (bucket_of h g) (slices_cat h sp (h.N_PIPELINE.toNat + 1)) ((r : Int) + 1)
          - below (bucket_of h g) (slices_cat h sp (h.N_PIPELINE.toNat + 1)) r
          = cnt (bucket_of h g) (slices_cat h sp (h.N_PIPELINE.toNat + 1)) r := by omega
      show (seg aux2 _ _).Perm _
      rw [hw, hseg]
      exact hSLperm.filter _

theorem coarse_sort_writes_once_witness :
    ∃ (a b c : sort_p_pipeline_args_t) (W : List Int),
      coarse_offsets env_two (setup_args env_two junk_demo species_demo grid_five
        ((List.range species_demo.np.toNat).map junk_demo.scratch_p)) = some a ∧
      EXEC_coarse_sort_logged env_two a = some (b, W) ∧
      EXEC_PIPELINES env_two (coarse_sort_pipeline env_two) a = some b ∧
      coarse_stage env_two (setup_args env_two junk_demo species_demo grid_five
        ((List.range species_demo.np.toNat).map junk_demo.scratch_p)) species_demo = some c ∧
      c.aux_p = b.aux_p ∧
      W.Perm ((List.range species_demo.np.toNat).map (fun j : Nat => (j : Int))) ∧ W.Nodup ∧
      c.coarse_partition[env_two.N_PIPELINE.toNat]? = some species_demo.np ∧
      ∀ r : Nat, r < env_two.N_PIPELINE.toNat → ∃ c0 c1 : Nat,
        c.coarse_partition[r]? = some (c0 : Int) ∧ c.coarse_partition[r + 1]? = some (c1 : Int) ∧
        c0 ≤ c1 ∧ (c1 : Int) ≤ species_demo.np ∧
        (seg c.aux_p c0 (c1 - c0)).Perm (at_key (bucket_of env_two grid_five)
          (live species_demo) r) :=
  coarse_sort_writes_once env_two junk_demo species_demo grid_five (by decide)
    sort_p_pre_two_demo (coarse_of_parallel parallel_pre_two_demo)

/-- Claim C14 (voxel ranges of the fine workers): for every `n_pipeline >= 1` the range
`[v0, v1)` that `subsort_pipeline` computes has `v0 = 0` for rank `0`, `v1 = n_voxel` for
rank `n_pipeline - 1`, and `v1` of rank `r` equal to `v0` of rank `r + 1` for every
`r < n_pipeline - 1`; so, when `P2V` hands no worker a range that ends before it starts,
every voxel index in `[0, n_voxel)` lies in the range of exactly one worker. -/
theorem subsort_ranges_tile (h : spa_private) (args : sort_p_pipeline_args_t)
    (n_pipeline : Int) (hn : 1 ≤ n_pipeline)
    (hord : ∀ r : Int, 0 ≤ r → r < n_pipeline →
      subsort_v0 h args r n_pipeline ≤ subsort_v1 h args r n_pipeline) :
    subsort_v0 h args 0 n_pipeline = 0 ∧
    subsort_v1 h args (n_pipeline - 1) n_pipeline = args.n_voxel ∧
    (∀ r : Int, 0 ≤ r → r < n_pipeline - 1 →
      subsort_v1 h args r n_pipeline = subsort_v0 h args (r + 1) n_pipeline) ∧
    ∀ v : Int, 0 ≤ v → v < args.n_voxel →
      ∃! r : Int, 0 ≤ r ∧ r < n_pipeline ∧
        subsort_v0 h args r n_pipeline ≤ v ∧ v < subsort_v1 h args r n_pipeline := by
  have h0 : subsort_v0 h args 0 n_pipeline = 0 := by simp [subsort_v0]
  have hlast : subsort_v1 h args (n_pipeline - 1) n_pipeline = args.n_voxel := by
    simp [subsort_v1]
  have hadj : ∀ r : Int, 0 ≤ r → r < n_pipeline - 1 →
      subsort_v1 h args r n_pipeline = subsort_v0 h args (r + 1) n_pipeline := by
    intro r hr0 hr1
    have h1 : ¬ r = n_pipeline - 1 := by omega
    have h2 : ¬ r + 1 = 0 := by omega
    simp [subsort_v0, subsort_v1, h1, h2]
  refine ⟨h0, hlast, hadj, ?_⟩
  intro v hv0 hv1
  obtain ⟨n, hnn⟩ := Int.eq_ofNat_of_zero_le (by omega : (0 : Int) ≤ n_pipeline)
  have hB : ∀ r : Nat, r < n →
      subsort_v1 h args r n_pipeline
        = if r + 1 < n then subsort_v0 h args ((r + 1 : Nat) : Int) n_pipeline
          else args.n_voxel := by
    intro r hr
    by_cases hl : r + 1 < n
    · rw [if_pos hl, hadj r (by omega) (by omega)]
      push_cast; rfl
    · have : (r : Int) = n_pipeline - 1 := by omega
      rw [if_neg hl, this, hlast]
  have hA : ∀ r : Nat, r < n →
      subsort_v0 h args r n_pipeline
        = if r < n then subsort_v0 h args r n_pipeline else args.n_voxel := by
    intro r hr
    rw [if_pos hr]
  obtain ⟨r, ⟨hr, h2, h3⟩, huniq⟩ := tile_locate
    (fun k : Nat => if k < n then subsort_v0 h args k n_pipeline else args.n_voxel) n
    (by
      intro r hr
      beta_reduce
      rw [← hA r hr, ← hB r hr]
      exact hord r (by omega) (by omega))
    v
    (by
      beta_reduce
      rw [← hA 0 (by omega)]
      simpa [h0] using hv0)
    (by simpa using hv1)
  rw [← hA r hr] at h2
  rw [← hB r hr] at h3
  refine ⟨(r : Int), ⟨by omega, by omega, h2, h3⟩, ?_⟩
  rintro r' ⟨hr0, hr1, h2', h3'⟩
  obtain ⟨k, rfl⟩ := Int.eq_ofNat_of_zero_le hr0
  have hk : k < n := by omega
  rw [hA k hk] at h2'
  rw [hB k hk] at h3'
  have := huniq k hk h2' h3'
  omega

theorem subsort_ranges_tile_witness :
    subsort_v0 env_spec args_ghost 0 2 = 0 ∧
    subsort_v1 env_spec args_ghost (2 - 1) 2 = args_ghost.n_voxel ∧
    (∀ r : Int, 0 ≤ r → r < 2 - 1 →
      subsort_v1 env_spec args_ghost r 2 = subsort_v0 env_spec args_ghost (r + 1) 2) ∧
    ∀ v : Int, 0 ≤ v → v < args_ghost.n_voxel →
      ∃! r : Int, 0 ≤ r ∧ r < 2 ∧
        subsort_v0 env_spec args_ghost r 2 ≤ v ∧ v < subsort_v1 env_spec args_ghost r 2 :=
  subsort_ranges_tile env_spec args_ghost 2 (by decide)
    (P2V_spec_ordered env_spec args_ghost 2 rfl (by decide) (by decide) (by decide))

/-- Claim C15 (write ranges of a fine worker): a real `subsort_pipeline` worker with auxiliary
range `[i0, i1)` and voxel range `[v0, v1)`, whose particles in that range all have voxel
indices in `[v0, v1)`, returns, and it changes only cursor entries `next[v0..v1)`,
offset-table entries `partition[v0..v1]` and destination records `p[i0..i1)`: every other
entry of `next`, `partition` and `p` is the one it was, the three arrays keep their lengths,
and the source array `aux_p` (and `coarse_partition`) is left as it was. -/
theorem subsort_writes_inside (h : spa_private) (args : sort_p_pipeline_args_t)
    (rank n_pipeline : Int) (i0 i1 v0 v1 : Nat) (hr0 : 0 ≤ rank) (hr1 : rank < n_pipeline)
    (hi0 : load args.coarse_partition rank = some (i0 : Int))
    (hi1 : load args.coarse_partition (rank + 1) = some (i1 : Int))
    (hv0 : (if rank = 0 then 0 else h.P2V rank n_pipeline args.vl args.vh) = (v0 : Int))
    (hv1 : (if rank = n_pipeline - 1 then args.n_voxel
      else h.P2V (rank + 1) n_pipeline args.vl args.vh) = (v1 : Int))
    (hi : i0 ≤ i1) (hsrc : i1 ≤ args.aux_p.length) (hdst : i1 ≤ args.p.length)
    (hv : v0 ≤ v1) (hnext : v1 ≤ args.next.length) (hpart : v1 < args.partition.length)
    (hkey : ∀ x ∈ seg args.aux_p i0 (i1 - i0), (v0 : Int) ≤ x.i ∧ x.i < (v1 : Int)) :
    ∃ args', subsort_pipeline h args rank n_pipeline = some args' ∧
      args'.aux_p = args.aux_p ∧ args'.coarse_partition = args.coarse_partition ∧
      args'.next.length = args.next.length ∧
      (∀ k : Nat, ¬ (v0 ≤ k ∧ k < v1) → args'.next[k]? = args.next[k]?) ∧
      args'.partition.length = args.partition.length ∧
      (∀ k : Nat, ¬ (v0 ≤ k ∧ k ≤ v1) → args'.partition[k]? = args.partition[k]?) ∧
      args'.p.length = args.p.length ∧
      (∀ k : Nat, ¬ (i0 ≤ k ∧ k < i1) → args'.p[k]? = args.p[k]?) := by
  have _ := hr0
  obtain ⟨T, nx, hrun, hTlen, hnlen, hvT, hvn⟩ := subsort_pipeline_spec h args rank n_pipeline
    i0 i1 v0 v1 (by omega) hi0 hi1 hv0 hv1 hi hsrc hdst hv hnext hpart hkey
  have hlen : (seg args.aux_p i0 (i1 - i0)).length = i1 - i0 := seg_length _ _ _ (by omega)
  have hby : (by_key voxel (seg args.aux_p i0 (i1 - i0)) v0 (v1 - v0)).length = i1 - i0 := by
    rw [by_key_length voxel _ _ (fun x hx => (hkey x hx).1),
      below_eq_length voxel _ _ (fun x hx => by
        have := (hkey x hx).2
        show x.i < _
        omega), hlen]
  refine ⟨_, hrun, rfl, rfl, hnlen, hvn, hTlen, ?_, ?_, ?_⟩
  · intro k hk
    simp only
    rw [hvT k, if_neg hk]
  · simp only [List.length_append, List.length_take, List.length_drop, hby]
    omega
  · intro k hk
    simp only
    by_cases hlt : k < i0
    · rw [List.append_assoc, List.getElem?_append_left (by rw [List.length_take]; omega),
        List.getElem?_take_of_lt hlt]
    · have hge : i1 ≤ k := by omega
      rw [List.getElem?_append_right (by
          rw [List.length_append, List.length_take, hby]; omega),
        List.length_append, List.length_take, hby, List.getElem?_drop]
      congr 1
      omega

theorem subsort_writes_inside_witness :
    ∃ args', subsort_pipeline env_one args_demo 0 1 = some args' ∧
      args'.aux_p = args_demo.aux_p ∧ args'.coarse_partition = args_demo.coarse_partition ∧
      args'.next.length = args_demo.next.length ∧
      (∀ k : Nat, ¬ (0 ≤ k ∧ k < 5) → args'.next[k]? = args_demo.next[k]?) ∧
      args'.partition.length = args_demo.partition.length ∧
      (∀ k : Nat, ¬ (0 ≤ k ∧ k ≤ 5) → args'.partition[k]? = args_demo.partition[k]?) ∧
      args'.p.length = args_demo.p.length ∧
      (∀ k : Nat, ¬ (0 ≤ k ∧ k < 4) → args'.p[k]? = args_demo.p[k]?) :=
  subsort_writes_inside env_one args_demo 0 1 0 4 0 5 (by decide) (by decide) (by decide)
    (by decide) (by decide) (by decide) (by decide) (by decide) (by decide) (by decide)
    (by decide) (by decide) (by decide)

/-- Claim C18 (stability): on the single-worker path (`N_PIPELINE = 1`), for an input whose
voxel indices all lie in `[0, n_voxel)`, `sort_p` returns and the particle at input index
`i < np`, with voxel index `v`, lands at index `dest i = partition[v] +` (number of input
indices `j < i` with the same voxel index); hence two particles with the same voxel index
keep their relative order: `i < j` gives `dest i < dest j`.
The grid is one for which the `int` arithmetic of lines 143 and 151 does not overflow
(`int_defined`). -/
theorem sort_p_stable (h : spa_private) (junk : junk_t) (st : sort_p_static)
    (sp : species_t) (g : grid_t) (hN : h.N_PIPELINE = 1) (hint : int_defined h sp g)
    (hpre : sort_p_pre h sp g)
    (hvox : ∀ x ∈ live sp, 0 ≤ x.i ∧ x.i < n_voxel g) :
    ∃ st' sp' T, ∃ dest : Nat → Nat, sort_p h junk st sp g = some (st', sp') ∧
      sp'.partition = some T ∧
      (∀ (i : Nat) (x : particle_t), (i : Int) < sp.np → sp.p[i]? = some x →
        ∃ a : Nat, T[x.i.toNat]? = some (a : Int) ∧
          dest i = a + cnt voxel (sp.p.take i) x.i ∧ sp'.p[dest i]? = some x) ∧
      (∀ (i j : Nat) (x y : particle_t), i < j → (j : Int) < sp.np → sp.p[i]? = some x →
        sp.p[j]? = some y → x.i = y.i → dest i < dest j) := by
  obtain ⟨T, hrun, _, hT⟩ := sort_p_single_spec h junk st sp g hN hint hpre hvox
  obtain ⟨nv, hnv⟩ := Int.eq_ofNat_of_zero_le hpre.n_voxel_nonneg
  have hk : ∀ y ∈ live sp, 0 ≤ voxel y ∧ voxel y < (nv : Int) := by
    intro y hy
    have := hvox y hy
    simp only [voxel]
    omega
  have hlenB : (by_key voxel (live sp) 0 nv).length = sp.np.toNat := by
    rw [(by_key_perm_self voxel (live sp) 0 nv (by simpa using hk)).length_eq]
    exact live_length_nat sp hpre.np_nonneg hpre.np_le
  refine ⟨_, _, T, fun i => match sp.p[i]? with
    | some x => below voxel (live sp) x.i + cnt voxel (sp.p.take i) x.i
    | none => 0, hrun, rfl, ?_, ?_⟩
  · intro i x hi hx
    have hx' : (live sp)[i]? = some x := by rw [live_getElem? sp i hi, hx]
    have hmem : x ∈ live sp := by
      obtain ⟨hlt, he⟩ := List.getElem?_eq_some_iff.mp hx'
      exact he ▸ List.getElem_mem hlt
    have hxv := hvox x hmem
    refine ⟨below voxel (live sp) x.i, ?_, ?_, ?_⟩
    · have := hT x.i.toNat (by omega)
      rw [this]
      congr 3
      omega
    · simp only [hx]
    · simp only [hx]
      have hland : (by_key voxel (live sp) 0 nv)[below voxel (live sp) x.i
          + cnt voxel ((live sp).take i) x.i]? = some x :=
        by_key_landing voxel (live sp) nv i x hk hx'
      rw [live_take sp i hi] at hland
      have hbound : below voxel (live sp) x.i + cnt voxel (sp.p.take i) x.i
          < (by_key voxel (live sp) 0 nv).length := by
        by_contra hc
        rw [List.getElem?_eq_none (by omega)] at hland
        cases hland
      rw [hnv, Int.toNat_ofNat, List.getElem?_append_left hbound]
      exact hland
  · intro i j x y hij hj hx hy hxy
    simp only [hx, hy]
    have hx' : (live sp)[i]? = some x := by rw [live_getElem? sp i (by omega), hx]
    have := cnt_take_lt voxel (live sp) i j x hx' hij
    rw [live_take sp i (by omega), live_take sp j hj] at this
    rw [← hxy]
    simp only [voxel] at this
    omega

theorem sort_p_stable_witness :
    ∃ st' sp' T, ∃ dest : Nat → Nat,
      sort_p env_one junk_demo { max_scratch := 0 } species_demo grid_five = some (st', sp') ∧
      sp'.partition = some T ∧
      (∀ (i : Nat) (x : particle_t), (i : Int) < species_demo.np →
        species_demo.p[i]? = some x →
        ∃ a : Nat, T[x.i.toNat]? = some (a : Int) ∧
          dest i = a + cnt voxel (species_demo.p.take i) x.i ∧ sp'.p[dest i]? = some x) ∧
      (∀ (i j : Nat) (x y : particle_t), i < j → (j : Int) < species_demo.np →
        species_demo.p[i]? = some x → species_demo.p[j]? = some y → x.i = y.i →
        dest i < dest j) :=
  sort_p_stable env_one junk_demo { max_scratch := 0 } species_demo grid_five rfl
    int_defined_one_demo sort_p_pre_one_demo voxels_demo

/-- Claim C19 (already sorted input): on the single-worker path (`N_PIPELINE = 1`), for an
input whose voxel indices all lie in `[0, n_voxel)`, `sort_p` returns; if the voxel indices
of `p[0..np)` are non-decreasing by index, the particle array is left exactly as it was;
and whatever the input order, a second `sort_p` on the result of the first returns and
leaves the particle array as the first call made it.
The grid is one for which the `int` arithmetic of lines 143 and 151 does not overflow
(`int_defined`). -/
theorem sort_p_sorted_fixed (h : spa_private) (junk : junk_t) (st : sort_p_static)
    (sp : species_t) (g : grid_t) (hN : h.N_PIPELINE = 1) (hint : int_defined h sp g)
    (hpre : sort_p_pre h sp g)
    (hvox : ∀ x ∈ live sp, 0 ≤ x.i ∧ x.i < n_voxel g) :
    ∃ st1 sp1, sort_p h junk st sp g = some (st1, sp1) ∧
      ((∀ (i j : Nat) (x y : particle_t), i < j → (j : Int) < sp.np → sp.p[i]? = some x →
        sp.p[j]? = some y → x.i ≤ y.i) → sp1.p = sp.p) ∧
      ∀ junk' : junk_t, ∃ st2 sp2, sort_p h junk' st1 sp1 g = some (st2, sp2) ∧
        sp2.p = sp1.p := by
  obtain ⟨T, hrun, hTlen, _⟩ := sort_p_single_spec h junk st sp g hN hint hpre hvox
  obtain ⟨nv, hnv⟩ := Int.eq_ofNat_of_zero_le hpre.n_voxel_nonneg
  have hk : ∀ y ∈ live sp, 0 ≤ voxel y ∧ voxel y < (nv : Int) := by
    intro y hy
    have := hvox y hy
    simp only [voxel]
    omega
  have hperm := by_key_perm_self voxel (live sp) 0 nv (by simpa using hk)
  have hlenL := live_length_nat sp hpre.np_nonneg hpre.np_le
  have hlenB : (by_key voxel (live sp) 0 nv).length = sp.np.toNat := by
    rw [hperm.length_eq]; exact hlenL
  have hnv' : (n_voxel g).toNat = nv := by omega
  rw [hnv'] at hrun
  refine ⟨_, _, hrun, ?_, ?_⟩
  · intro hs
    have hpw : (live sp).Pairwise (fun x y => voxel x ≤ voxel y) := by
      rw [List.pairwise_iff_getElem]
      intro i j hi hj hij
      have hjn : (j : Int) < sp.np := by omega
      have h1 : sp.p[i]? = some (live sp)[i] := by
        rw [← live_getElem? sp i (by omega)]
        exact List.getElem?_eq_getElem hi
      have h2 : sp.p[j]? = some (live sp)[j] := by
        rw [← live_getElem? sp j hjn]
        exact List.getElem?_eq_getElem hj
      exact hs i j _ _ hij hjn h1 h2
    show by_key voxel (live sp) 0 nv ++ sp.p.drop sp.np.toNat = sp.p
    rw [by_key_of_sorted voxel (live sp) nv hpw hk]
    exact List.take_append_drop _ _
  · intro junk'
    have hpre1 := sort_p_pre_next h sp g (by_key voxel (live sp) 0 nv) T hpre hlenB (by omega)
    have hlive1 := live_next sp (by_key voxel (live sp) 0 nv) T hlenB
    have hvox1 : ∀ x ∈ live { sp with
        p := by_key voxel (live sp) 0 nv ++ sp.p.drop sp.np.toNat, partition := some T },
        0 ≤ x.i ∧ x.i < n_voxel g := by
      intro x hx
      rw [hlive1] at hx
      exact hvox x (hperm.subset hx)
    obtain ⟨T2, hrun2, _, _⟩ := sort_p_single_spec h junk' (ensure_scratch h st sp.np (n_voxel g))
      _ g hN (int_defined_next h sp g _ T hint) hpre1 hvox1
    refine ⟨_, _, hrun2, ?_⟩
    simp only
    rw [hlive1, hnv', by_key_of_sorted voxel _ nv (by_key_pairwise voxel _ 0 nv)
      (fun x hx => hk x (hperm.subset hx))]
    congr 1
    rw [List.drop_append_of_le_length (by omega), List.drop_of_length_le (by omega),
      List.nil_append]

theorem sort_p_sorted_fixed_witness :
    ∃ st1 sp1,
      sort_p env_one junk_demo { max_scratch := 0 } species_sorted grid_five = some (st1, sp1) ∧
      sp1.p = species_sorted.p ∧
      ∀ junk' : junk_t, ∃ st2 sp2, sort_p env_one junk' st1 sp1 grid_five = some (st2, sp2) ∧
        sp2.p = sp1.p := by
  obtain ⟨st1, sp1, h1, h2, h3⟩ := sort_p_sorted_fixed env_one junk_demo { max_scratch := 0 }
    species_sorted grid_five rfl int_defined_one_sorted sort_p_pre_one_sorted voxels_sorted
  exact ⟨st1, sp1, h1, h2 species_sorted_ordered, h3⟩

/-- Claim C20 (the parallel path is as stable as the single-worker path): with `K > 1`
pipelines, when the slices of the coarse workers are consecutive ranges of `[0, np)` in
rank order with the straggler's slice last, and the bucket mapper is consistent with the
voxel ranges of the fine workers (every live record's voxel index lies in the range of its
bucket, and no range ends before it starts), `sort_p` on the parallel path and `sort_p`
run with a single pipeline both return and leave the same species: the same particle array
index by index and the same offset table.
The grid is one for which the `int` arithmetic of lines 143 and 151 does not overflow
(`int_defined`). -/
theorem sort_p_parallel_same_order (h : spa_private) (junk junk1 : junk_t)
    (st st1 : sort_p_static) (sp : species_t) (g : grid_t) (hK : 1 < h.N_PIPELINE)
    (hint : int_defined h sp g) (hpre : sort_p_pre h sp g) (hpar : parallel_pre h sp g)
    (hord : slices_in_order h sp) :
    ∃ stK spK st1' sp1, sort_p h junk st sp g = some (stK, spK) ∧
      sort_p (serial h) junk1 st1 sp g = some (st1', sp1) ∧
      spK.p = sp1.p ∧ (∀ i : Nat, spK.p[i]? = sp1.p[i]?) ∧ spK.partition = sp1.partition := by
  have hvox := voxels_of_parallel_pre h sp g (by omega) hpar
  obtain ⟨TK, hrunK, hlK, hvK⟩ := sort_p_multi_spec h junk st sp g hK hint hpre hpar
  obtain ⟨T1, hrun1, hl1, hv1⟩ := sort_p_single_spec (serial h) junk1 st1 sp g rfl
    (int_defined_serial h sp g hint) (sort_p_pre_serial h sp g hpre) hvox
  have hP : parallel_sorted h sp g = by_key voxel (live sp) 0 (n_voxel g).toNat :=
    parallel_sorted_exact h sp g (by omega) hpar (slices_cat_eq_live h sp hord)
  have hnv := hpre.n_voxel_nonneg
  have hTT : TK = T1 := table_unique TK T1 (n_voxel g).toNat
    (fun k => ((below voxel (live sp) k : Nat) : Int)) (by omega) (by omega)
    (fun k hk => hvK k (by omega)) (fun k hk => hv1 k (by omega))
  refine ⟨_, _, _, _, hrunK, hrun1, ?_, ?_, ?_⟩
  · simp only
    rw [hP]
  · intro i
    simp only
    rw [hP]
  · simp only
    rw [hTT]

theorem sort_p_parallel_same_order_witness :
    ∃ stK spK st1' sp1,
      sort_p env_two junk_demo { max_scratch := 0 } species_demo grid_five = some (stK, spK) ∧
      sort_p (serial env_two) junk_demo { max_scratch := 0 } species_demo grid_five
        = some (st1', sp1) ∧
      spK.p = sp1.p ∧ (∀ i : Nat, spK.p[i]? = sp1.p[i]?) ∧ spK.partition = sp1.partition :=
  sort_p_parallel_same_order env_two junk_demo junk_demo { max_scratch := 0 }
    { max_scratch := 0 } species_demo grid_five (by decide) int_defined_two_demo
    sort_p_pre_two_demo parallel_pre_two_demo ⟨by decide, by decide, by decide, by decide⟩

end SortP
